import Mathlib

/-!
# time-warp-test.c : shallow embedding and verified properties

The program `src/shared/deps/time-warp-test.c` forks worker processes that share one
page of memory.  Each worker samples three time sources (TSC, gettimeofday,
CLOCK_MONOTONIC), swaps the sample into a shared slot and counts a "warp" whenever
the signed difference to the previous shared sample is negative.

Conventions of the embedding (x86-64, LP64):

* `unsigned long`, `unsigned long long` and `long long` are 64-bit words, kept as
  natural numbers below `2 ^ 64`; `int` and `unsigned int` are 32 bits wide.
  Arithmetic wraps (two's complement), which is written out with `% 2 ^ w`; the one
  exception is the `int` index of the fork loop, see `fork_loop`.
* the shared page is a map from `unsigned long` index to word; the `SHARED_*`
  enumerators are the indices used by the `SHARED` / `SHARED_LL` accessors.
* values read from the time sources are inputs of the functions.
* every function records the primitive actions it performs (lock, unlock, loads and
  stores of shared words, clock reads, messages) in a trace.
* the model is sequential: `lock` on a flag whose bit 0 is already set spins
  for ever, since nobody else can clear it; this is the result `none`.
-/

namespace TimeWarp

/-! ## Machine integers -/

/-- Reinterpretation of a 64-bit word as `long long` (two's complement). -/
def toLL (w : Nat) : Int :=
  if w % 2 ^ 64 < 2 ^ 63 then ((w % 2 ^ 64 : Nat) : Int)
  else ((w % 2 ^ 64 : Nat) : Int) - 2 ^ 64

/-- The 64-bit word that stores a `long long`. -/
def ofLL (z : Int) : Nat := (z % 2 ^ 64).toNat

/-- Unsigned 64-bit subtraction `a - b`, wrapping modulo `2 ^ 64`. -/
def sub64 (a b : Nat) : Nat := (a % 2 ^ 64 + (2 ^ 64 - b % 2 ^ 64)) % 2 ^ 64

/-- Unsigned 64-bit addition `a + b`, wrapping modulo `2 ^ 64`. -/
def add64 (a b : Nat) : Nat := (a + b) % 2 ^ 64

/-- Conversion of a 64-bit word to `int`: the low 32 bits, two's complement. -/
def toInt32 (w : Nat) : Int :=
  if w % 2 ^ 32 < 2 ^ 31 then ((w % 2 ^ 32 : Nat) : Int)
  else ((w % 2 ^ 32 : Nat) : Int) - 2 ^ 32

/-- The C library function `int abs(int)`.  `abs(INT_MIN)` is not representable; the
two's complement negation leaves `INT_MIN` in place. -/
def c_abs (x : Int) : Int := if x = -(2 ^ 31) then -(2 ^ 31) else |x|

/-- Conversion of an `int` to `unsigned long long` (sign extension, modulo `2 ^ 64`). -/
def ofInt64 (x : Int) : Nat := (x % 2 ^ 64).toNat

/-! ## Layout of the shared page (the anonymous `enum`) -/

abbrev SHARED_LOCK : Nat := 0
abbrev SHARED_TSC : Nat := 2
abbrev SHARED_TOD : Nat := 4
abbrev SHARED_CLOCK : Nat := 6
abbrev SHARED_WORST_TSC : Nat := 8
abbrev SHARED_WORST_TOD : Nat := 10
abbrev SHARED_WORST_CLOCK : Nat := 12
abbrev SHARED_NR_TSC_LOOPS : Nat := 14
abbrev SHARED_NR_TSC_WARPS : Nat := 16
abbrev SHARED_NR_TOD_LOOPS : Nat := 18
abbrev SHARED_NR_TOD_WARPS : Nat := 20
abbrev SHARED_NR_CLOCK_LOOPS : Nat := 22
abbrev SHARED_NR_CLOCK_WARPS : Nat := 24
abbrev SHARED_END : Nat := 26

/-- The three time sources under test. -/
inductive Source
  | TSC
  | TOD
  | CLOCK
  deriving DecidableEq, Repr

/-- Index of the last-sample slot of a source. -/
def lastSlot : Source → Nat
  | Source.TSC => SHARED_TSC
  | Source.TOD => SHARED_TOD
  | Source.CLOCK => SHARED_CLOCK

/-- Index of the worst-delta slot of a source. -/
def worstSlot : Source → Nat
  | Source.TSC => SHARED_WORST_TSC
  | Source.TOD => SHARED_WORST_TOD
  | Source.CLOCK => SHARED_WORST_CLOCK

/-- Index of the loop counter of a source. -/
def loopSlot : Source → Nat
  | Source.TSC => SHARED_NR_TSC_LOOPS
  | Source.TOD => SHARED_NR_TOD_LOOPS
  | Source.CLOCK => SHARED_NR_CLOCK_LOOPS

/-- Index of the warp counter of a source. -/
def warpSlot : Source → Nat
  | Source.TSC => SHARED_NR_TSC_WARPS
  | Source.TOD => SHARED_NR_TOD_WARPS
  | Source.CLOCK => SHARED_NR_CLOCK_WARPS

/-! ## Primitive actions -/

/-- Primitive actions recorded in the trace of an operation. -/
inductive Event
  | lock (idx : Nat)
  | unlock (idx : Nat)
  | load (idx val : Nat)
  | store (idx val : Nat)
  | rdtscll (val : Nat)
  | rdtod (val : Nat)
  | rdclock (val : Nat)
  | warp_msg (src : Source) (delta : Int) (t0 t1 : Nat)
  | pause
  | status_msg (src : Source) (sum_tod sum_loops warps : Nat)
  | progress_msg (c : Char)
  | fflush
  deriving DecidableEq, Repr

/-- Shared page together with the actions performed so far. -/
structure World where
  shared : Nat → Nat
  trace : List Event

/-- Append one action to the trace. -/
def World.emit (e : Event) (w : World) : World :=
  { shared := w.shared, trace := w.trace ++ [e] }

/-- Read of the shared word at `idx` (`SHARED(x)` or `SHARED_LL(x)` as an rvalue). -/
def load (idx : Nat) (w : World) : Nat × World :=
  (w.shared idx, w.emit (Event.load idx (w.shared idx)))

/-- Write of the shared word at `idx` (`SHARED(x) = val`). -/
def store (idx val : Nat) (w : World) : World :=
  { shared := fun j => if j = idx then val % 2 ^ 64 else w.shared j,
    trace := w.trace ++ [Event.store idx (val % 2 ^ 64)] }

/-- The spin lock: `lock; btsl $0` sets bit 0 of the flag and the loop is left when
the bit was clear before.  When the bit is set the caller spins until another
process clears it, which never happens in the sequential model (`none`). -/
def lock (idx : Nat) (w : World) : Option World :=
  if w.shared idx % 2 = 0 then
    some { shared := fun j => if j = idx then w.shared idx + 1 else w.shared j,
           trace := w.trace ++ [Event.lock idx] }
  else none

/-- Release of the spin lock: `mov $0` into the flag. -/
def unlock (idx : Nat) (w : World) : World :=
  { shared := fun j => if j = idx then 0 else w.shared j,
    trace := w.trace ++ [Event.unlock idx] }

/-! ## The sampling steps -/

/-- Result of one sampling step: the shared page, the actions of the step and the
values of the local variables `t0`, `t1` and `delta`. -/
structure Step where
  shared : Nat → Nat
  trace : List Event
  t0 : Nat
  t1 : Nat
  delta : Int

/-- The function `test_TSC`; `tsc` is the value returned by `rdtscll`. -/
def test_TSC (tsc : Nat) (shared : Nat → Nat) : Option Step := do
  let w ← lock SHARED_LOCK ⟨shared, []⟩
  let t1 := tsc % 2 ^ 64
  let w := w.emit (Event.rdtscll t1)
  let (t0, w) := load SHARED_TSC w
  let w := store SHARED_TSC t1 w
  let (n, w) := load SHARED_NR_TSC_LOOPS w
  let w := store SHARED_NR_TSC_LOOPS (n + 1) w
  let w := unlock SHARED_LOCK w
  let delta := toLL (sub64 t1 t0)
  let w ←
    if delta < 0 then do
      let w ← lock SHARED_LOCK w
      let (c, w) := load SHARED_NR_TSC_WARPS w
      let w := store SHARED_NR_TSC_WARPS (c + 1) w
      let (worst, w) := load SHARED_WORST_TSC w
      let w :=
        if delta < toLL worst then
          (store SHARED_WORST_TSC (ofLL delta) w).emit (Event.warp_msg Source.TSC delta t0 t1)
        else w
      pure (unlock SHARED_LOCK w)
    else pure w
  let w := if t0 % 32 = 0 then w.emit Event.pause else w
  pure { shared := w.shared, trace := w.trace, t0 := t0, t1 := t1, delta := delta }

/-- The function `test_TOD`; `tod` is the value computed by `rdtod`. -/
def test_TOD (tod : Nat) (shared : Nat → Nat) : Option Step := do
  let w ← lock SHARED_LOCK ⟨shared, []⟩
  let t1 := tod % 2 ^ 64
  let w := w.emit (Event.rdtod t1)
  let (t0, w) := load SHARED_TOD w
  let w := store SHARED_TOD t1 w
  let (n, w) := load SHARED_NR_TOD_LOOPS w
  let w := store SHARED_NR_TOD_LOOPS (n + 1) w
  let w := unlock SHARED_LOCK w
  let delta := toLL (sub64 t1 t0)
  let w ←
    if delta < 0 then do
      let w ← lock SHARED_LOCK w
      let (c, w) := load SHARED_NR_TOD_WARPS w
      let w := store SHARED_NR_TOD_WARPS (c + 1) w
      let (worst, w) := load SHARED_WORST_TOD w
      let w :=
        if delta < toLL worst then
          (store SHARED_WORST_TOD (ofLL delta) w).emit (Event.warp_msg Source.TOD delta t0 t1)
        else w
      pure (unlock SHARED_LOCK w)
    else pure w
  pure { shared := w.shared, trace := w.trace, t0 := t0, t1 := t1, delta := delta }

/-- The function `test_CLOCK`; `clk` is the value computed by `rdclock`. -/
def test_CLOCK (clk : Nat) (shared : Nat → Nat) : Option Step := do
  let w ← lock SHARED_LOCK ⟨shared, []⟩
  let t1 := clk % 2 ^ 64
  let w := w.emit (Event.rdclock t1)
  let (t0, w) := load SHARED_CLOCK w
  let w := store SHARED_CLOCK t1 w
  let (n, w) := load SHARED_NR_CLOCK_LOOPS w
  let w := store SHARED_NR_CLOCK_LOOPS (n + 1) w
  let w := unlock SHARED_LOCK w
  let delta := toLL (sub64 t1 t0)
  let w ←
    if delta < 0 then do
      let w ← lock SHARED_LOCK w
      let (c, w) := load SHARED_NR_CLOCK_WARPS w
      let w := store SHARED_NR_CLOCK_WARPS (c + 1) w
      let (worst, w) := load SHARED_WORST_CLOCK w
      let w :=
        if delta < toLL worst then
          (store SHARED_WORST_CLOCK (ofLL delta) w).emit
            (Event.warp_msg Source.CLOCK delta t0 t1)
        else w
      pure (unlock SHARED_LOCK w)
    else pure w
  pure { shared := w.shared, trace := w.trace, t0 := t0, t1 := t1, delta := delta }

/-- The sampling step of a source. -/
def test : Source → Nat → (Nat → Nat) → Option Step
  | Source.TSC => test_TSC
  | Source.TOD => test_TOD
  | Source.CLOCK => test_CLOCK

/-- The page returned by `setup_shared_var`: a mapping of 4096 zero bytes. -/
def setup_shared_var : Nat → Nat := fun _ => 0

/-- Number of stores to the shared word `idx` in a trace. -/
def storesTo (idx : Nat) (tr : List Event) : Nat :=
  (tr.filter fun e => match e with
    | Event.store i _ => i = idx
    | _ => false).length

/-- The warp diagnostics (lines on the error stream) in a trace. -/
def warpMsgs (tr : List Event) : List Event :=
  tr.filter fun e => match e with
    | Event.warp_msg _ _ _ _ => true
    | _ => false

/-! ## The status reporter -/

/-- The function-local `static` variables of `print_status`. -/
structure Statics where
  sum_tsc_loops : Nat
  sum_tod_loops : Nat
  sum_clock_loops : Nat
  sum_tod : Nat
  count1 : Nat
  count2 : Nat
  prev_tod : Nat
  deriving DecidableEq, Repr

/-- Static storage is zero-initialised. -/
def Statics.init : Statics :=
  { sum_tsc_loops := 0, sum_tod_loops := 0, sum_clock_loops := 0, sum_tod := 0,
    count1 := 0, count2 := 0, prev_tod := 0 }

/-- The way `print_status` is left: through the `return` after the call counter,
through the `return` after the wall-clock check, or at the end after a report. -/
inductive Path
  | count_return
  | rate_return
  | reported
  deriving DecidableEq, Repr

/-- Result of one call of `print_status`. -/
structure Status where
  statics : Statics
  shared : Nat → Nat
  trace : List Event
  path : Path

/-- The array `progress` (backslash, bar, slash, dash), indexed by `count2 & 3`. -/
def progress (i : Nat) : Char :=
  match i % 4 with
  | 0 => Char.ofNat 92
  | 1 => '|'
  | 2 => '/'
  | _ => '-'

/-- The function `print_status`.  `now0` is the value `rdtod` would give at the first
read (taken only while `prev_tod` is zero), `now1` the value at the second read.
The printed average `(double)sum_tod/(double)sum_*_loops` is recorded by its two
operands. -/
def print_status (now0 now1 : Nat) (st : Statics) (shared : Nat → Nat) : Status :=
  let w : World := ⟨shared, []⟩
  let prev_tod := if st.prev_tod = 0 then now0 % 2 ^ 64 else st.prev_tod
  let w := if st.prev_tod = 0 then w.emit (Event.rdtod (now0 % 2 ^ 64)) else w
  let count1 := (st.count1 + 1) % 2 ^ 32
  if count1 < 1000 then
    { statics := { st with prev_tod := prev_tod, count1 := count1 },
      shared := w.shared, trace := w.trace, path := Path.count_return }
  else
    let tod := now1 % 2 ^ 64
    let w := w.emit (Event.rdtod tod)
    if ofInt64 (c_abs (toInt32 (sub64 tod prev_tod))) < 100000 then
      { statics := { st with prev_tod := prev_tod, count1 := 0 },
        shared := w.shared, trace := w.trace, path := Path.rate_return }
    else
      let sum_tod := add64 st.sum_tod (sub64 tod prev_tod)
      let (a, w) := load SHARED_NR_TSC_LOOPS w
      let sum_tsc_loops := add64 st.sum_tsc_loops a
      let (b, w) := load SHARED_NR_TOD_LOOPS w
      let sum_tod_loops := add64 st.sum_tod_loops b
      let (c, w) := load SHARED_NR_CLOCK_LOOPS w
      let sum_clock_loops := add64 st.sum_clock_loops c
      let w := store SHARED_NR_TSC_LOOPS 0 w
      let w := store SHARED_NR_TOD_LOOPS 0 w
      let w := store SHARED_NR_CLOCK_LOOPS 0 w
      let (f, w) := load SHARED_NR_TSC_WARPS w
      let w := w.emit (Event.status_msg Source.TSC sum_tod sum_tsc_loops f)
      let (g, w) := load SHARED_NR_TOD_WARPS w
      let w := w.emit (Event.status_msg Source.TOD sum_tod sum_tod_loops g)
      let (h, w) := load SHARED_NR_CLOCK_WARPS w
      let w := w.emit (Event.status_msg Source.CLOCK sum_tod sum_clock_loops h)
      let count2 := (st.count2 + 1) % 2 ^ 32
      let w := w.emit (Event.progress_msg (progress count2))
      let w := w.emit Event.fflush
      { statics :=
          { sum_tsc_loops := sum_tsc_loops, sum_tod_loops := sum_tod_loops,
            sum_clock_loops := sum_clock_loops, sum_tod := sum_tod,
            count1 := 0, count2 := count2, prev_tod := tod },
        shared := w.shared, trace := w.trace, path := Path.reported }

/-! ## Sequential runs -/

/-- State of a sequential run: the shared page and the reporter's statics. -/
structure Sys where
  shared : Nat → Nat
  statics : Statics

/-- The state before the first step: the page of `setup_shared_var`, zero statics. -/
def Sys.init : Sys := ⟨setup_shared_var, Statics.init⟩

/-- One operation of a sequential run, with the values the clocks return in it. -/
inductive Action
  | sample (X : Source) (val : Nat)
  | status (now0 now1 : Nat)
  deriving DecidableEq, Repr

/-- Execution of one operation. -/
def exec : Action → Sys → Option Sys
  | Action.sample X val, s => (test X val s.shared).map fun r => ⟨r.shared, s.statics⟩
  | Action.status now0 now1, s =>
    let r := print_status now0 now1 s.statics s.shared
    some ⟨r.shared, r.statics⟩

/-- Execution of a sequence of operations, first to last. -/
def run : List Action → Sys → Option Sys
  | [], s => some s
  | a :: as, s => (exec a s).bind (run as)

/-- The loop `for (i = 0; i < n; i++) test_X(shared);` where the i-th call reads
`sample i` from the time source. -/
def test_loop (X : Source) (sample : Nat → Nat) : Nat → (Nat → Nat) → Option (Nat → Nat)
  | 0, shared => some shared
  | n + 1, shared =>
    (test_loop X sample n shared).bind fun sh => (test X (sample n) sh).map fun r => r.shared

/-- One iteration, number `k`, of the `while (1)` loop of `main`.  The streams `tsc`,
`tod`, `clk` list the values the three time sources return to this process;
`reporter` is the test `me == parent`. -/
def main_iteration (reporter : Bool) (tsc tod clk now0 now1 : Nat → Nat) (k : Nat)
    (s : Sys) : Option Sys :=
  (test_loop Source.TSC (fun i => tsc (10 * k + i)) 10 s.shared).bind fun sh1 =>
  (test_loop Source.TOD (fun i => tod (10 * k + i)) 10 sh1).bind fun sh2 =>
  (test_loop Source.CLOCK (fun i => clk (10 * k + i)) 10 sh2).bind fun sh3 =>
  if reporter then
    let r := print_status (now0 k) (now1 k) s.statics sh3
    some ⟨r.shared, r.statics⟩
  else some ⟨sh3, s.statics⟩

/-- The first `n` iterations of the `while (1)` loop of `main`. -/
def main_loop (reporter : Bool) (tsc tod clk now0 now1 : Nat → Nat) : Nat → Sys → Option Sys
  | 0, s => some s
  | n + 1, s =>
    (main_loop reporter tsc tod clk now0 now1 n s).bind
      (main_iteration reporter tsc tod clk now0 now1 n)

/-! ## Command line of `main` -/

/-- The C library predicate `isspace` in the C locale: space and the control
characters 9 (tab) to 13 (carriage return). -/
def isspace (c : Char) : Bool := c.toNat = 32 || (9 ≤ c.toNat && c.toNat ≤ 13)

/-- The C library predicate `isdigit`. -/
def isdigit (c : Char) : Bool := 48 ≤ c.toNat && c.toNat ≤ 57

/-- Removal of leading white space, the first phase of `atol`. -/
def skip_space : List Char → List Char
  | [] => []
  | c :: cs => if isspace c then skip_space cs else c :: cs

/-- Value of the longest run of decimal digits at the head of the string, on top
of the accumulator `acc`. -/
def digits_value : List Char → Nat → Nat
  | [], acc => acc
  | c :: cs, acc => if isdigit c then digits_value cs (10 * acc + (c.toNat - 48)) else acc

/-- The C library function `atol` (`strtol (s, NULL, 10)` of glibc): optional white
space, optional sign, then decimal digits up to the first other character; 0 when
there is no digit; values out of the range of `long` saturate. -/
def atol (s : List Char) : Int :=
  match skip_space s with
  | '-' :: cs => max (-(2 ^ 63)) (-(digits_value cs 0 : Int))
  | '+' :: cs => min (2 ^ 63 - 1) (digits_value cs 0 : Int)
  | cs => min (2 ^ 63 - 1) (digits_value cs 0 : Int)

/-- The macro `WEXITSTATUS`: bits 8 to 15 of a wait status. -/
def WEXITSTATUS (status : Nat) : Nat := (status / 256) % 256

/-- Actions of `main` outside the sampling loop. -/
inductive MainEvent
  | system_cpuinfo
  | usage_msg
  | exit (status : Int)
  | banner (cpus tasks : Nat)
  | setup_shared
  | getpid (pid : Nat)
  | fork (child : Nat)
  deriving DecidableEq, Repr

/-- Outcome of the argument handling of `main`: the process has exited, or it goes
on with a task count. -/
inductive Startup
  | exited (status : Int) (events : List MainEvent)
  | started (cpus tasks : Nat) (events : List MainEvent)
  deriving DecidableEq, Repr

/-- The code at the label `usage:` of `main`: the usage line on the error stream,
then `exit (-1)`.  The call of `system` has been made before. -/
def usage : Startup :=
  Startup.exited (-1) [MainEvent.system_cpuinfo, MainEvent.usage_msg, MainEvent.exit (-1)]

/-- The code of `main` from the first `printf` to `setup_shared_var`. -/
def start (cpus tasks : Nat) : Startup :=
  Startup.started cpus tasks
    [MainEvent.system_cpuinfo, MainEvent.banner cpus tasks, MainEvent.setup_shared]

/-- The first part of `main`, up to and including `setup_shared_var`.  `status` is
the value returned by `system`, `argv` the argument vector (`argv[0]` included), so
that `argc` is its length. -/
def main_args (status : Nat) (argv : List (List Char)) : Startup :=
  let cpus := WEXITSTATUS status
  if argv.length > 2 then usage
  else if argv.length = 2 then
    let tasks := ofInt64 (atol (argv.getD 1 []))
    if tasks = 0 then usage else start cpus tasks
  else start cpus cpus

/-- The exit status seen by the parent of a process that called `exit (status)`. -/
def exit_status (status : Int) : Nat := (status % 256).toNat

/-! ## The fork loop of `main` -/

/-- A process that has left the fork loop: its process id, the value of its variable
`parent`, the return value of its last `fork` (`none` when it never called `fork`),
the ids of the processes it created, and the final value of `i`. -/
structure Proc where
  pid : Nat
  parent : Nat
  last_fork : Option Nat
  children : List Nat
  i : Int
  deriving DecidableEq, Repr

/-- The loop `for (...; i < tasks; i++) if (!fork()) break;` run by process `pid`
from the loop index `i` on, with `fork` always succeeding.  `fork` creates the process
`next` (process ids are handed out in increasing order).  Both processes go on at the
same place (`resume`): the creator `pid` with return value `next`, the new process,
a copy of its creator, with return value 0; `resume` is `if (!r) break;` followed
by `i++` and the next iteration.  The result lists the processes that have left the
loop and the next unused process id.  `fuel` bounds the number of iterations.

The index `i` is an `int` and the test `i < tasks` compares it, converted to
`unsigned long`, with the task count.  The statement `i++` has no defined result at
`INT_MAX`; the program is built with `gcc -O2` (see the head of the source file),
which does not wrap the index there but goes on counting in a 64-bit register.  The
model follows this build: `i++` is `i + 1`.  While the index stays below `2 ^ 31`
nothing depends on that choice. -/
def fork_loop (tasks parent : Nat) :
    Nat → Int → Nat → Option Nat → List Nat → Nat → List Proc × Nat
  | 0, i, pid, ret, made, next => ([⟨pid, parent, ret, made, i⟩], next)
  | fuel + 1, i, pid, ret, made, next =>
    if ofInt64 i < tasks then
      let resume := fun (p r : Nat) (kids : List Nat) (free : Nat) =>
        if r = 0 then ([Proc.mk p parent (some r) kids i], free)
        else fork_loop tasks parent fuel (i + 1) p (some r) kids free
      let mine := resume pid next (made ++ [next]) (next + 1)
      let theirs := resume next 0 [] mine.2
      (mine.1 ++ theirs.1, theirs.2)
    else ([⟨pid, parent, ret, made, i⟩], next)

/-- The part of `main` from `parent = getpid()` to `me = getpid()`: the processes
that enter the sampling loop when the original process has the id `pid`.  The loop
starts at `i = 1` and is left when `i` reaches `tasks`, so `tasks` iterations are
enough fuel. -/
def main_fork (tasks pid : Nat) : List Proc :=
  (fork_loop tasks pid tasks 1 pid none [] (pid + 1)).1

/-- The test `me == parent` that guards the call of `print_status`. -/
def calls_print_status (p : Proc) : Bool := p.pid = p.parent

/-! ## Closed form of a sampling step -/

/-- The clock read recorded by the step of a source. -/
def readEvent : Source → Nat → Event
  | Source.TSC => Event.rdtscll
  | Source.TOD => Event.rdtod
  | Source.CLOCK => Event.rdclock

/-- The value of `delta` in a step of `X` that reads `t1`: the wrapped unsigned
difference to the stored last sample, taken as a signed 64-bit number. -/
def stepDelta (X : Source) (t1 : Nat) (shared : Nat → Nat) : Int :=
  toLL (sub64 (t1 % 2 ^ 64) (shared (lastSlot X)))

/-- The shared page after a step of `X` that reads `t1`, slot by slot. -/
def stepShared (X : Source) (t1 : Nat) (shared : Nat → Nat) : Nat → Nat := fun j =>
  if j = SHARED_LOCK then 0
  else if j = lastSlot X then t1 % 2 ^ 64
  else if j = loopSlot X then (shared (loopSlot X) + 1) % 2 ^ 64
  else if j = warpSlot X then
    (if stepDelta X t1 shared < 0 then (shared (warpSlot X) + 1) % 2 ^ 64
     else shared (warpSlot X))
  else if j = worstSlot X then
    (if stepDelta X t1 shared < 0 ∧ stepDelta X t1 shared < toLL (shared (worstSlot X)) then
      ofLL (stepDelta X t1 shared) % 2 ^ 64
     else shared (worstSlot X))
  else shared j

/-- The actions of a step of `X` that reads `t1`, in order. -/
def stepTrace (X : Source) (t1 : Nat) (shared : Nat → Nat) : List Event :=
  [Event.lock SHARED_LOCK, readEvent X (t1 % 2 ^ 64),
    Event.load (lastSlot X) (shared (lastSlot X)),
    Event.store (lastSlot X) (t1 % 2 ^ 64),
    Event.load (loopSlot X) (shared (loopSlot X)),
    Event.store (loopSlot X) ((shared (loopSlot X) + 1) % 2 ^ 64),
    Event.unlock SHARED_LOCK]
  ++ (if stepDelta X t1 shared < 0 then
       [Event.lock SHARED_LOCK,
        Event.load (warpSlot X) (shared (warpSlot X)),
        Event.store (warpSlot X) ((shared (warpSlot X) + 1) % 2 ^ 64),
        Event.load (worstSlot X) (shared (worstSlot X))]
       ++ (if stepDelta X t1 shared < toLL (shared (worstSlot X)) then
            [Event.store (worstSlot X) (ofLL (stepDelta X t1 shared) % 2 ^ 64),
             Event.warp_msg X (stepDelta X t1 shared) (shared (lastSlot X)) (t1 % 2 ^ 64)]
           else [])
       ++ [Event.unlock SHARED_LOCK]
     else [])
  ++ (if X = Source.TSC ∧ shared (lastSlot X) % 32 = 0 then [Event.pause] else [])

/-- A page that holds `val` in the word `idx` and zero elsewhere. -/
def page_with (idx val : Nat) : Nat → Nat := fun j => if j = idx then val else 0

/-! ## Conditions of the status reporter -/

/-- The value of `prev_tod` after the first statement of `print_status`. -/
def prevTod (now0 : Nat) (st : Statics) : Nat :=
  if st.prev_tod = 0 then now0 % 2 ^ 64 else st.prev_tod

/-- The call counter, once incremented, has reached 1000: the first `return` of
`print_status` is not taken. -/
def reachesCheck (st : Statics) : Prop := ¬ (st.count1 + 1) % 2 ^ 32 < 1000

instance (st : Statics) : Decidable (reachesCheck st) := by
  unfold reachesCheck
  infer_instance

/-- The test `abs(tod - prev_tod) < 100000ULL` of `print_status`. -/
def rateLimited (prev_tod tod : Nat) : Prop :=
  ofInt64 (c_abs (toInt32 (sub64 tod prev_tod))) < 100000

instance (prev_tod tod : Nat) : Decidable (rateLimited prev_tod tod) := by
  unfold rateLimited
  infer_instance

/-- The shared page after a report: the three loop counters are zero. -/
def reportShared (shared : Nat → Nat) : Nat → Nat := fun j =>
  if j = SHARED_NR_CLOCK_LOOPS then 0
  else if j = SHARED_NR_TOD_LOOPS then 0
  else if j = SHARED_NR_TSC_LOOPS then 0
  else shared j

/-- The statics of the reporter after a sequence of calls of `print_status`, first to
last; every call comes with the two clock values and the shared page it finds. -/
def status_calls : List (Nat × Nat × (Nat → Nat)) → Statics → Statics
  | [], st => st
  | c :: cs, st => status_calls cs (print_status c.1 c.2.1 st c.2.2).statics

/-- The wall-clock time of the last report in a sequence of calls of `print_status`
that starts with the statics `st`: the value `tod` read by the last call that ran to
the end of the function; `none` when every call returned early. -/
def last_report : List (Nat × Nat × (Nat → Nat)) → Statics → Option Nat
  | [], _ => none
  | c :: cs, st =>
    match last_report cs (print_status c.1 c.2.1 st c.2.2).statics with
    | some t => some t
    | none =>
      if (print_status c.1 c.2.1 st c.2.2).path = Path.reported then some (c.2.1 % 2 ^ 64)
      else none

/-- Statics as they are right before a call that reaches the wall-clock check, with
the given time of the last report. -/
def statics_at_check (prev_tod : Nat) : Statics :=
  { sum_tsc_loops := 0, sum_tod_loops := 0, sum_clock_loops := 0, sum_tod := 0,
    count1 := 999, count2 := 0, prev_tod := prev_tod }

/-! ## Sample streams -/

/-- The sample that precedes sample `j` of a stream in the shared slot when the
stream is the only writer from the zero page on: 0 for the first sample. -/
def prevSample (s : Nat → Nat) (j : Nat) : Nat := if j = 0 then 0 else s (j - 1)

/-- The first `n` samples of a stream are 64-bit values that increase strictly. -/
def Increasing64 (s : Nat → Nat) (n : Nat) : Prop :=
  (∀ j, j < n → s j < 2 ^ 64) ∧ ∀ i j, i < j → j < n → s i < s j

/-- The first `n` samples of a stream are 64-bit values, none is below its
predecessor and none exceeds it by `2 ^ 63` or more. -/
def SmallSteps (s : Nat → Nat) (n : Nat) : Prop :=
  ∀ j, j < n → s j < 2 ^ 64 ∧ prevSample s j ≤ s j ∧ s j - prevSample s j < 2 ^ 63

/-- The content of the last-sample slot of `X` after a sequence of operations that
starts with `d` in the slot: the sample of the last step of `X`, if there is one. -/
def lastWritten (X : Source) : List Action → Nat → Nat
  | [], d => d
  | Action.sample Y v :: as, d => lastWritten X as (if Y = X then v % 2 ^ 64 else d)
  | Action.status _ _ :: as, d => lastWritten X as d

/-! ## Closed form of the fork loop -/

/-- The processes created by `k` successive calls of `fork` in one process, the first
of which creates the process `next` at loop index `i`; each of them has left the loop
with return value 0 and without children.  The last one created comes first. -/
def forked (parent : Nat) : Nat → Nat → Int → List Proc
  | 0, _, _ => []
  | k + 1, next, i => forked parent k (next + 1) (i + 1) ++ [⟨next, parent, some 0, [], i⟩]

/-- Total number of successful calls of `fork` made by a list of processes. -/
def forks_total (ps : List Proc) : Nat := (ps.map fun q => q.children.length).sum

/-! ## The lock discipline -/

/-- The slots the lock is meant to protect: the last-sample, worst, loop-count and
warp-count slots of the three sources. -/
def guarded_slot (idx : Nat) : Bool :=
  idx = SHARED_TSC || idx = SHARED_TOD || idx = SHARED_CLOCK ||
  idx = SHARED_WORST_TSC || idx = SHARED_WORST_TOD || idx = SHARED_WORST_CLOCK ||
  idx = SHARED_NR_TSC_LOOPS || idx = SHARED_NR_TSC_WARPS ||
  idx = SHARED_NR_TOD_LOOPS || idx = SHARED_NR_TOD_WARPS ||
  idx = SHARED_NR_CLOCK_LOOPS || idx = SHARED_NR_CLOCK_WARPS

/-- Check of the actions of one process against the lock discipline.  `held` tells
whether the process holds the lock before the first action.  The lock is only taken
when not held and only released when held, every load and store of a guarded slot
happens while the lock is held, and the lock is not held after the last action. -/
def disciplined : Bool → List Event → Bool
  | held, [] => !held
  | held, Event.lock _ :: es => !held && disciplined true es
  | held, Event.unlock _ :: es => held && disciplined false es
  | held, Event.load idx _ :: es => (held || !guarded_slot idx) && disciplined held es
  | held, Event.store idx _ :: es => (held || !guarded_slot idx) && disciplined held es
  | held, _ :: es => disciplined held es

/-- The loads and stores of guarded slots in a trace. -/
def guarded_accesses (tr : List Event) : List Event :=
  tr.filter fun e => match e with
    | Event.load idx _ => guarded_slot idx
    | Event.store idx _ => guarded_slot idx
    | _ => false

/-- The `lock` and `unlock` actions in a trace. -/
def lock_actions (tr : List Event) : List Event :=
  tr.filter fun e => match e with
    | Event.lock _ => true
    | Event.unlock _ => true
    | _ => false

/-! ## Runs that record what the steps compute -/

/-- Execution of a sequence of operations like `run`, which also lists, for every
sampling step in order, its source and the value of `delta` it computed. -/
def run_deltas : List Action → Sys → Option (Sys × List (Source × Int))
  | [], s => some (s, [])
  | Action.sample X val :: as, s =>
    (test X val s.shared).bind fun r =>
      (run_deltas as ⟨r.shared, s.statics⟩).map fun q => (q.1, (X, r.delta) :: q.2)
  | Action.status now0 now1 :: as, s =>
    run_deltas as ⟨(print_status now0 now1 s.statics s.shared).shared,
      (print_status now0 now1 s.statics s.shared).statics⟩

/-- The deltas of the steps of source `X` in a recorded list. -/
def deltasOf (X : Source) (ds : List (Source × Int)) : List Int :=
  (ds.filter fun q => q.1 = X).map fun q => q.2

/-- Number of sampling steps of source `X` in a sequence of operations. -/
def stepsOf (X : Source) : List Action → Nat
  | [] => 0
  | Action.sample Y _ :: as => (if Y = X then 1 else 0) + stepsOf X as
  | Action.status _ _ :: as => stepsOf X as

/-- The accumulated loop total of source `X` in the statics of the reporter. -/
def sumLoops (X : Source) (st : Statics) : Nat :=
  match X with
  | Source.TSC => st.sum_tsc_loops
  | Source.TOD => st.sum_tod_loops
  | Source.CLOCK => st.sum_clock_loops

end TimeWarp

namespace CpuidKernel

/-! ## The serial-console `printf` of `cpuid_test_kernel/main.c`

The test kernel is a 32-bit program: `int`, `unsigned long` and pointers are 32 bits
wide.  A `char` array is a map from index to character code; characters written to
the serial port are collected in a list.  Arithmetic on `int` wraps. -/

/-- The assignment `a[i] = v` on a `char` array. -/
def poke (a : Nat → Nat) (i v : Nat) : Nat → Nat := fun j => if j = i then v else a j

/-- Conversion of an `int` to `unsigned long` (32 bits). -/
def toULong (d : Int) : Nat := (d % 2 ^ 32).toNat

/-- The value of an `int` expression, wrapped to 32 bits (two's complement). -/
def wrap32 (z : Int) : Int := TimeWarp.toInt32 (TimeWarp.ofInt64 z)

/-- The character `(remainder < 10) ? remainder + '0' : remainder + 'a' - 10`, as it is
stored in a `char`. -/
def digit_char (remainder : Nat) : Nat :=
  (if remainder < 10 then remainder + 48 else remainder + 97 - 10) % 256

/-- The loop `do { ... } while (ud /= divisor);` of `itoa`: returns the final `p` and
the array.  `fuel` bounds the number of iterations. -/
def itoa_digits (divisor : Nat) : Nat → Nat → Nat → (Nat → Nat) → Nat × (Nat → Nat)
  | 0, _, p, a => (p, a)
  | fuel + 1, ud, p, a =>
    if ud / divisor ≠ 0 then
      itoa_digits divisor fuel (ud / divisor) (p + 1) (poke a p (digit_char (ud % divisor)))
    else (p + 1, poke a p (digit_char (ud % divisor)))

/-- The loop `while (p1 < p2) { swap (*p1, *p2); p1++; p2--; }` of `itoa`. -/
def itoa_reverse : Nat → Nat → Nat → (Nat → Nat) → (Nat → Nat)
  | 0, _, _, a => a
  | fuel + 1, p1, p2, a =>
    if p1 < p2 then itoa_reverse fuel (p1 + 1) (p2 - 1) (poke (poke a p1 (a p2)) p2 (a p1))
    else a

/-- The part of `itoa` after the choice of `ud` and `divisor`: the digits from `p` on,
the terminating 0, the reversal from `buf` on. -/
def itoa_body (divisor ud p buf : Nat) (a : Nat → Nat) : Nat → Nat :=
  let r := itoa_digits divisor 32 ud p a
  itoa_reverse 32 buf (r.1 - 1) (poke r.2 r.1 0)

/-- The function `itoa (buf, base, d)`; `a` is the array that `buf` points into, `buf`
the index it points at, `base` a character code (100 is `d`, 120 is `x`). -/
def itoa (a : Nat → Nat) (buf : Nat) (base : Nat) (d : Int) : Nat → Nat :=
  if base = 100 ∧ d < 0 then
    itoa_body 10 (toULong (wrap32 (-d))) (buf + 1) (buf + 1) (poke a buf 45)
  else if base = 120 then itoa_body 16 (toULong d) buf buf a
  else itoa_body 10 (toULong d) buf buf a

/-- The loop of `strlen`, cut after `fuel` characters. -/
def strlen_from (a : Nat → Nat) : Nat → Nat → Nat
  | 0, _ => 0
  | fuel + 1, str => if a str ≠ 0 then strlen_from a fuel (str + 1) + 1 else 0

/-- The function `strlen`; its `int` counter cannot pass `2 ^ 31 - 1`. -/
def strlen (a : Nat → Nat) (str : Nat) : Nat := strlen_from a (2 ^ 31 - 1) str

/-- The characters of the string at `p`, up to the terminating 0 (at most `fuel`). -/
def c_string (a : Nat → Nat) : Nat → Nat → List Nat
  | 0, _ => []
  | fuel + 1, p => if a p ≠ 0 then a p :: c_string a fuel (p + 1) else []

/-- The local variables of `printf`, the argument words not yet consumed and the
characters given to `putchar` so far.  `buf` and `tmp` are the two arrays of 20
characters. -/
structure Printf where
  zero_pad : Int
  width : Int
  buf : Nat → Nat
  tmp : Nat → Nat
  args : List Nat
  out : List Nat

/-- The loop `while (width--) { ... }` that reads the field width back from `buf`:
the value of `tmp` when it ends.  `n` is the value of `width`, `p` the index in `buf`. -/
def parse_width (buf : Nat → Nat) : Nat → Nat → Int → Int
  | 0, _, tmp => tmp
  | n + 1, p, tmp =>
    if ¬ (48 ≤ buf p ∧ buf p ≤ 57) then tmp
    else parse_width buf n (p + 1) (wrap32 (tmp * 10 + ((buf p : Int) - 48)))

/-- The loop `while (pad--) *pp++ = pad_char;`. -/
def pad_fill (pad_char : Nat) : Nat → Nat → (Nat → Nat) → Nat × (Nat → Nat)
  | 0, pp, tmp => (pp, tmp)
  | n + 1, pp, tmp => pad_fill pad_char n (pp + 1) (poke tmp pp pad_char)

/-- The loop `for (i = 0; i < strlen (buf); i++) *pp++ = buf[i];`, from `i` on. -/
def copy_to_tmp (buf : Nat → Nat) : Nat → Nat → Nat → (Nat → Nat) → Nat × (Nat → Nat)
  | 0, _, pp, tmp => (pp, tmp)
  | fuel + 1, i, pp, tmp =>
    if i < strlen buf 0 then copy_to_tmp buf fuel (i + 1) (pp + 1) (poke tmp pp (buf i))
    else (pp, tmp)

/-- The loop `for (i = 0; i < strlen (tmp); i++) buf[i] = tmp[i];`, from `i` on: the
final `i` and the array `buf`. -/
def copy_to_buf (tmp : Nat → Nat) : Nat → Nat → (Nat → Nat) → Nat × (Nat → Nat)
  | 0, i, buf => (i, buf)
  | fuel + 1, i, buf =>
    if i < strlen tmp 0 then copy_to_buf tmp fuel (i + 1) (poke buf i (tmp i))
    else (i, buf)

/-- The block `if (width) { ... }` after the call of `itoa`: the padding of `buf` to the
field width, by way of `tmp`.  Returns `buf` and `tmp`. -/
def pad_field (zero_pad width : Int) (buf tmp : Nat → Nat) : (Nat → Nat) × (Nat → Nat) :=
  if width ≠ 0 then
    let pad := wrap32 (width - (strlen buf 0 : Int))
    if pad > 0 then
      let pad_char := if zero_pad ≠ 0 then 48 else 32
      let r := pad_fill pad_char pad.toNat 0 tmp
      let r := copy_to_tmp buf (2 ^ 31 - 1) 0 r.1 r.2
      let tmp := poke r.2 r.1 0
      let q := copy_to_buf tmp (2 ^ 31 - 1) 0 buf
      (poke q.2 q.1 0, tmp)
    else (buf, tmp)
  else (buf, tmp)

/-- The cases `d`, `u` and `x` of the `switch`, through the label `string` to the
`break`: the field width is read back, the next argument is converted by `itoa`, the
result is padded and put out. -/
def conv_number (c : Nat) (st : Printf) : Printf :=
  let width := if st.width ≠ 0 then parse_width st.buf st.width.toNat 0 0 else st.width
  let buf := itoa st.buf 0 c (TimeWarp.toInt32 (st.args.headD 0))
  let r := pad_field st.zero_pad width buf st.tmp
  { zero_pad := st.zero_pad, width := width, buf := r.1, tmp := r.2,
    args := st.args.tail, out := st.out ++ c_string r.1 (2 ^ 31 - 1) 0 }

/-- The statements `width = 0; zero_pad = 0;` at the end of the body of the main loop. -/
def reset (st : Printf) : Printf := { st with width := 0, zero_pad := 0 }

/-- The main loop of `printf` over the characters of `format` before its terminating 0.
With `conv = false` the next character is read by the `while` condition, with
`conv = true` it is read at the label `repeat`.  `mem p` is the string at the address
`p`, for the case `s`.  A format that ends inside a conversion makes the loop read
past the terminating 0 after the `default` case; the model stops there. -/
def printf_from (mem : Nat → List Nat) : Bool → List Nat → Printf → Printf
  | false, [], st => st
  | true, [], st =>
    reset { st with args := st.args.tail, out := st.out ++ [st.args.headD 0 % 256] }
  | false, c :: format, st =>
    if c ≠ 37 then printf_from mem false format (reset { st with out := st.out ++ [c] })
    else printf_from mem true format st
  | true, c :: format, st =>
    if c = 48 then printf_from mem true format { st with zero_pad := 1 }
    else if c = 100 ∨ c = 117 ∨ c = 120 then
      printf_from mem false format (reset (conv_number c st))
    else if c = 115 then
      let p := st.args.headD 0
      let s := if p = 0 then [40, 110, 117, 108, 108, 41] else mem p
      printf_from mem false format
        (reset { st with args := st.args.tail, out := st.out ++ s })
    else if 48 ≤ c ∧ c ≤ 57 then
      printf_from mem true format
        { st with buf := poke st.buf st.width.toNat c, width := wrap32 (st.width + 1) }
    else
      printf_from mem false format
        (reset { st with args := st.args.tail, out := st.out ++ [st.args.headD 0 % 256] })

/-- The function `printf (format, ...)`: the characters it gives to `putchar`.  `buf0`
and `tmp0` are the indeterminate initial contents of the two local arrays, `args` the
argument words after `format`. -/
def printf (mem : Nat → List Nat) (buf0 tmp0 : Nat → Nat) (format : List Nat)
    (args : List Nat) : List Nat :=
  (printf_from mem false format
    { zero_pad := 0, width := 0, buf := buf0, tmp := tmp0, args := args, out := [] }).out

/-- The format string of `print_leaf`, as character codes. -/
def print_leaf_format : List Nat :=
  ("   0x%08x 0x%02x: eax=0x%08x ebx=0x%08x ecx=0x%08x edx=0x%08x\n".toList.map
    fun c => c.toNat)

/-- The output of `print_leaf (leaf, idx)` when `cpuid` returns `eax`, `ebx`, `ecx`,
`edx`. -/
def print_leaf (mem : Nat → List Nat) (buf0 tmp0 : Nat → Nat)
    (leaf idx eax ebx ecx edx : Nat) : List Nat :=
  printf mem buf0 tmp0 print_leaf_format [leaf, idx, eax, ebx, ecx, edx]

/-! ## Numerals

The definitions of this section are not code of the kernel.  They say what a decimal
or hexadecimal numeral is and what its value is, for the statements about `itoa` and
`printf`; `put_list` describes a store of several characters. -/

/-- The store of the characters of a list at the indices `p`, `p + 1`, ... -/
def put_list (a : Nat → Nat) : Nat → List Nat → (Nat → Nat)
  | _, [] => a
  | p, x :: xs => put_list (poke a p x) (p + 1) xs

/-- The digits of `n` in base `b`, least significant first; the single digit 0 for 0. -/
def lsd (b n : Nat) : List Nat := if n = 0 then [0] else Nat.digits b n

/-- The decimal numeral of `n` as character codes: its digits, most significant
first, without leading zeros; `0` for 0. -/
def decimal (n : Nat) : List Nat := (lsd 10 n).reverse.map fun r => r + 48

/-- The decimal numeral of an integer: a minus sign in front of the numeral of its
magnitude when it is negative. -/
def signed_decimal (d : Int) : List Nat :=
  if d < 0 then 45 :: decimal d.natAbs else decimal d.natAbs

/-- The character code of a hexadecimal digit, in lower case. -/
def hex_char (r : Nat) : Nat := ("0123456789abcdef".toList.getD r '0').toNat

/-- The hexadecimal numeral of `n` as character codes: its digits in lower case,
most significant first, without leading zeros; `0` for 0. -/
def hexadecimal (n : Nat) : List Nat := (lsd 16 n).reverse.map hex_char

/-- The value of a character as a hexadecimal digit. -/
def hex_digit_value (c : Nat) : Nat := if c ≤ 57 then c - 48 else c - 87

/-- The value of a string of hexadecimal digits. -/
def hex_value (cs : List Nat) : Nat := cs.foldl (fun acc c => 16 * acc + hex_digit_value c) 0

/-- The value of a string of decimal digits. -/
def decimal_value (cs : List Nat) : Nat := cs.foldl (fun acc c => 10 * acc + (c - 48)) 0

/-- The reading of a string as a signed decimal numeral: an optional minus sign, then
decimal digits. -/
def parse_signed_decimal (s : List Nat) : Int :=
  if s.head? = some 45 then -(decimal_value s.tail : Int) else (decimal_value s : Int)

/-- The zero padding of a numeral to a field of `width` characters. -/
def zero_padded (width : Nat) (numeral : List Nat) : List Nat :=
  List.replicate (width - numeral.length) 48 ++ numeral

end CpuidKernel

namespace TimeWarp

/-! # Theorems -/

/-! ## The sampling steps in closed form -/

theorem test_TSC_eq (t1 : Nat) (shared : Nat → Nat) (hfree : shared SHARED_LOCK % 2 = 0) :
    test_TSC t1 shared = some ⟨stepShared Source.TSC t1 shared, stepTrace Source.TSC t1 shared,
      shared SHARED_TSC, t1 % 2 ^ 64, stepDelta Source.TSC t1 shared⟩ := by
  by_cases h1 : toLL (sub64 (t1 % 2 ^ 64) (shared SHARED_TSC)) < 0 <;>
  by_cases h2 : toLL (sub64 (t1 % 2 ^ 64) (shared SHARED_TSC)) <
    toLL (shared SHARED_WORST_TSC) <;>
  by_cases h3 : shared SHARED_TSC % 32 = 0 <;>
  simp +decide only [test_TSC, lock, hfree, load, store, unlock, World.emit, lastSlot,
    warpSlot, worstSlot, loopSlot, stepTrace, stepDelta, readEvent, h1, h2, h3,
    if_true, if_false, Option.bind_eq_bind, Option.some_bind, Option.pure_def,
    reduceIte, List.nil_append, List.cons_append, List.append_nil, and_self,
    Option.some.injEq, Step.mk.injEq, true_and, and_true] <;>
  refine ⟨?_, ?_⟩ <;>
  first
  | (funext j
     simp +decide only [stepShared, stepDelta, lastSlot, warpSlot, worstSlot, loopSlot, h1, h2,
       Nat.mod_mod, and_self, and_false, false_and, if_true, if_false]
     split_ifs <;> first | rfl | omega | simp_all)
  | simp only [Nat.mod_mod]

theorem test_TOD_eq (t1 : Nat) (shared : Nat → Nat) (hfree : shared SHARED_LOCK % 2 = 0) :
    test_TOD t1 shared = some ⟨stepShared Source.TOD t1 shared, stepTrace Source.TOD t1 shared,
      shared SHARED_TOD, t1 % 2 ^ 64, stepDelta Source.TOD t1 shared⟩ := by
  by_cases h1 : toLL (sub64 (t1 % 2 ^ 64) (shared SHARED_TOD)) < 0 <;>
  by_cases h2 : toLL (sub64 (t1 % 2 ^ 64) (shared SHARED_TOD)) <
    toLL (shared SHARED_WORST_TOD) <;>
  simp +decide only [test_TOD, lock, hfree, load, store, unlock, World.emit, lastSlot,
    warpSlot, worstSlot, loopSlot, stepTrace, stepDelta, readEvent, h1, h2,
    if_true, if_false, Option.bind_eq_bind, Option.some_bind, Option.pure_def,
    reduceIte, List.nil_append, List.cons_append, List.append_nil, and_self,
    Option.some.injEq, Step.mk.injEq, true_and, and_true, false_and] <;>
  refine ⟨?_, ?_⟩ <;>
  first
  | (funext j
     simp +decide only [stepShared, stepDelta, lastSlot, warpSlot, worstSlot, loopSlot, h1, h2,
       Nat.mod_mod, and_self, and_false, false_and, if_true, if_false]
     split_ifs <;> first | rfl | omega | simp_all)
  | simp only [Nat.mod_mod]

theorem test_CLOCK_eq (t1 : Nat) (shared : Nat → Nat) (hfree : shared SHARED_LOCK % 2 = 0) :
    test_CLOCK t1 shared = some ⟨stepShared Source.CLOCK t1 shared,
      stepTrace Source.CLOCK t1 shared,
      shared SHARED_CLOCK, t1 % 2 ^ 64, stepDelta Source.CLOCK t1 shared⟩ := by
  by_cases h1 : toLL (sub64 (t1 % 2 ^ 64) (shared SHARED_CLOCK)) < 0 <;>
  by_cases h2 : toLL (sub64 (t1 % 2 ^ 64) (shared SHARED_CLOCK)) <
    toLL (shared SHARED_WORST_CLOCK) <;>
  simp +decide only [test_CLOCK, lock, hfree, load, store, unlock, World.emit, lastSlot,
    warpSlot, worstSlot, loopSlot, stepTrace, stepDelta, readEvent, h1, h2,
    if_true, if_false, Option.bind_eq_bind, Option.some_bind, Option.pure_def,
    reduceIte, List.nil_append, List.cons_append, List.append_nil, and_self,
    Option.some.injEq, Step.mk.injEq, true_and, and_true, false_and] <;>
  refine ⟨?_, ?_⟩ <;>
  first
  | (funext j
     simp +decide only [stepShared, stepDelta, lastSlot, warpSlot, worstSlot, loopSlot, h1, h2,
       Nat.mod_mod, and_self, and_false, false_and, if_true, if_false]
     split_ifs <;> first | rfl | omega | simp_all)
  | simp only [Nat.mod_mod]

/-- With the lock free, the step of `X` returns, and its result is the closed form. -/
theorem test_eq (X : Source) (t1 : Nat) (shared : Nat → Nat)
    (hfree : shared SHARED_LOCK % 2 = 0) :
    test X t1 shared = some ⟨stepShared X t1 shared, stepTrace X t1 shared,
      shared (lastSlot X), t1 % 2 ^ 64, stepDelta X t1 shared⟩ := by
  cases X
  · exact test_TSC_eq t1 shared hfree
  · exact test_TOD_eq t1 shared hfree
  · exact test_CLOCK_eq t1 shared hfree

/-- With the lock taken, the step spins for ever. -/
theorem test_held (X : Source) (t1 : Nat) (shared : Nat → Nat)
    (hheld : shared SHARED_LOCK % 2 ≠ 0) : test X t1 shared = none := by
  cases X <;> simp [test, test_TSC, test_TOD, test_CLOCK, lock, hheld]

/-! ## Slots of the closed form -/

theorem stepShared_lock (X : Source) (t1 : Nat) (shared : Nat → Nat) :
    stepShared X t1 shared SHARED_LOCK = 0 := by
  simp [stepShared]

theorem stepShared_last (X : Source) (t1 : Nat) (shared : Nat → Nat) :
    stepShared X t1 shared (lastSlot X) = t1 % 2 ^ 64 := by
  cases X <;> simp +decide [stepShared, lastSlot]

theorem stepShared_loop (X : Source) (t1 : Nat) (shared : Nat → Nat) :
    stepShared X t1 shared (loopSlot X) = (shared (loopSlot X) + 1) % 2 ^ 64 := by
  cases X <;> simp +decide [stepShared, lastSlot, loopSlot]

theorem stepShared_warp (X : Source) (t1 : Nat) (shared : Nat → Nat) :
    stepShared X t1 shared (warpSlot X) =
      if stepDelta X t1 shared < 0 then (shared (warpSlot X) + 1) % 2 ^ 64
      else shared (warpSlot X) := by
  cases X <;> simp +decide [stepShared, lastSlot, loopSlot, warpSlot]

theorem stepShared_worst (X : Source) (t1 : Nat) (shared : Nat → Nat) :
    stepShared X t1 shared (worstSlot X) =
      if stepDelta X t1 shared < 0 ∧ stepDelta X t1 shared < toLL (shared (worstSlot X)) then
        ofLL (stepDelta X t1 shared) % 2 ^ 64
      else shared (worstSlot X) := by
  cases X <;> simp +decide [stepShared, lastSlot, loopSlot, warpSlot, worstSlot]

/-- A step of `X` writes the lock word and the four slots of `X` only. -/
theorem stepShared_frame (X : Source) (t1 : Nat) (shared : Nat → Nat) (j : Nat)
    (h0 : j ≠ SHARED_LOCK) (h1 : j ≠ lastSlot X) (h2 : j ≠ loopSlot X)
    (h3 : j ≠ warpSlot X) (h4 : j ≠ worstSlot X) :
    stepShared X t1 shared j = shared j := by
  simp [stepShared, h0, h1, h2, h3, h4]

theorem stepShared_other (X Y : Source) (hXY : Y ≠ X) (t1 : Nat) (shared : Nat → Nat) :
    stepShared X t1 shared (lastSlot Y) = shared (lastSlot Y) ∧
    stepShared X t1 shared (loopSlot Y) = shared (loopSlot Y) ∧
    stepShared X t1 shared (warpSlot Y) = shared (warpSlot Y) ∧
    stepShared X t1 shared (worstSlot Y) = shared (worstSlot Y) := by
  cases X <;> cases Y <;> first
    | exact absurd rfl hXY
    | (refine ⟨?_, ?_, ?_, ?_⟩ <;> apply stepShared_frame <;> decide)

theorem storesTo_append (idx : Nat) (a b : List Event) :
    storesTo idx (a ++ b) = storesTo idx a + storesTo idx b := by
  simp [storesTo]

theorem warpMsgs_append (a b : List Event) : warpMsgs (a ++ b) = warpMsgs a ++ warpMsgs b := by
  simp [warpMsgs]

theorem stepTrace_storesTo_worst (X : Source) (t1 : Nat) (shared : Nat → Nat) :
    storesTo (worstSlot X) (stepTrace X t1 shared) =
      if stepDelta X t1 shared < 0 ∧ stepDelta X t1 shared < toLL (shared (worstSlot X))
      then 1 else 0 := by
  cases X <;>
  (unfold stepTrace
   split_ifs <;>
   simp_all +decide [storesTo, lastSlot, loopSlot, warpSlot, worstSlot, readEvent,
     List.filter_cons] <;>
   omega)

theorem stepTrace_storesTo_warp (X : Source) (t1 : Nat) (shared : Nat → Nat) :
    storesTo (warpSlot X) (stepTrace X t1 shared) =
      if stepDelta X t1 shared < 0 then 1 else 0 := by
  cases X <;>
  (unfold stepTrace
   split_ifs <;>
   simp_all +decide [storesTo, lastSlot, loopSlot, warpSlot, worstSlot, readEvent,
     List.filter_cons])

theorem stepTrace_warpMsgs (X : Source) (t1 : Nat) (shared : Nat → Nat) :
    warpMsgs (stepTrace X t1 shared) =
      if stepDelta X t1 shared < 0 ∧ stepDelta X t1 shared < toLL (shared (worstSlot X))
      then [Event.warp_msg X (stepDelta X t1 shared) (shared (lastSlot X)) (t1 % 2 ^ 64)]
      else [] := by
  cases X <;>
  (unfold stepTrace
   split_ifs <;>
   simp_all +decide [warpMsgs, lastSlot, loopSlot, warpSlot, worstSlot, readEvent,
     List.filter_cons] <;>
   omega)

theorem toLL_ofLL (z : Int) (hlo : -(2 ^ 63) ≤ z) (hhi : z < 2 ^ 63) :
    toLL (ofLL z % 2 ^ 64) = z := by
  unfold toLL ofLL
  have h : (((z % 2 ^ 64).toNat % 2 ^ 64 : Nat) : Int) = z % 2 ^ 64 := by omega
  split_ifs with hc <;> omega

theorem toLL_range (w : Nat) : -(2 ^ 63) ≤ toLL w ∧ toLL w < 2 ^ 63 := by
  unfold toLL
  split_ifs with hc <;> omega

/-! ## Claims about one sampling step -/

/-- C2: from every shared state in which the lock can be taken and for every sample,
the step of source `X` returns; its `delta` is the signed 64-bit value of the wrapped
unsigned difference `t1 - t0`; when `delta < 0` the warp counter of `X` is incremented
by exactly 1 (one store, of the old value plus one as a 64-bit word, so literally
`old + 1` unless the counter was at `2 ^ 64 - 1`); when `delta >= 0` the warp counter
is neither changed nor written; in both cases the worst slot of `X` is written at most
once during the step. -/
theorem step_counts_warp_once (X : Source) (shared : Nat → Nat) (t1 : Nat)
    (hfree : shared SHARED_LOCK % 2 = 0) :
    ∃ r, test X t1 shared = some r ∧
      r.t0 = shared (lastSlot X) ∧ r.t1 = t1 % 2 ^ 64 ∧
      r.delta = toLL (sub64 r.t1 r.t0) ∧
      (r.delta < 0 →
        r.shared (warpSlot X) = (shared (warpSlot X) + 1) % 2 ^ 64 ∧
        (shared (warpSlot X) + 1 < 2 ^ 64 → r.shared (warpSlot X) = shared (warpSlot X) + 1) ∧
        storesTo (warpSlot X) r.trace = 1) ∧
      (0 ≤ r.delta →
        r.shared (warpSlot X) = shared (warpSlot X) ∧ storesTo (warpSlot X) r.trace = 0) ∧
      storesTo (worstSlot X) r.trace ≤ 1 := by
  refine ⟨_, test_eq X t1 shared hfree, rfl, rfl, rfl, ?_, ?_, ?_⟩
  · intro h
    have h' : stepDelta X t1 shared < 0 := h
    simp only [stepShared_warp, stepTrace_storesTo_warp, h', if_true]
    refine ⟨trivial, ?_, trivial⟩
    intro hb
    exact Nat.mod_eq_of_lt hb
  · intro h
    have h' : ¬ stepDelta X t1 shared < 0 := not_lt.mpr h
    simp only [stepShared_warp, stepTrace_storesTo_warp, h', if_false, and_self]
  · simp only [stepTrace_storesTo_worst]
    split_ifs <;> omega

/-- C2, witness: a TSC sample that steps back by 2 from the stored one. -/
theorem step_counts_warp_once_witness :
    page_with SHARED_TSC 7 SHARED_LOCK % 2 = 0 ∧
    ∃ r, test Source.TSC 5 (page_with SHARED_TSC 7) = some r ∧
      r.t0 = page_with SHARED_TSC 7 (lastSlot Source.TSC) ∧ r.t1 = 5 % 2 ^ 64 ∧
      r.delta = toLL (sub64 r.t1 r.t0) ∧
      (r.delta < 0 →
        r.shared (warpSlot Source.TSC) =
          (page_with SHARED_TSC 7 (warpSlot Source.TSC) + 1) % 2 ^ 64 ∧
        (page_with SHARED_TSC 7 (warpSlot Source.TSC) + 1 < 2 ^ 64 →
          r.shared (warpSlot Source.TSC) = page_with SHARED_TSC 7 (warpSlot Source.TSC) + 1) ∧
        storesTo (warpSlot Source.TSC) r.trace = 1) ∧
      (0 ≤ r.delta →
        r.shared (warpSlot Source.TSC) = page_with SHARED_TSC 7 (warpSlot Source.TSC) ∧
        storesTo (warpSlot Source.TSC) r.trace = 0) ∧
      storesTo (worstSlot Source.TSC) r.trace ≤ 1 :=
  ⟨by decide, step_counts_warp_once Source.TSC (page_with SHARED_TSC 7) 5 (by decide)⟩

/-- C3: from every shared state in which the lock can be taken and for every sample,
the step of source `X` returns and (a) the worst slot of `X` differs afterwards only
if `delta` is strictly below the stored worst value, and then it holds exactly `delta`
and exactly one diagnostic line, with `delta`, `t0` and `t1`, was emitted; (b) a
negative `delta` strictly below the stored worst value is stored, by a single write,
with one diagnostic line; (c) when `delta` is at or above the stored worst value, or
`delta >= 0`, the worst slot is not written and no diagnostic is emitted. -/
theorem step_updates_worst_on_new_minimum (X : Source) (shared : Nat → Nat) (t1 : Nat)
    (hfree : shared SHARED_LOCK % 2 = 0) :
    ∃ r, test X t1 shared = some r ∧
      r.delta = toLL (sub64 (t1 % 2 ^ 64) (shared (lastSlot X))) ∧
      (r.shared (worstSlot X) ≠ shared (worstSlot X) →
        r.delta < toLL (shared (worstSlot X)) ∧ toLL (r.shared (worstSlot X)) = r.delta ∧
        warpMsgs r.trace = [Event.warp_msg X r.delta r.t0 r.t1]) ∧
      (r.delta < 0 → r.delta < toLL (shared (worstSlot X)) →
        r.shared (worstSlot X) = ofLL r.delta ∧ toLL (r.shared (worstSlot X)) = r.delta ∧
        storesTo (worstSlot X) r.trace = 1 ∧
        warpMsgs r.trace = [Event.warp_msg X r.delta r.t0 r.t1]) ∧
      (toLL (shared (worstSlot X)) ≤ r.delta ∨ 0 ≤ r.delta →
        r.shared (worstSlot X) = shared (worstSlot X) ∧
        storesTo (worstSlot X) r.trace = 0 ∧ warpMsgs r.trace = []) := by
  have hr := toLL_range (sub64 (t1 % 2 ^ 64) (shared (lastSlot X)))
  have hpos : stepDelta X t1 shared < 0 ∧
      stepDelta X t1 shared < toLL (shared (worstSlot X)) →
      stepShared X t1 shared (worstSlot X) = ofLL (stepDelta X t1 shared) ∧
      toLL (stepShared X t1 shared (worstSlot X)) = stepDelta X t1 shared ∧
      storesTo (worstSlot X) (stepTrace X t1 shared) = 1 ∧
      warpMsgs (stepTrace X t1 shared) =
        [Event.warp_msg X (stepDelta X t1 shared) (shared (lastSlot X)) (t1 % 2 ^ 64)] := by
    intro hc
    rw [stepShared_worst, stepTrace_warpMsgs, stepTrace_storesTo_worst, if_pos hc, if_pos hc,
      if_pos hc]
    refine ⟨?_, toLL_ofLL _ hr.1 hr.2, rfl, rfl⟩
    unfold ofLL
    omega
  have hneg : ¬ (stepDelta X t1 shared < 0 ∧
      stepDelta X t1 shared < toLL (shared (worstSlot X))) →
      stepShared X t1 shared (worstSlot X) = shared (worstSlot X) ∧
      storesTo (worstSlot X) (stepTrace X t1 shared) = 0 ∧
      warpMsgs (stepTrace X t1 shared) = [] := by
    intro hc
    rw [stepShared_worst, stepTrace_warpMsgs, stepTrace_storesTo_worst, if_neg hc, if_neg hc,
      if_neg hc]
    exact ⟨rfl, rfl, rfl⟩
  refine ⟨_, test_eq X t1 shared hfree, rfl, ?_, ?_, ?_⟩
  · intro hne
    by_cases hc : stepDelta X t1 shared < 0 ∧
        stepDelta X t1 shared < toLL (shared (worstSlot X))
    · exact ⟨hc.2, (hpos hc).2.1, (hpos hc).2.2.2⟩
    · exact absurd (hneg hc).1 hne
  · intro h1 h2
    exact hpos ⟨h1, h2⟩
  · intro h
    apply hneg
    rcases h with h | h
    · exact fun hh => absurd hh.2 (not_lt.mpr h)
    · exact fun hh => absurd hh.1 (not_lt.mpr h)

/-- C3, witness: a TOD sample 3 below the stored one, with no worse delta on record. -/
theorem step_updates_worst_on_new_minimum_witness :
    page_with SHARED_TOD 10 SHARED_LOCK % 2 = 0 ∧
    ∃ r, test Source.TOD 7 (page_with SHARED_TOD 10) = some r ∧
      r.delta = toLL (sub64 (7 % 2 ^ 64) (page_with SHARED_TOD 10 (lastSlot Source.TOD))) ∧
      (r.shared (worstSlot Source.TOD) ≠ page_with SHARED_TOD 10 (worstSlot Source.TOD) →
        r.delta < toLL (page_with SHARED_TOD 10 (worstSlot Source.TOD)) ∧
        toLL (r.shared (worstSlot Source.TOD)) = r.delta ∧
        warpMsgs r.trace = [Event.warp_msg Source.TOD r.delta r.t0 r.t1]) ∧
      (r.delta < 0 → r.delta < toLL (page_with SHARED_TOD 10 (worstSlot Source.TOD)) →
        r.shared (worstSlot Source.TOD) = ofLL r.delta ∧
        toLL (r.shared (worstSlot Source.TOD)) = r.delta ∧
        storesTo (worstSlot Source.TOD) r.trace = 1 ∧
        warpMsgs r.trace = [Event.warp_msg Source.TOD r.delta r.t0 r.t1]) ∧
      (toLL (page_with SHARED_TOD 10 (worstSlot Source.TOD)) ≤ r.delta ∨ 0 ≤ r.delta →
        r.shared (worstSlot Source.TOD) = page_with SHARED_TOD 10 (worstSlot Source.TOD) ∧
        storesTo (worstSlot Source.TOD) r.trace = 0 ∧ warpMsgs r.trace = []) :=
  ⟨by decide,
    step_updates_worst_on_new_minimum Source.TOD (page_with SHARED_TOD 10) 7 (by decide)⟩

/-- C5 as stated fails: with the stored TOD sample `2 ^ 63 + 1` and the new sample 0
the new sample is smaller as an unsigned 64-bit value, yet the wrapped difference
`2 ^ 63 - 1` is positive as a signed number and the TOD warp counter stays at 0. -/
theorem decreasing_sample_not_counted :
    (0 : Nat) < page_with SHARED_TOD (2 ^ 63 + 1) (lastSlot Source.TOD) ∧
    page_with SHARED_TOD (2 ^ 63 + 1) (lastSlot Source.TOD) < 2 ^ 64 ∧
    page_with SHARED_TOD (2 ^ 63 + 1) SHARED_LOCK % 2 = 0 ∧
    page_with SHARED_TOD (2 ^ 63 + 1) (warpSlot Source.TOD) = 0 ∧
    (test Source.TOD 0 (page_with SHARED_TOD (2 ^ 63 + 1))).map
      (fun r => (r.delta, r.shared (warpSlot Source.TOD))) = some (2 ^ 63 - 1, 0) := by
  decide

/-- C5, amended: from every shared state in which the lock can be taken, when the
sample `t1` of source `X` is below the stored 64-bit sample `t0` of `X` by at most
`2 ^ 63`, the step returns with a negative `delta`, increments the warp counter of `X`
(by one, as a 64-bit word) and leaves the warp counters, last-sample slots, worst
slots and loop counters of the other two sources unchanged. -/
theorem decreasing_sample_counts_warp (X : Source) (shared : Nat → Nat) (t1 : Nat)
    (hfree : shared SHARED_LOCK % 2 = 0) (h64 : shared (lastSlot X) < 2 ^ 64)
    (hlt : t1 < shared (lastSlot X)) (hgap : shared (lastSlot X) - t1 ≤ 2 ^ 63) :
    ∃ r, test X t1 shared = some r ∧ r.delta < 0 ∧
      r.shared (warpSlot X) = (shared (warpSlot X) + 1) % 2 ^ 64 ∧
      ∀ Y, Y ≠ X →
        r.shared (warpSlot Y) = shared (warpSlot Y) ∧
        r.shared (lastSlot Y) = shared (lastSlot Y) ∧
        r.shared (worstSlot Y) = shared (worstSlot Y) ∧
        r.shared (loopSlot Y) = shared (loopSlot Y) := by
  have hd : stepDelta X t1 shared < 0 := by
    unfold stepDelta toLL sub64
    split_ifs with hc <;> omega
  refine ⟨_, test_eq X t1 shared hfree, hd, ?_, ?_⟩
  · show stepShared X t1 shared (warpSlot X) = _
    rw [stepShared_warp, if_pos hd]
  · intro Y hY
    have h := stepShared_other X Y hY t1 shared
    exact ⟨h.2.2.1, h.1, h.2.2.2, h.2.1⟩

/-- C5, witness: the CLOCK sample steps back from 9 to 4. -/
theorem decreasing_sample_counts_warp_witness :
    page_with SHARED_CLOCK 9 SHARED_LOCK % 2 = 0 ∧
    page_with SHARED_CLOCK 9 (lastSlot Source.CLOCK) < 2 ^ 64 ∧
    4 < page_with SHARED_CLOCK 9 (lastSlot Source.CLOCK) ∧
    page_with SHARED_CLOCK 9 (lastSlot Source.CLOCK) - 4 ≤ 2 ^ 63 ∧
    ∃ r, test Source.CLOCK 4 (page_with SHARED_CLOCK 9) = some r ∧ r.delta < 0 ∧
      r.shared (warpSlot Source.CLOCK) =
        (page_with SHARED_CLOCK 9 (warpSlot Source.CLOCK) + 1) % 2 ^ 64 ∧
      ∀ Y, Y ≠ Source.CLOCK →
        r.shared (warpSlot Y) = page_with SHARED_CLOCK 9 (warpSlot Y) ∧
        r.shared (lastSlot Y) = page_with SHARED_CLOCK 9 (lastSlot Y) ∧
        r.shared (worstSlot Y) = page_with SHARED_CLOCK 9 (worstSlot Y) ∧
        r.shared (loopSlot Y) = page_with SHARED_CLOCK 9 (loopSlot Y) :=
  ⟨by decide, by decide, by decide, by decide,
    decreasing_sample_counts_warp Source.CLOCK (page_with SHARED_CLOCK 9) 4
      (by decide) (by decide) (by decide) (by decide)⟩

/-! ## The status reporter in closed form -/

theorem print_status_count_return (now0 now1 : Nat) (st : Statics) (shared : Nat → Nat)
    (h : ¬ reachesCheck st) :
    print_status now0 now1 st shared =
      { statics := { st with prev_tod := prevTod now0 st, count1 := (st.count1 + 1) % 2 ^ 32 },
        shared := shared,
        trace := if st.prev_tod = 0 then [Event.rdtod (now0 % 2 ^ 64)] else [],
        path := Path.count_return } := by
  have h' : (st.count1 + 1) % 2 ^ 32 < 1000 := by
    unfold reachesCheck at h
    exact not_not.mp h
  unfold print_status
  simp only [h', if_true, prevTod]
  split_ifs <;> simp [World.emit]

theorem print_status_rate_return (now0 now1 : Nat) (st : Statics) (shared : Nat → Nat)
    (h : reachesCheck st) (hr : rateLimited (prevTod now0 st) (now1 % 2 ^ 64)) :
    print_status now0 now1 st shared =
      { statics := { st with prev_tod := prevTod now0 st, count1 := 0 },
        shared := shared,
        trace := (if st.prev_tod = 0 then [Event.rdtod (now0 % 2 ^ 64)] else []) ++
          [Event.rdtod (now1 % 2 ^ 64)],
        path := Path.rate_return } := by
  unfold reachesCheck at h
  unfold rateLimited prevTod at hr
  unfold print_status
  simp only [h, if_false, hr, if_true, prevTod]
  split_ifs <;> simp [World.emit]

theorem print_status_reported (now0 now1 : Nat) (st : Statics) (shared : Nat → Nat)
    (h : reachesCheck st) (hr : ¬ rateLimited (prevTod now0 st) (now1 % 2 ^ 64)) :
    ∃ r, print_status now0 now1 st shared = r ∧ r.path = Path.reported ∧
      r.shared = reportShared shared ∧
      r.statics.count1 = 0 ∧ r.statics.prev_tod = now1 % 2 ^ 64 ∧
      r.statics.sum_tsc_loops = add64 st.sum_tsc_loops (shared SHARED_NR_TSC_LOOPS) ∧
      r.statics.sum_tod_loops = add64 st.sum_tod_loops (shared SHARED_NR_TOD_LOOPS) ∧
      r.statics.sum_clock_loops = add64 st.sum_clock_loops (shared SHARED_NR_CLOCK_LOOPS) ∧
      r.trace = (if st.prev_tod = 0 then [Event.rdtod (now0 % 2 ^ 64)] else []) ++
        [Event.rdtod (now1 % 2 ^ 64),
         Event.load SHARED_NR_TSC_LOOPS (shared SHARED_NR_TSC_LOOPS),
         Event.load SHARED_NR_TOD_LOOPS (shared SHARED_NR_TOD_LOOPS),
         Event.load SHARED_NR_CLOCK_LOOPS (shared SHARED_NR_CLOCK_LOOPS),
         Event.store SHARED_NR_TSC_LOOPS 0,
         Event.store SHARED_NR_TOD_LOOPS 0,
         Event.store SHARED_NR_CLOCK_LOOPS 0,
         Event.load SHARED_NR_TSC_WARPS (shared SHARED_NR_TSC_WARPS),
         Event.status_msg Source.TSC r.statics.sum_tod r.statics.sum_tsc_loops
           (shared SHARED_NR_TSC_WARPS),
         Event.load SHARED_NR_TOD_WARPS (shared SHARED_NR_TOD_WARPS),
         Event.status_msg Source.TOD r.statics.sum_tod r.statics.sum_tod_loops
           (shared SHARED_NR_TOD_WARPS),
         Event.load SHARED_NR_CLOCK_WARPS (shared SHARED_NR_CLOCK_WARPS),
         Event.status_msg Source.CLOCK r.statics.sum_tod r.statics.sum_clock_loops
           (shared SHARED_NR_CLOCK_WARPS),
         Event.progress_msg (progress r.statics.count2),
         Event.fflush] := by
  unfold reachesCheck at h
  unfold rateLimited prevTod at hr
  refine ⟨_, rfl, ?_⟩
  unfold print_status
  simp only [h, if_false, hr, prevTod]
  split_ifs <;>
  simp +decide [World.emit, load, store] <;>
  rfl

theorem print_status_path (now0 now1 : Nat) (st : Statics) (shared : Nat → Nat) :
    ((print_status now0 now1 st shared).path = Path.count_return ↔ ¬ reachesCheck st) ∧
    ((print_status now0 now1 st shared).path = Path.rate_return ↔
      reachesCheck st ∧ rateLimited (prevTod now0 st) (now1 % 2 ^ 64)) ∧
    ((print_status now0 now1 st shared).path = Path.reported ↔
      reachesCheck st ∧ ¬ rateLimited (prevTod now0 st) (now1 % 2 ^ 64)) := by
  by_cases h : reachesCheck st
  · by_cases hr : rateLimited (prevTod now0 st) (now1 % 2 ^ 64)
    · rw [print_status_rate_return now0 now1 st shared h hr]
      simp only [h, hr, not_true_eq_false, reduceCtorEq, and_self, not_false_eq_true,
        and_false]
    · obtain ⟨r, e, hp, -⟩ := print_status_reported now0 now1 st shared h hr
      rw [e, hp]
      simp only [h, hr, not_true_eq_false, reduceCtorEq, and_self, not_false_eq_true,
        and_false]
  · rw [print_status_count_return now0 now1 st shared h]
    simp [h]

theorem print_status_shared (now0 now1 : Nat) (st : Statics) (shared : Nat → Nat) :
    (print_status now0 now1 st shared).shared =
      if (print_status now0 now1 st shared).path = Path.reported then reportShared shared
      else shared := by
  by_cases h : reachesCheck st
  · by_cases hr : rateLimited (prevTod now0 st) (now1 % 2 ^ 64)
    · rw [print_status_rate_return now0 now1 st shared h hr]
      simp
    · obtain ⟨r, e, hp, hs, -⟩ := print_status_reported now0 now1 st shared h hr
      rw [e, hp, hs]
      simp
  · rw [print_status_count_return now0 now1 st shared h]
    simp

/-- C6: a call of `print_status` performs a report exactly when its call counter has
reached 1000 and the rate limit is passed.  When it reports, the three shared loop
counters are 0 on return and the next sampling step of any source (the lock being
free) returns with that source's loop counter at exactly 1; when it does not report
the three loop counters are unchanged. -/
theorem report_resets_loop_counters (now0 now1 : Nat) (st : Statics) (shared : Nat → Nat) :
    ((print_status now0 now1 st shared).path = Path.reported ↔
      reachesCheck st ∧ ¬ rateLimited (prevTod now0 st) (now1 % 2 ^ 64)) ∧
    ((print_status now0 now1 st shared).path = Path.reported →
      (print_status now0 now1 st shared).shared SHARED_NR_TSC_LOOPS = 0 ∧
      (print_status now0 now1 st shared).shared SHARED_NR_TOD_LOOPS = 0 ∧
      (print_status now0 now1 st shared).shared SHARED_NR_CLOCK_LOOPS = 0 ∧
      ∀ X t1, shared SHARED_LOCK % 2 = 0 →
        ∃ r, test X t1 (print_status now0 now1 st shared).shared = some r ∧
          r.shared (loopSlot X) = 1) ∧
    ((print_status now0 now1 st shared).path ≠ Path.reported →
      (print_status now0 now1 st shared).shared SHARED_NR_TSC_LOOPS =
        shared SHARED_NR_TSC_LOOPS ∧
      (print_status now0 now1 st shared).shared SHARED_NR_TOD_LOOPS =
        shared SHARED_NR_TOD_LOOPS ∧
      (print_status now0 now1 st shared).shared SHARED_NR_CLOCK_LOOPS =
        shared SHARED_NR_CLOCK_LOOPS) := by
  refine ⟨(print_status_path now0 now1 st shared).2.2, ?_, ?_⟩
  · intro hp
    have hs := print_status_shared now0 now1 st shared
    rw [if_pos hp] at hs
    rw [hs]
    refine ⟨by simp [reportShared], by simp [reportShared], by simp [reportShared], ?_⟩
    intro X t1 hfree
    have hfree' : reportShared shared SHARED_LOCK % 2 = 0 := hfree
    refine ⟨_, test_eq X t1 _ hfree', ?_⟩
    show stepShared X t1 (reportShared shared) (loopSlot X) = 1
    rw [stepShared_loop]
    cases X <;> simp [reportShared, loopSlot]
  · intro hp
    have hs := print_status_shared now0 now1 st shared
    rw [if_neg hp] at hs
    rw [hs]
    exact ⟨rfl, rfl, rfl⟩

/-- C7: on every path `print_status` leaves every shared word other than the three
loop counters unchanged, in particular the three warp counters, the three last-sample
slots, the three worst slots and the lock word; every store it performs goes to one
of the three loop counters, and it never takes or releases the lock. -/
theorem print_status_writes_only_loop_counters (now0 now1 : Nat) (st : Statics)
    (shared : Nat → Nat) :
    (∀ j, j ≠ SHARED_NR_TSC_LOOPS → j ≠ SHARED_NR_TOD_LOOPS → j ≠ SHARED_NR_CLOCK_LOOPS →
      (print_status now0 now1 st shared).shared j = shared j) ∧
    (∀ X, (print_status now0 now1 st shared).shared (warpSlot X) = shared (warpSlot X) ∧
      (print_status now0 now1 st shared).shared (lastSlot X) = shared (lastSlot X) ∧
      (print_status now0 now1 st shared).shared (worstSlot X) = shared (worstSlot X)) ∧
    (print_status now0 now1 st shared).shared SHARED_LOCK = shared SHARED_LOCK ∧
    (∀ idx val, Event.store idx val ∈ (print_status now0 now1 st shared).trace →
      idx = SHARED_NR_TSC_LOOPS ∨ idx = SHARED_NR_TOD_LOOPS ∨ idx = SHARED_NR_CLOCK_LOOPS) ∧
    (∀ idx, Event.lock idx ∉ (print_status now0 now1 st shared).trace ∧
      Event.unlock idx ∉ (print_status now0 now1 st shared).trace) := by
  have hframe : ∀ j, j ≠ SHARED_NR_TSC_LOOPS → j ≠ SHARED_NR_TOD_LOOPS →
      j ≠ SHARED_NR_CLOCK_LOOPS → (print_status now0 now1 st shared).shared j = shared j := by
    intro j h1 h2 h3
    rw [print_status_shared]
    split_ifs
    · simp [reportShared, h1, h2, h3]
    · rfl
  refine ⟨hframe, ?_, hframe _ (by decide) (by decide) (by decide), ?_, ?_⟩
  · intro X
    cases X <;>
    exact ⟨hframe _ (by decide) (by decide) (by decide),
      hframe _ (by decide) (by decide) (by decide),
      hframe _ (by decide) (by decide) (by decide)⟩
  · intro idx val hmem
    by_cases h : reachesCheck st
    · by_cases hr : rateLimited (prevTod now0 st) (now1 % 2 ^ 64)
      · rw [print_status_rate_return now0 now1 st shared h hr] at hmem
        split_ifs at hmem <;> simp at hmem
      · obtain ⟨r, e, -, -, -, -, -, -, -, ht⟩ := print_status_reported now0 now1 st shared h hr
        rw [e, ht] at hmem
        split_ifs at hmem <;> simp at hmem <;> omega
    · rw [print_status_count_return now0 now1 st shared h] at hmem
      split_ifs at hmem <;> simp at hmem
  · intro idx
    by_cases h : reachesCheck st
    · by_cases hr : rateLimited (prevTod now0 st) (now1 % 2 ^ 64)
      · rw [print_status_rate_return now0 now1 st shared h hr]
        split_ifs <;> simp
      · obtain ⟨r, e, -, -, -, -, -, -, -, ht⟩ := print_status_reported now0 now1 st shared h hr
        rw [e, ht]
        split_ifs <;> simp
    · rw [print_status_count_return now0 now1 st shared h]
      split_ifs <;> simp

theorem print_status_count1 (now0 now1 : Nat) (st : Statics) (shared : Nat → Nat) :
    (print_status now0 now1 st shared).statics.count1 =
      if reachesCheck st then 0 else (st.count1 + 1) % 2 ^ 32 := by
  by_cases h : reachesCheck st
  · rw [if_pos h]
    by_cases hr : rateLimited (prevTod now0 st) (now1 % 2 ^ 64)
    · rw [print_status_rate_return now0 now1 st shared h hr]
    · obtain ⟨r, e, -, -, hc, -⟩ := print_status_reported now0 now1 st shared h hr
      rw [e, hc]
  · rw [if_neg h, print_status_count_return now0 now1 st shared h]

theorem status_calls_count1 (calls : List (Nat × Nat × (Nat → Nat))) :
    ∀ st : Statics, st.count1 < 1000 →
      (status_calls calls st).count1 = (st.count1 + calls.length) % 1000 := by
  induction calls with
  | nil =>
    intro st h
    simp only [status_calls, List.length_nil, Nat.add_zero]
    omega
  | cons c cs ih =>
    intro st h
    have hc := print_status_count1 c.1 c.2.1 st c.2.2
    have hlt : (print_status c.1 c.2.1 st c.2.2).statics.count1 < 1000 := by
      rw [hc]
      unfold reachesCheck
      split_ifs with h1 <;> omega
    simp only [status_calls, List.length_cons]
    rw [ih _ hlt, hc]
    unfold reachesCheck
    split_ifs with h1 <;> omega

/-- The static `prev_tod` after a call: the time of this call when it reported, and
otherwise what the first statement left in it. -/
theorem print_status_prev_tod (now0 now1 : Nat) (st : Statics) (shared : Nat → Nat) :
    (print_status now0 now1 st shared).statics.prev_tod =
      if (print_status now0 now1 st shared).path = Path.reported then now1 % 2 ^ 64
      else prevTod now0 st := by
  by_cases h : reachesCheck st
  · by_cases hr : rateLimited (prevTod now0 st) (now1 % 2 ^ 64)
    · rw [print_status_rate_return now0 now1 st shared h hr]
      simp
    · obtain ⟨r, e, hp, -, -, ht, -⟩ := print_status_reported now0 now1 st shared h hr
      rw [e, hp, ht]
      simp
  · rw [print_status_count_return now0 now1 st shared h]
    simp

/-- Calls without a report keep a time that is stored in `prev_tod`. -/
theorem status_calls_keep_prev_tod (calls : List (Nat × Nat × (Nat → Nat))) :
    ∀ st : Statics, last_report calls st = none → st.prev_tod ≠ 0 →
      (status_calls calls st).prev_tod = st.prev_tod := by
  induction calls with
  | nil =>
    intro st _ _
    rfl
  | cons c cs ih =>
    intro st hl h0
    rw [last_report] at hl
    have hn : last_report cs (print_status c.1 c.2.1 st c.2.2).statics = none := by
      cases hcs : last_report cs (print_status c.1 c.2.1 st c.2.2).statics with
      | none => rfl
      | some t =>
        rw [hcs] at hl
        exact absurd hl (by simp)
    rw [hn] at hl
    have hp : (print_status c.1 c.2.1 st c.2.2).path ≠ Path.reported := by
      intro hp
      rw [if_pos hp] at hl
      exact absurd hl (by simp)
    have e : (print_status c.1 c.2.1 st c.2.2).statics.prev_tod = st.prev_tod := by
      rw [print_status_prev_tod, if_neg hp, prevTod, if_neg h0]
    rw [status_calls, ih _ hn (by rw [e]; exact h0), e]

/-- After a sequence of calls the static `prev_tod` holds the time of the last
report, unless that time is the value 0. -/
theorem status_calls_prev_tod (calls : List (Nat × Nat × (Nat → Nat))) :
    ∀ (st : Statics) (t : Nat), last_report calls st = some t → t ≠ 0 →
      (status_calls calls st).prev_tod = t := by
  induction calls with
  | nil =>
    intro st t hl _
    exact absurd hl (by simp [last_report])
  | cons c cs ih =>
    intro st t hl h0
    rw [last_report] at hl
    cases hcs : last_report cs (print_status c.1 c.2.1 st c.2.2).statics with
    | some u =>
      rw [hcs] at hl
      have e : u = t := by simpa using hl
      rw [status_calls, ih _ u hcs (by rw [e]; exact h0), e]
    | none =>
      rw [hcs] at hl
      by_cases hp : (print_status c.1 c.2.1 st c.2.2).path = Path.reported
      · rw [if_pos hp] at hl
        have e : c.2.1 % 2 ^ 64 = t := by simpa using hl
        have e2 : (print_status c.1 c.2.1 st c.2.2).statics.prev_tod = t := by
          rw [print_status_prev_tod, if_pos hp, e]
        rw [status_calls, status_calls_keep_prev_tod cs _ hcs (by rw [e2]; exact h0), e2]
      · rw [if_neg hp] at hl
        exact absurd hl (by simp)

/-- While no call has reported, the static `prev_tod` holds the time of the first
call, unless that time is the value 0. -/
theorem status_calls_first_tod (c : Nat × Nat × (Nat → Nat))
    (cs : List (Nat × Nat × (Nat → Nat))) (h : last_report (c :: cs) Statics.init = none)
    (h0 : c.1 % 2 ^ 64 ≠ 0) :
    (status_calls (c :: cs) Statics.init).prev_tod = c.1 % 2 ^ 64 := by
  rw [last_report] at h
  have hn : last_report cs (print_status c.1 c.2.1 Statics.init c.2.2).statics = none := by
    cases hcs : last_report cs (print_status c.1 c.2.1 Statics.init c.2.2).statics with
    | none => rfl
    | some t =>
      rw [hcs] at h
      exact absurd h (by simp)
  rw [hn] at h
  have hp : (print_status c.1 c.2.1 Statics.init c.2.2).path ≠ Path.reported := by
    intro hp
    rw [if_pos hp] at h
    exact absurd h (by simp)
  have e : (print_status c.1 c.2.1 Statics.init c.2.2).statics.prev_tod = c.1 % 2 ^ 64 := by
    rw [print_status_prev_tod, if_neg hp, prevTod,
      if_pos (show Statics.init.prev_tod = 0 from rfl)]
  rw [status_calls, status_calls_keep_prev_tod cs _ hn (by rw [e]; exact h0), e]

theorem rateLimited_iff_abs (prev_tod tod : Nat)
    (hlo : -(2 ^ 31) < toLL (sub64 tod prev_tod)) (hhi : toLL (sub64 tod prev_tod) < 2 ^ 31) :
    rateLimited prev_tod tod ↔ |toLL (sub64 tod prev_tod)| < 100000 := by
  have hw : sub64 tod prev_tod < 2 ^ 64 := by
    unfold sub64
    omega
  have e : toInt32 (sub64 tod prev_tod) = toLL (sub64 tod prev_tod) := by
    unfold toLL at hlo hhi ⊢
    unfold toInt32
    split_ifs at hlo hhi ⊢ <;> omega
  unfold rateLimited c_abs ofInt64
  rw [e]
  have hne : toLL (sub64 tod prev_tod) ≠ -(2 ^ 31) := by omega
  rw [if_neg hne]
  have habs : (0 : Int) ≤ |toLL (sub64 tod prev_tod)| := abs_nonneg _
  have hlt : |toLL (sub64 tod prev_tod)| < 2 ^ 31 := abs_lt.mpr ⟨hlo, hhi⟩
  omega

/-- C8 as stated fails for the rate limit.  A wall clock that steps back by 5
microseconds gives the wrapped difference `2 ^ 64 - 5`, which is not below 100000,
and the report is skipped all the same (`abs`).  A wall clock that advances by
`2 ^ 32` microseconds gives a difference that is not below 100000, and the report is
skipped all the same (the argument of `abs` is an `int`).  And if the difference is
read as a signed number instead: a wall clock that steps back by 200000 microseconds
gives the signed difference `-200000`, which is below 100000, and the report is made
all the same. -/
theorem rate_limit_is_not_unsigned_difference :
    (reachesCheck (statics_at_check 1000005) ∧
      (print_status 0 1000000 (statics_at_check 1000005) setup_shared_var).path =
        Path.rate_return ∧
      ¬ sub64 1000000 1000005 < 100000) ∧
    (reachesCheck (statics_at_check 1) ∧
      (print_status 0 (1 + 2 ^ 32) (statics_at_check 1) setup_shared_var).path =
        Path.rate_return ∧
      ¬ sub64 (1 + 2 ^ 32) 1 < 100000) ∧
    (reachesCheck (statics_at_check 1000000) ∧
      (print_status 0 800000 (statics_at_check 1000000) setup_shared_var).path =
        Path.reported ∧
      toLL (sub64 800000 1000000) = -200000) := by
  decide

/-- C8, amended: counted from the zero statics, the call of `print_status` number
`k` gets past the call counter to the wall-clock check exactly when `k` is a multiple
of 1000, and the counter holds `k mod 1000` after `k` calls (it restarts from 0 at
every check, whether or not a report follows).  At a check, with `d` the signed
64-bit value of `tod - prev_tod`: if `d` fits an `int`, strictly between `-2 ^ 31`
and `2 ^ 31`, the report is skipped if and only if `|d| < 100000`; in particular,
for `prev_tod <= tod < prev_tod + 2 ^ 31`, if and only if `tod - prev_tod < 100000`.
The static `prev_tod` is the time of the last report: a call that reports stores its
`tod` in it, a call that returns early leaves it as it is, except that the value 0
counts as not set and is replaced by the time of the call.  So after any sequence of
calls with a last report at a time `t` other than 0, the next check skips the report
if and only if less than 100000 microseconds have elapsed since `t` (for a clock that
has not stepped back and has advanced by less than `2 ^ 31`); before the first report
`prev_tod` is the time of the first call.  The last part is an evaluation: a call
that reports at the time 200000, followed by a call that returns early. -/
theorem report_rate_limit (calls : List (Nat × Nat × (Nat → Nat))) (now0 now1 : Nat)
    (shared : Nat → Nat) :
    (status_calls calls Statics.init).count1 = calls.length % 1000 ∧
    ((print_status now0 now1 (status_calls calls Statics.init) shared).path ≠
        Path.count_return ↔ (calls.length + 1) % 1000 = 0) ∧
    (∀ st : Statics, reachesCheck st →
      -(2 ^ 31) < toLL (sub64 (now1 % 2 ^ 64) (prevTod now0 st)) →
      toLL (sub64 (now1 % 2 ^ 64) (prevTod now0 st)) < 2 ^ 31 →
      ((print_status now0 now1 st shared).path = Path.rate_return ↔
        |toLL (sub64 (now1 % 2 ^ 64) (prevTod now0 st))| < 100000)) ∧
    (∀ st : Statics, reachesCheck st → prevTod now0 st ≤ now1 → now1 < 2 ^ 64 →
      now1 - prevTod now0 st < 2 ^ 31 →
      ((print_status now0 now1 st shared).path = Path.rate_return ↔
        now1 - prevTod now0 st < 100000)) ∧
    (∀ st : Statics,
      ((print_status now0 now1 st shared).path = Path.reported →
        (print_status now0 now1 st shared).statics.prev_tod = now1 % 2 ^ 64) ∧
      ((print_status now0 now1 st shared).path ≠ Path.reported →
        (print_status now0 now1 st shared).statics.prev_tod = prevTod now0 st) ∧
      (st.prev_tod ≠ 0 → prevTod now0 st = st.prev_tod) ∧
      (st.prev_tod = 0 → prevTod now0 st = now0 % 2 ^ 64)) ∧
    (∀ st t, last_report calls st = some t → t ≠ 0 →
      (status_calls calls st).prev_tod = t ∧
      prevTod now0 (status_calls calls st) = t ∧
      (reachesCheck (status_calls calls st) →
        -(2 ^ 31) < toLL (sub64 (now1 % 2 ^ 64) t) → toLL (sub64 (now1 % 2 ^ 64) t) < 2 ^ 31 →
        ((print_status now0 now1 (status_calls calls st) shared).path =
          Path.rate_return ↔ |toLL (sub64 (now1 % 2 ^ 64) t)| < 100000)) ∧
      (reachesCheck (status_calls calls st) → t ≤ now1 → now1 < 2 ^ 64 →
        now1 - t < 2 ^ 31 →
        ((print_status now0 now1 (status_calls calls st) shared).path =
          Path.rate_return ↔ now1 - t < 100000))) ∧
    (reachesCheck (status_calls calls Statics.init) ↔ (calls.length + 1) % 1000 = 0) ∧
    (∀ c cs, calls = c :: cs → last_report calls Statics.init = none → c.1 % 2 ^ 64 ≠ 0 →
      (status_calls calls Statics.init).prev_tod = c.1 % 2 ^ 64) ∧
    (last_report [(0, 200000, setup_shared_var), (0, 250000, setup_shared_var)]
        (statics_at_check 1) = some 200000 ∧
      (status_calls [(0, 200000, setup_shared_var), (0, 250000, setup_shared_var)]
        (statics_at_check 1)).prev_tod = 200000) := by
  have hinit : Statics.init.count1 < 1000 := by decide
  have hc := status_calls_count1 calls Statics.init hinit
  have hc0 : (status_calls calls Statics.init).count1 = calls.length % 1000 := by
    rw [hc]
    show (0 + calls.length) % 1000 = _
    rw [Nat.zero_add]
  have hB : ∀ st : Statics, reachesCheck st →
      -(2 ^ 31) < toLL (sub64 (now1 % 2 ^ 64) (prevTod now0 st)) →
      toLL (sub64 (now1 % 2 ^ 64) (prevTod now0 st)) < 2 ^ 31 →
      ((print_status now0 now1 st shared).path = Path.rate_return ↔
        |toLL (sub64 (now1 % 2 ^ 64) (prevTod now0 st))| < 100000) := by
    intro st h hlo hhi
    rw [(print_status_path now0 now1 st shared).2.1, ← rateLimited_iff_abs _ _ hlo hhi]
    exact and_iff_right h
  have hD : ∀ st : Statics, reachesCheck st → prevTod now0 st ≤ now1 → now1 < 2 ^ 64 →
      now1 - prevTod now0 st < 2 ^ 31 →
      ((print_status now0 now1 st shared).path = Path.rate_return ↔
        now1 - prevTod now0 st < 100000) := by
    intro st h hle h64 hsmall
    have e : toLL (sub64 (now1 % 2 ^ 64) (prevTod now0 st)) =
        ((now1 - prevTod now0 st : Nat) : Int) := by
      unfold toLL sub64
      split_ifs <;> omega
    have hlo : -(2 ^ 31) < toLL (sub64 (now1 % 2 ^ 64) (prevTod now0 st)) := by omega
    have hhi : toLL (sub64 (now1 % 2 ^ 64) (prevTod now0 st)) < 2 ^ 31 := by omega
    rw [hB st h hlo hhi, e, abs_of_nonneg (by omega)]
    omega
  have hreach : reachesCheck (status_calls calls Statics.init) ↔
      (calls.length + 1) % 1000 = 0 := by
    unfold reachesCheck
    rw [hc0]
    omega
  refine ⟨hc0, ?_, hB, hD, ?_, ?_, hreach, ?_, by decide⟩
  · rw [Ne, (print_status_path now0 now1 _ shared).1, not_not]
    unfold reachesCheck
    rw [hc0]
    omega
  · intro st
    refine ⟨?_, ?_, ?_, ?_⟩
    · intro hp
      rw [print_status_prev_tod, if_pos hp]
    · intro hp
      rw [print_status_prev_tod, if_neg hp]
    · intro h0
      rw [prevTod, if_neg h0]
    · intro h0
      rw [prevTod, if_pos h0]
  · intro st t hl h0
    have hpt := status_calls_prev_tod calls st t hl h0
    have hpv : prevTod now0 (status_calls calls st) = t := by
      rw [prevTod, hpt, if_neg h0]
    refine ⟨hpt, hpv, ?_, ?_⟩
    · intro hk hlo hhi
      have h := hB (status_calls calls st) hk
      rw [hpv] at h
      exact h hlo hhi
    · intro hk hle h64 hsmall
      have h := hD (status_calls calls st) hk
      rw [hpv] at h
      exact h hle h64 hsmall
  · intro c cs e hl h0
    subst e
    exact status_calls_first_tod c cs hl h0

/-! ## Sequential runs -/

theorem exec_sample (X : Source) (v : Nat) (s : Sys) (hfree : s.shared SHARED_LOCK % 2 = 0) :
    exec (Action.sample X v) s = some ⟨stepShared X v s.shared, s.statics⟩ := by
  simp only [exec, test_eq X v s.shared hfree, Option.map_some']

theorem exec_status (now0 now1 : Nat) (s : Sys) :
    exec (Action.status now0 now1) s =
      some ⟨(print_status now0 now1 s.statics s.shared).shared,
        (print_status now0 now1 s.statics s.shared).statics⟩ := rfl

theorem print_status_keeps (now0 now1 : Nat) (st : Statics) (shared : Nat → Nat) (j : Nat)
    (h1 : j ≠ SHARED_NR_TSC_LOOPS) (h2 : j ≠ SHARED_NR_TOD_LOOPS)
    (h3 : j ≠ SHARED_NR_CLOCK_LOOPS) :
    (print_status now0 now1 st shared).shared j = shared j := by
  rw [print_status_shared]
  split_ifs
  · simp [reportShared, h1, h2, h3]
  · rfl

theorem print_status_keeps_last (now0 now1 : Nat) (st : Statics) (shared : Nat → Nat)
    (X : Source) :
    (print_status now0 now1 st shared).shared (lastSlot X) = shared (lastSlot X) := by
  cases X <;> exact print_status_keeps _ _ _ _ _ (by decide) (by decide) (by decide)

theorem print_status_keeps_warp (now0 now1 : Nat) (st : Statics) (shared : Nat → Nat)
    (X : Source) :
    (print_status now0 now1 st shared).shared (warpSlot X) = shared (warpSlot X) := by
  cases X <;> exact print_status_keeps _ _ _ _ _ (by decide) (by decide) (by decide)

theorem print_status_keeps_lock (now0 now1 : Nat) (st : Statics) (shared : Nat → Nat) :
    (print_status now0 now1 st shared).shared SHARED_LOCK = shared SHARED_LOCK :=
  print_status_keeps _ _ _ _ _ (by decide) (by decide) (by decide)

/-- From a state with the lock free every sequence of operations runs to the end; the
lock is free again and the last-sample slots hold the last samples written. -/
theorem run_lastWritten (X : Source) (as : List Action) :
    ∀ s : Sys, s.shared SHARED_LOCK % 2 = 0 →
      ∃ s', run as s = some s' ∧ s'.shared SHARED_LOCK % 2 = 0 ∧
        s'.shared (lastSlot X) = lastWritten X as (s.shared (lastSlot X)) := by
  induction as with
  | nil =>
    intro s h
    exact ⟨s, rfl, h, rfl⟩
  | cons a as ih =>
    intro s h
    cases a with
    | sample Y v =>
      have hl : (stepShared Y v s.shared) SHARED_LOCK % 2 = 0 := by
        rw [stepShared_lock]
      obtain ⟨s', hrun, hfree, hlast⟩ := ih ⟨stepShared Y v s.shared, s.statics⟩ hl
      refine ⟨s', ?_, hfree, ?_⟩
      · simp only [run, exec_sample Y v s h, Option.some_bind, hrun]
      · rw [hlast]
        simp only [lastWritten]
        by_cases hY : Y = X
        · subst hY
          rw [if_pos rfl, stepShared_last]
        · rw [if_neg hY, (stepShared_other Y X (fun e => hY e.symm) v s.shared).1]
    | status now0 now1 =>
      have hl : (print_status now0 now1 s.statics s.shared).shared SHARED_LOCK % 2 = 0 := by
        rw [print_status_keeps_lock]
        exact h
      obtain ⟨s', hrun, hfree, hlast⟩ :=
        ih ⟨(print_status now0 now1 s.statics s.shared).shared,
          (print_status now0 now1 s.statics s.shared).statics⟩ hl
      refine ⟨s', ?_, hfree, ?_⟩
      · simp only [run, exec_status, Option.some_bind, hrun]
      · rw [hlast]
        simp only [lastWritten]
        exact congrArg (lastWritten X as)
          (print_status_keeps_last now0 now1 s.statics s.shared X)

theorem lastWritten_none (X : Source) (as : List Action) :
    ∀ d, (∀ v, Action.sample X v ∉ as) → lastWritten X as d = d := by
  induction as with
  | nil =>
    intro d _
    rfl
  | cons a as ih =>
    intro d h
    have h' : ∀ v, Action.sample X v ∉ as := fun v hv => h v (List.mem_cons_of_mem _ hv)
    cases a with
    | sample Y v =>
      have hY : Y ≠ X := by
        intro e
        subst e
        exact h v (List.mem_cons_self _ _)
      simp only [lastWritten, if_neg hY]
      exact ih d h'
    | status now0 now1 =>
      simp only [lastWritten]
      exact ih d h'

theorem lastWritten_append (X : Source) (pre : List Action) :
    ∀ (post : List Action) (d : Nat),
      lastWritten X (pre ++ post) d = lastWritten X post (lastWritten X pre d) := by
  induction pre with
  | nil =>
    intro post d
    rfl
  | cons a as ih =>
    intro post d
    cases a with
    | sample Y v =>
      simp only [List.cons_append, lastWritten]
      exact ih post _
    | status now0 now1 =>
      simp only [List.cons_append, lastWritten]
      exact ih post _

/-- C1: in the sequential model, from the zero page and zero statics every sequence
`as` of sampling steps and `print_status` calls runs to a state `s`, and a further step
of source `X` with the 64-bit sample `x` returns from there.  The previous value `t0`
it captures is 0 when `as` holds no step of `X`, and is `xk` when the last step of `X`
in `as` wrote the sample `xk`, whatever steps of the other sources and reporter calls
come in between.  After the step the last-sample slot of `X` holds `x` and the loop
counter of `X` has grown by exactly 1 (as a 64-bit word, so literally by 1 unless it
was at `2 ^ 64 - 1`). -/
theorem no_lost_updates (as : List Action) (X : Source) (x : Nat) (hx : x < 2 ^ 64) :
    ∃ s r, run as Sys.init = some s ∧ test X x s.shared = some r ∧
      ((∀ v, Action.sample X v ∉ as) → r.t0 = 0) ∧
      (∀ pre mid xk, as = pre ++ Action.sample X xk :: mid →
        (∀ v, Action.sample X v ∉ mid) → xk < 2 ^ 64 → r.t0 = xk) ∧
      r.shared (lastSlot X) = x ∧
      r.shared (loopSlot X) = (s.shared (loopSlot X) + 1) % 2 ^ 64 ∧
      (s.shared (loopSlot X) + 1 < 2 ^ 64 →
        r.shared (loopSlot X) = s.shared (loopSlot X) + 1) := by
  have h0 : Sys.init.shared SHARED_LOCK % 2 = 0 := by decide
  obtain ⟨s, hrun, hfree, hlast⟩ := run_lastWritten X as Sys.init h0
  have hz : Sys.init.shared (lastSlot X) = 0 := rfl
  rw [hz] at hlast
  refine ⟨s, _, hrun, test_eq X x s.shared hfree, ?_, ?_, ?_, ?_, ?_⟩
  · intro hnone
    show s.shared (lastSlot X) = 0
    rw [hlast, lastWritten_none X as 0 hnone]
  · intro pre mid xk has hmid hxk
    show s.shared (lastSlot X) = xk
    rw [hlast, has, lastWritten_append]
    simp only [lastWritten, if_pos rfl]
    rw [lastWritten_none X mid _ hmid]
    exact Nat.mod_eq_of_lt hxk
  · show stepShared X x s.shared (lastSlot X) = x
    rw [stepShared_last]
    exact Nat.mod_eq_of_lt hx
  · show stepShared X x s.shared (loopSlot X) = _
    rw [stepShared_loop]
  · intro hb
    show stepShared X x s.shared (loopSlot X) = _
    rw [stepShared_loop]
    exact Nat.mod_eq_of_lt hb

/-- C1, witness: a TSC step after the steps TSC 5, TOD 9 and a reporter call. -/
theorem no_lost_updates_witness :
    (6 : Nat) < 2 ^ 64 ∧
    ∃ s r, run [Action.sample Source.TSC 5, Action.sample Source.TOD 9, Action.status 1 2]
        Sys.init = some s ∧
      test Source.TSC 6 s.shared = some r ∧
      ((∀ v, Action.sample Source.TSC v ∉
        [Action.sample Source.TSC 5, Action.sample Source.TOD 9, Action.status 1 2]) →
        r.t0 = 0) ∧
      (∀ pre mid xk,
        [Action.sample Source.TSC 5, Action.sample Source.TOD 9, Action.status 1 2] =
          pre ++ Action.sample Source.TSC xk :: mid →
        (∀ v, Action.sample Source.TSC v ∉ mid) → xk < 2 ^ 64 → r.t0 = xk) ∧
      r.shared (lastSlot Source.TSC) = 6 ∧
      r.shared (loopSlot Source.TSC) = (s.shared (loopSlot Source.TSC) + 1) % 2 ^ 64 ∧
      (s.shared (loopSlot Source.TSC) + 1 < 2 ^ 64 →
        r.shared (loopSlot Source.TSC) = s.shared (loopSlot Source.TSC) + 1) :=
  ⟨by decide, no_lost_updates
    [Action.sample Source.TSC 5, Action.sample Source.TOD 9, Action.status 1 2]
    Source.TSC 6 (by decide)⟩

/-! ## Streams without warps -/

/-- A step whose sample is at or above the stored one, by less than `2 ^ 63`, has a
non-negative `delta`. -/
theorem stepDelta_nonneg (X : Source) (t1 : Nat) (shared : Nat → Nat)
    (h1 : t1 < 2 ^ 64) (hle : shared (lastSlot X) ≤ t1)
    (hgap : t1 - shared (lastSlot X) < 2 ^ 63) : 0 ≤ stepDelta X t1 shared := by
  unfold stepDelta toLL sub64
  split_ifs with hc <;> omega

/-- The loop of steps of `X` over the samples `base .. base + m - 1` of a stream with
small steps, started with the predecessor of sample `base` in the slot: all steps
return, no warp is counted, the slot ends with the predecessor of sample `base + m`,
the lock is free and the slots of the other sources keep their content. -/
theorem test_loop_no_warp (X : Source) (σ : Nat → Nat) (base : Nat) (m : Nat) :
    ∀ shared : Nat → Nat, shared SHARED_LOCK % 2 = 0 →
      shared (lastSlot X) = prevSample σ base → SmallSteps σ (base + m) →
      ∃ sh, test_loop X (fun i => σ (base + i)) m shared = some sh ∧
        sh SHARED_LOCK % 2 = 0 ∧
        sh (lastSlot X) = prevSample σ (base + m) ∧
        sh (warpSlot X) = shared (warpSlot X) ∧
        ∀ Y, Y ≠ X → sh (lastSlot Y) = shared (lastSlot Y) ∧
          sh (warpSlot Y) = shared (warpSlot Y) := by
  induction m with
  | zero =>
    intro shared hfree hlast _
    exact ⟨shared, rfl, hfree, hlast, rfl, fun _ _ => ⟨rfl, rfl⟩⟩
  | succ m ih =>
    intro shared hfree hlast hsmall
    have hsmall' : SmallSteps σ (base + m) := fun j hj => hsmall j (by omega)
    obtain ⟨sh, hrun, hfree', hlast', hwarp', hother'⟩ := ih shared hfree hlast hsmall'
    obtain ⟨h64, hle, hgap⟩ := hsmall (base + m) (by omega)
    rw [← hlast'] at hle hgap
    have hd := stepDelta_nonneg X (σ (base + m)) sh h64 hle hgap
    refine ⟨stepShared X (σ (base + m)) sh, ?_, ?_, ?_, ?_, ?_⟩
    · simp only [test_loop, hrun, Option.some_bind, test_eq X _ sh hfree', Option.map_some']
    · rw [stepShared_lock]
    · rw [stepShared_last, Nat.mod_eq_of_lt h64]
      unfold prevSample
      rw [if_neg (by omega)]
      rfl
    · rw [stepShared_warp, if_neg (not_lt.mpr hd), hwarp']
    · intro Y hY
      have ho := stepShared_other X Y hY (σ (base + m)) sh
      rw [ho.1, ho.2.2.1]
      exact hother' Y hY

/-- The invariant of the main loop under streams with small steps: after `k`
iterations the lock is free, no warp is counted and every last-sample slot holds the
predecessor of sample `10 * k` of its stream. -/
theorem main_loop_no_warp (reporter : Bool) (tsc tod clk now0 now1 : Nat → Nat) (n : Nat)
    (hT : SmallSteps tsc (10 * n)) (hD : SmallSteps tod (10 * n))
    (hC : SmallSteps clk (10 * n)) :
    ∃ s, main_loop reporter tsc tod clk now0 now1 n Sys.init = some s ∧
      s.shared SHARED_LOCK % 2 = 0 ∧
      s.shared SHARED_TSC = prevSample tsc (10 * n) ∧
      s.shared SHARED_TOD = prevSample tod (10 * n) ∧
      s.shared SHARED_CLOCK = prevSample clk (10 * n) ∧
      s.shared SHARED_NR_TSC_WARPS = 0 ∧ s.shared SHARED_NR_TOD_WARPS = 0 ∧
      s.shared SHARED_NR_CLOCK_WARPS = 0 := by
  induction n with
  | zero =>
    exact ⟨Sys.init, rfl, by decide, rfl, rfl, rfl, rfl, rfl, rfl⟩
  | succ n ih =>
    obtain ⟨s, hrun, hfree, h1, h2, h3, w1, w2, w3⟩ :=
      ih (fun j hj => hT j (by omega)) (fun j hj => hD j (by omega))
        (fun j hj => hC j (by omega))
    obtain ⟨a, ha, fa, la, wa, oa⟩ := test_loop_no_warp Source.TSC tsc (10 * n) 10 s.shared
      hfree h1 hT
    obtain ⟨b, hb, fb, lb, wb, ob⟩ := test_loop_no_warp Source.TOD tod (10 * n) 10 a fa
      ((oa Source.TOD (by decide)).1.trans h2) hD
    obtain ⟨c, hc, fc, lc, wc, oc⟩ := test_loop_no_warp Source.CLOCK clk (10 * n) 10 b fb
      ((ob Source.CLOCK (by decide)).1.trans ((oa Source.CLOCK (by decide)).1.trans h3)) hC
    have e1 : c SHARED_TSC = prevSample tsc (10 * (n + 1)) :=
      (oc Source.TSC (by decide)).1.trans ((ob Source.TSC (by decide)).1.trans la)
    have e2 : c SHARED_TOD = prevSample tod (10 * (n + 1)) :=
      (oc Source.TOD (by decide)).1.trans lb
    have e3 : c SHARED_CLOCK = prevSample clk (10 * (n + 1)) := lc
    have f1 : c SHARED_NR_TSC_WARPS = 0 :=
      (oc Source.TSC (by decide)).2.trans ((ob Source.TSC (by decide)).2.trans (wa.trans w1))
    have f2 : c SHARED_NR_TOD_WARPS = 0 :=
      (oc Source.TOD (by decide)).2.trans (wb.trans ((oa Source.TOD (by decide)).2.trans w2))
    have f3 : c SHARED_NR_CLOCK_WARPS = 0 :=
      wc.trans ((ob Source.CLOCK (by decide)).2.trans
        ((oa Source.CLOCK (by decide)).2.trans w3))
    cases reporter with
    | false =>
      refine ⟨⟨c, s.statics⟩, ?_, fc, e1, e2, e3, f1, f2, f3⟩
      simp only [main_loop, hrun, Option.some_bind, main_iteration, ha, hb, hc]
      rfl
    | true =>
      refine ⟨⟨(print_status (now0 n) (now1 n) s.statics c).shared,
        (print_status (now0 n) (now1 n) s.statics c).statics⟩, ?_, ?_, ?_, ?_, ?_, ?_, ?_, ?_⟩
      · simp only [main_loop, hrun, Option.some_bind, main_iteration, ha, hb, hc]
        rfl
      · show (print_status (now0 n) (now1 n) s.statics c).shared SHARED_LOCK % 2 = 0
        rw [print_status_keeps_lock]
        exact fc
      · exact (print_status_keeps_last _ _ _ c Source.TSC).trans e1
      · exact (print_status_keeps_last _ _ _ c Source.TOD).trans e2
      · exact (print_status_keeps_last _ _ _ c Source.CLOCK).trans e3
      · exact (print_status_keeps_warp _ _ _ c Source.TSC).trans f1
      · exact (print_status_keeps_warp _ _ _ c Source.TOD).trans f2
      · exact (print_status_keeps_warp _ _ _ c Source.CLOCK).trans f3

theorem increasing64_offset (c : Nat) (hc : c + 10 ≤ 2 ^ 64) :
    Increasing64 (fun k => c + k) 10 := by
  refine ⟨fun j hj => ?_, fun i j hij hj => ?_⟩
  · show c + j < 2 ^ 64
    omega
  · show c + i < c + j
    omega

set_option maxRecDepth 100000 in
/-- C4 as stated fails: the TSC stream `2 ^ 63, 2 ^ 63 + 1, ...` and the TOD and
CLOCK streams `0, 1, ...` increase strictly and stay below `2 ^ 64`, yet after one
iteration of the main loop the TSC warp counter is 1: against the initial 0 the
first sample gives the wrapped difference `2 ^ 63`, which is negative as a signed
64-bit number. -/
theorem increasing_streams_can_warp :
    Increasing64 (fun k => 2 ^ 63 + k) 10 ∧ Increasing64 (fun k => 0 + k) 10 ∧
    (main_loop true (fun k => 2 ^ 63 + k) (fun k => 0 + k) (fun k => 0 + k)
      (fun _ => 0) (fun _ => 0) 1 Sys.init).map (fun s => s.shared SHARED_NR_TSC_WARPS) =
        some 1 :=
  ⟨increasing64_offset (2 ^ 63) (by decide), increasing64_offset 0 (by decide), by decide⟩

/-- C4, amended: from the zero-initialised state, for every three streams of 64-bit
samples in which no sample is below its predecessor (the initial 0 for the first) and
none exceeds it by `2 ^ 63` or more, and for every number `n` of iterations of the
main loop (10 TSC, 10 TOD, 10 CLOCK steps each, with or without `print_status`,
whatever the wall clock returns there), the loop runs and the three warp counters are
0 afterwards. -/
theorem small_step_streams_never_warp (reporter : Bool) (tsc tod clk now0 now1 : Nat → Nat)
    (n : Nat) (hT : SmallSteps tsc (10 * n)) (hD : SmallSteps tod (10 * n))
    (hC : SmallSteps clk (10 * n)) :
    ∃ s, main_loop reporter tsc tod clk now0 now1 n Sys.init = some s ∧
      s.shared SHARED_NR_TSC_WARPS = 0 ∧ s.shared SHARED_NR_TOD_WARPS = 0 ∧
      s.shared SHARED_NR_CLOCK_WARPS = 0 := by
  obtain ⟨s, h, -, -, -, -, w1, w2, w3⟩ :=
    main_loop_no_warp reporter tsc tod clk now0 now1 n hT hD hC
  exact ⟨s, h, w1, w2, w3⟩

theorem smallSteps_offset (c n : Nat) (hc : c + n ≤ 2 ^ 63) :
    SmallSteps (fun k => c + k) n := by
  intro j hj
  unfold prevSample
  refine ⟨?_, ?_, ?_⟩
  · show c + j < 2 ^ 64
    omega
  · split_ifs with h0
    · exact Nat.zero_le _
    · show c + (j - 1) ≤ c + j
      omega
  · split_ifs with h0
    · show c + j - 0 < 2 ^ 63
      omega
    · show c + j - (c + (j - 1)) < 2 ^ 63
      omega

/-- C4, witness: three streams that count up from 100, 200 and 300, for 3 iterations. -/
theorem small_step_streams_never_warp_witness :
    SmallSteps (fun k => 100 + k) (10 * 3) ∧ SmallSteps (fun k => 200 + k) (10 * 3) ∧
    SmallSteps (fun k => 300 + k) (10 * 3) ∧
    ∃ s, main_loop true (fun k => 100 + k) (fun k => 200 + k) (fun k => 300 + k)
        (fun _ => 7) (fun k => 7 + k) 3 Sys.init = some s ∧
      s.shared SHARED_NR_TSC_WARPS = 0 ∧ s.shared SHARED_NR_TOD_WARPS = 0 ∧
      s.shared SHARED_NR_CLOCK_WARPS = 0 :=
  ⟨smallSteps_offset 100 _ (by decide), smallSteps_offset 200 _ (by decide),
    smallSteps_offset 300 _ (by decide),
    small_step_streams_never_warp true (fun k => 100 + k) (fun k => 200 + k)
      (fun k => 300 + k) (fun _ => 7) (fun k => 7 + k) 3
      (smallSteps_offset 100 _ (by decide)) (smallSteps_offset 200 _ (by decide))
      (smallSteps_offset 300 _ (by decide))⟩

/-! ## The fork loop -/

/-- The fork loop in closed form: if the loop test holds at the first `k` values of
the index and either fails at the next one or the fuel is used up, the process
`pid` creates the processes `next, ..., next + k - 1` and none of them forks. -/
theorem fork_loop_eq (tasks parent : Nat) (k : Nat) :
    ∀ (fuel : Nat) (i : Int) (pid : Nat) (ret : Option Nat) (made : List Nat) (next : Nat),
      next ≠ 0 → k ≤ fuel →
      (∀ j : Nat, j < k → ofInt64 (i + (j : Int)) < tasks) →
      (k < fuel → ¬ ofInt64 (i + (k : Int)) < tasks) →
      fork_loop tasks parent fuel i pid ret made next =
        (⟨pid, parent, if k = 0 then ret else some (next + k - 1),
            made ++ List.range' next k, i + (k : Int)⟩ :: forked parent k next i,
          next + k) := by
  induction k with
  | zero =>
    intro fuel i pid ret made next _ _ _ hexit
    cases fuel with
    | zero => simp [fork_loop, forked]
    | succ f =>
      have h := hexit (Nat.succ_pos f)
      simp only [Nat.cast_zero, add_zero] at h
      simp [fork_loop, forked, h]
  | succ k ih =>
    intro fuel i pid ret made next hnext hfuel hloop hexit
    cases fuel with
    | zero => omega
    | succ f =>
      have h0 : ofInt64 i < tasks := by
        have := hloop 0 (Nat.succ_pos k)
        simpa using this
      have hl : ∀ j : Nat, j < k → ofInt64 (i + 1 + (j : Int)) < tasks := by
        intro j hj
        have := hloop (j + 1) (by omega)
        have e : i + ((j + 1 : Nat) : Int) = i + 1 + (j : Int) := by
          push_cast
          ring
        rwa [e] at this
      have e1 : i + ((k + 1 : Nat) : Int) = i + 1 + (k : Int) := by
        push_cast
        ring
      have he : k < f → ¬ ofInt64 (i + 1 + (k : Int)) < tasks := by
        intro hk
        have := hexit (by omega)
        rwa [e1] at this
      have e := ih f (i + 1) pid (some next) (made ++ [next]) (next + 1)
        (Nat.succ_ne_zero next) (by omega) hl he
      simp only [fork_loop, h0, if_true, if_neg hnext, e, forked, e1]
      refine Prod.ext ?_ ?_
      · simp only [List.cons_append, List.append_assoc, List.singleton_append,
          List.range'_succ, List.cons.injEq, Proc.mk.injEq, true_and, and_true]
        refine ⟨?_, by simp⟩
        by_cases hk : k = 0
        · simp [hk]
        · simp only [hk, if_false, Nat.succ_ne_zero, Option.some.injEq]
          omega
      · simp only
        omega

theorem ofInt64_natCast (n : Nat) (h : n < 2 ^ 64) : ofInt64 (n : Int) = n := by
  unfold ofInt64
  omega

theorem forked_length (parent : Nat) (k : Nat) :
    ∀ (next : Nat) (i : Int), (forked parent k next i).length = k := by
  induction k with
  | zero =>
    intro next i
    rfl
  | succ k ih =>
    intro next i
    simp only [forked, List.length_append, ih, List.length_singleton]

theorem forked_mem (parent : Nat) (k : Nat) :
    ∀ (next : Nat) (i : Int) (q : Proc), q ∈ forked parent k next i →
      q.last_fork = some 0 ∧ q.children = [] ∧ q.parent = parent ∧ next ≤ q.pid ∧
      i ≤ q.i ∧ q.i < i + (k : Int) := by
  induction k with
  | zero =>
    intro next i q hq
    simp [forked] at hq
  | succ k ih =>
    intro next i q hq
    simp only [forked, List.mem_append, List.mem_singleton] at hq
    rcases hq with hq | hq
    · obtain ⟨a, b, c, d, e, f⟩ := ih (next + 1) (i + 1) q hq
      refine ⟨a, b, c, by omega, by omega, ?_⟩
      push_cast
      omega
    · subst hq
      refine ⟨rfl, rfl, rfl, le_refl _, le_refl _, ?_⟩
      push_cast
      omega

theorem forked_forks_total (parent : Nat) (k : Nat) (next : Nat) (i : Int) :
    forks_total (forked parent k next i) = 0 := by
  unfold forks_total
  apply List.sum_eq_zero
  intro x hx
  obtain ⟨q, hq, rfl⟩ := List.mem_map.mp hx
  rw [(forked_mem parent k next i q hq).2.1]
  rfl

theorem forked_no_reporter (parent : Nat) (k next : Nat) (i : Int) (h : parent < next) :
    (forked parent k next i).filter (fun q => calls_print_status q) = [] := by
  apply List.filter_eq_nil_iff.mpr
  intro q hq
  obtain ⟨-, -, hp, hle, -⟩ := forked_mem parent k next i q hq
  simp only [calls_print_status, decide_eq_true_eq]
  omega

/-- The processes that leave the fork loop, for every task count that an
`unsigned long` can hold. -/
theorem main_fork_eq (n p : Nat) (h1 : 1 ≤ n) (h2 : n < 2 ^ 64) :
    main_fork n p =
      ⟨p, p, if n - 1 = 0 then none else some (p + 1 + (n - 1) - 1),
        List.range' (p + 1) (n - 1), n⟩ :: forked p (n - 1) (p + 1) 1 := by
  have hit : ∀ j : Nat, (1 : Int) + (j : Int) = ((1 + j : Nat) : Int) := by
    intro j
    push_cast
    rfl
  have e := fork_loop_eq n p (n - 1) n 1 p none [] (p + 1) (Nat.succ_ne_zero p)
    (by omega)
    (by
      intro j hj
      rw [hit j, ofInt64_natCast _ (by omega)]
      omega)
    (by
      intro _
      rw [hit (n - 1), ofInt64_natCast _ (by omega)]
      omega)
  unfold main_fork
  rw [e, hit (n - 1)]
  simp only [List.nil_append, List.cons.injEq, Proc.mk.injEq, true_and, and_true]
  omega

/-- C10: with `fork` always succeeding, for every task count `n >= 1` (a value of
type `unsigned long`) and every process id `p` of the original process: exactly `n`
processes enter the sampling loop, `n - 1` forks are performed in total, all by the
original process; every other process has returned from `fork` with 0 and has left
the loop at once, without forking; exactly one process, the original one, passes the
test `me == parent` and calls `print_status`; for `n = 1` there is no fork and the
sole process is the one that reports.  The loop index of every process ends between
1 and `n`, so for `n < 2 ^ 31` it never leaves the range of `int`. -/
theorem fork_topology (n p : Nat) (h1 : 1 ≤ n) (h2 : n < 2 ^ 64) :
    (main_fork n p).length = n ∧
    forks_total (main_fork n p) = n - 1 ∧
    (∀ q ∈ main_fork n p, q.last_fork = some 0 → q.children = []) ∧
    (∀ q ∈ main_fork n p, q.pid ≠ p → q.last_fork = some 0 ∧ q.children = []) ∧
    (∃ q, (main_fork n p).filter (fun q => calls_print_status q) = [q] ∧ q.pid = p ∧
      q.children.length = n - 1) ∧
    (n = 1 → main_fork n p = [⟨p, p, none, [], 1⟩] ∧
      calls_print_status ⟨p, p, none, [], 1⟩ = true) ∧
    (∀ q ∈ main_fork n p, 1 ≤ q.i ∧ q.i ≤ (n : Int)) ∧
    (n < 2 ^ 31 → ∀ q ∈ main_fork n p, -(2 ^ 31) ≤ q.i ∧ q.i < 2 ^ 31) := by
  have e := main_fork_eq n p h1 h2
  have hz := forked_forks_total p (n - 1) (p + 1) 1
  have hi : ∀ q ∈ main_fork n p, 1 ≤ q.i ∧ q.i ≤ (n : Int) := by
    intro q hq
    rw [e, List.mem_cons] at hq
    rcases hq with hq | hq
    · subst hq
      simp only
      omega
    · obtain ⟨-, -, -, -, ha, hb⟩ := forked_mem p _ _ _ q hq
      omega
  refine ⟨?_, ?_, ?_, ?_, ?_, ?_, hi, ?_⟩
  · rw [e, List.length_cons, forked_length]
    omega
  · rw [e]
    unfold forks_total at hz ⊢
    simp only [List.map_cons, List.sum_cons, hz, List.length_range', Nat.add_zero]
  · intro q hq h0
    rw [e, List.mem_cons] at hq
    rcases hq with hq | hq
    · subst hq
      simp only at h0
      split_ifs at h0 with hn
      simp only [Option.some.injEq] at h0
      omega
    · exact (forked_mem p _ _ _ q hq).2.1
  · intro q hq hne
    rw [e, List.mem_cons] at hq
    rcases hq with hq | hq
    · subst hq
      exact absurd rfl hne
    · exact ⟨(forked_mem p _ _ _ q hq).1, (forked_mem p _ _ _ q hq).2.1⟩
  · refine ⟨⟨p, p, if n - 1 = 0 then none else some (p + 1 + (n - 1) - 1),
        List.range' (p + 1) (n - 1), n⟩, ?_, rfl, ?_⟩
    · rw [e, List.filter_cons_of_pos (by simp [calls_print_status]),
        forked_no_reporter p _ _ _ (Nat.lt_succ_self p)]
    · simp only [List.length_range']
  · intro hn
    subst hn
    rw [e]
    exact ⟨rfl, by simp [calls_print_status]⟩
  · intro hn q hq
    have := hi q hq
    omega

/-- C10, witness: four tasks, original process id 100. -/
theorem fork_topology_witness :
    1 ≤ 4 ∧ 4 < 2 ^ 64 ∧
    (main_fork 4 100).length = 4 ∧
    forks_total (main_fork 4 100) = 4 - 1 ∧
    (∀ q ∈ main_fork 4 100, q.last_fork = some 0 → q.children = []) ∧
    (∀ q ∈ main_fork 4 100, q.pid ≠ 100 → q.last_fork = some 0 ∧ q.children = []) ∧
    (∃ q, (main_fork 4 100).filter (fun q => calls_print_status q) = [q] ∧ q.pid = 100 ∧
      q.children.length = 4 - 1) ∧
    (4 = 1 → main_fork 4 100 = [⟨100, 100, none, [], 1⟩] ∧
      calls_print_status ⟨100, 100, none, [], 1⟩ = true) ∧
    (∀ q ∈ main_fork 4 100, 1 ≤ q.i ∧ q.i ≤ ((4 : Nat) : Int)) ∧
    (4 < 2 ^ 31 → ∀ q ∈ main_fork 4 100, -(2 ^ 31) ≤ q.i ∧ q.i < 2 ^ 31) :=
  ⟨by decide, by decide, fork_topology 4 100 (by decide) (by decide)⟩

/-! ## The command line -/

theorem digitChar_digit (d : Nat) (h : d < 10) :
    isdigit (Nat.digitChar d) = true ∧ (Nat.digitChar d).toNat - 48 = d := by
  interval_cases d <;> decide

theorem digits_value_cons_digit (c : Char) (cs : List Char) (acc : Nat)
    (h : isdigit c = true) :
    digits_value (c :: cs) acc = digits_value cs (10 * acc + (c.toNat - 48)) := by
  simp only [digits_value, h, if_true]

theorem digits_value_stop (rest : List Char) (acc : Nat)
    (h : ∀ c ∈ rest.head?, isdigit c = false) : digits_value rest acc = acc := by
  cases rest with
  | nil => rfl
  | cons c cs =>
    have hc : isdigit c = false := h c (by simp)
    simp [digits_value, hc]

/-- Reading back the digits that `Nat.toDigitsCore` puts in front of `ds`. -/
theorem toDigitsCore_value (fuel : Nat) :
    ∀ n, n < fuel → ∃ k, ∀ (ds rest : List Char) (acc : Nat),
      digits_value (Nat.toDigitsCore 10 fuel n ds ++ rest) acc =
        digits_value (ds ++ rest) (acc * 10 ^ k + n) := by
  induction fuel with
  | zero =>
    intro n h
    omega
  | succ fuel ih =>
    intro n h
    have hd := digitChar_digit (n % 10) (Nat.mod_lt n (by decide))
    by_cases h0 : n / 10 = 0
    · refine ⟨1, fun ds rest acc => ?_⟩
      simp only [Nat.toDigitsCore, h0, if_true, List.cons_append]
      rw [digits_value_cons_digit _ _ _ hd.1, hd.2]
      congr 1
      omega
    · obtain ⟨k, hk⟩ := ih (n / 10) (by omega)
      refine ⟨k + 1, fun ds rest acc => ?_⟩
      simp only [Nat.toDigitsCore, h0, if_false]
      rw [hk, List.cons_append, digits_value_cons_digit _ _ _ hd.1, hd.2]
      congr 1
      rw [pow_succ]
      have := Nat.div_add_mod n 10
      nlinarith [this]

theorem toDigitsCore_head (fuel : Nat) :
    ∀ (n : Nat) (ds : List Char),
      ∃ c cs, Nat.toDigitsCore 10 (fuel + 1) n ds = c :: cs ∧ isdigit c = true := by
  induction fuel with
  | zero =>
    intro n ds
    have hd := digitChar_digit (n % 10) (Nat.mod_lt n (by decide))
    by_cases h0 : n / 10 = 0
    · exact ⟨_, ds, by simp only [Nat.toDigitsCore, h0, if_true], hd.1⟩
    · exact ⟨_, ds, by simp only [Nat.toDigitsCore, h0, if_false], hd.1⟩
  | succ fuel ih =>
    intro n ds
    have hd := digitChar_digit (n % 10) (Nat.mod_lt n (by decide))
    by_cases h0 : n / 10 = 0
    · exact ⟨_, ds, by simp only [Nat.toDigitsCore, h0, if_true], hd.1⟩
    · obtain ⟨c, cs, e, hc⟩ := ih (n / 10) (Nat.digitChar (n % 10) :: ds)
      refine ⟨c, cs, ?_, hc⟩
      rw [← e]
      conv_lhs => unfold Nat.toDigitsCore
      simp only [h0, if_false]

/-- The function `atol` on a string that starts with a digit. -/
theorem atol_digit (c : Char) (cs : List Char) (h : isdigit c = true) :
    atol (c :: cs) = min (2 ^ 63 - 1) (digits_value (c :: cs) 0 : Int) := by
  have hs : isspace c = false := by
    simp only [isdigit, Bool.and_eq_true, decide_eq_true_eq] at h
    simp only [isspace, Bool.or_eq_false_iff, Bool.and_eq_false_iff, decide_eq_false_iff_not]
    omega
  have hm : c ≠ '-' := by
    rintro rfl
    exact absurd h (by decide)
  have hp : c ≠ '+' := by
    rintro rfl
    exact absurd h (by decide)
  unfold atol
  simp only [skip_space, hs]
  split
  · rename_i heq
    simp only [Bool.false_eq_true, if_false, List.cons.injEq] at heq
    exact absurd heq.1 hm
  · rename_i heq
    simp only [Bool.false_eq_true, if_false, List.cons.injEq] at heq
    exact absurd heq.1 hp
  · simp only [Bool.false_eq_true, if_false]

/-- The function `atol` on the decimal numeral of `n`, whatever follows it. -/
theorem atol_toDigits (n : Nat) (rest : List Char)
    (hrest : ∀ c ∈ rest.head?, isdigit c = false) :
    atol (Nat.toDigits 10 n ++ rest) = min (2 ^ 63 - 1) (n : Int) := by
  obtain ⟨c, cs, e, hc⟩ := toDigitsCore_head n n []
  obtain ⟨k, hk⟩ := toDigitsCore_value (n + 1) n (Nat.lt_succ_self n)
  have hv : digits_value (Nat.toDigits 10 n ++ rest) 0 = n := by
    unfold Nat.toDigits
    rw [hk, List.nil_append, digits_value_stop _ _ hrest]
    omega
  have e' : Nat.toDigits 10 n ++ rest = c :: (cs ++ rest) := by
    unfold Nat.toDigits
    rw [e, List.cons_append]
  rw [e', atol_digit c _ hc, ← e', hv]


theorem atol_no_number (arg : List Char)
    (h : ∀ c ∈ (skip_space arg).head?, isdigit c = false ∧ c ≠ '-' ∧ c ≠ '+') :
    atol arg = 0 := by
  unfold atol
  split
  · rename_i cs heq
    rw [heq] at h
    exact absurd rfl (h '-' (by simp)).2.1
  · rename_i cs heq
    rw [heq] at h
    exact absurd rfl (h '+' (by simp)).2.2
  · rw [digits_value_stop _ _ (fun c hc => (h c hc).1)]
    rfl

/-- C9 as stated fails: the arguments `3x` and `-3` do not parse as positive integers,
yet `main` does not take the usage path with them; it goes on to set up the shared
page with the task counts 3 and `2 ^ 64 - 3`. -/
theorem lenient_arguments_accepted :
    main_args 1024 [['t'], ['3', 'x']] = start 4 3 ∧
    main_args 1024 [['t'], ['-', '3']] = start 4 (2 ^ 64 - 3) ∧
    start 4 3 ≠ usage ∧ start 4 (2 ^ 64 - 3) ≠ usage := by
  decide

/-- C9, amended: with exactly one argument, `main` prints the usage line and calls
`exit (-1)` (exit status 255), before the shared page is set up and before any fork,
whenever `atol` of the argument is 0, as it is for `0`, `abc`, the empty string and
every argument that, after leading white space, starts with neither a digit nor a
sign; when the argument starts with the decimal numeral of a positive `n` below
`2 ^ 63`, followed by nothing or by a character that is not a digit, the task count
is `n`.  With more than one argument `main` takes the usage path; with no argument
the task count is the detected CPU count. -/
theorem main_args_validation (status : Nat) (prog : List Char) :
    (∀ arg, atol arg = 0 → main_args status [prog, arg] = usage) ∧
    (atol ['0'] = 0 ∧ atol ['a', 'b', 'c'] = 0 ∧ atol [] = 0) ∧
    (∀ arg, (∀ c ∈ (skip_space arg).head?, isdigit c = false ∧ c ≠ '-' ∧ c ≠ '+') →
      atol arg = 0) ∧
    (∀ n rest, 0 < n → n < 2 ^ 63 → (∀ c ∈ rest.head?, isdigit c = false) →
      main_args status [prog, Nat.toDigits 10 n ++ rest] = start (WEXITSTATUS status) n) ∧
    (∀ argv, 2 < argv.length → main_args status argv = usage) ∧
    main_args status [prog] = start (WEXITSTATUS status) (WEXITSTATUS status) ∧
    usage = Startup.exited (-1)
      [MainEvent.system_cpuinfo, MainEvent.usage_msg, MainEvent.exit (-1)] ∧
    exit_status (-1) = 255 := by
  refine ⟨?_, ⟨by decide, by decide, by decide⟩, atol_no_number, ?_, ?_, rfl, rfl, by decide⟩
  · intro arg h
    simp [main_args, h, ofInt64]
  · intro n rest hpos hlt hrest
    have e := atol_toDigits n rest hrest
    have hmin : min (2 ^ 63 - 1) (n : Int) = n := by omega
    have ht : ofInt64 (atol (Nat.toDigits 10 n ++ rest)) = n := by
      rw [e, hmin]
      exact ofInt64_natCast n (by omega)
    have hne : n ≠ 0 := by omega
    simp only [main_args, List.length_cons, List.length_nil, List.getD_cons_succ,
      List.getD_cons_zero, ht, hne, if_false]
    rfl
  · intro argv h
    simp only [main_args, gt_iff_lt, h, if_true]

/-! ## The lock discipline -/

theorem stepTrace_disciplined (X : Source) (t1 : Nat) (shared : Nat → Nat) :
    disciplined false (stepTrace X t1 shared) = true := by
  cases X <;>
  (unfold stepTrace
   split_ifs <;>
   simp +decide [disciplined, guarded_slot, lastSlot, loopSlot, warpSlot, worstSlot, readEvent])

/-- C11: the sampling steps keep the lock discipline, `print_status` does not.  From
every state in which the lock can be taken, a step of any source returns, every load
and store of a guarded slot in its trace lies between a `lock` and the matching
`unlock`, and the lock word is 0 on return.  A call of `print_status` that returns
early touches no guarded slot.  A call that reports never takes the lock, yet it
loads and stores the loop counters and loads the warp counters: nine accesses of
guarded slots, all without the lock.  The last part evaluates one such call: zero
page, call counter at 999, last report at time 1, wall clock at 200000. -/
theorem print_status_reports_without_lock :
    (∀ (X : Source) (t1 : Nat) (shared : Nat → Nat), shared SHARED_LOCK % 2 = 0 →
      ∃ r, test X t1 shared = some r ∧ disciplined false r.trace = true ∧
        r.shared SHARED_LOCK = 0) ∧
    (∀ (now0 now1 : Nat) (st : Statics) (shared : Nat → Nat),
      (print_status now0 now1 st shared).path ≠ Path.reported →
      disciplined false (print_status now0 now1 st shared).trace = true ∧
      guarded_accesses (print_status now0 now1 st shared).trace = []) ∧
    (∀ (now0 now1 : Nat) (st : Statics) (shared : Nat → Nat),
      (print_status now0 now1 st shared).path = Path.reported →
      disciplined false (print_status now0 now1 st shared).trace = false ∧
      lock_actions (print_status now0 now1 st shared).trace = [] ∧
      (guarded_accesses (print_status now0 now1 st shared).trace).length = 9) ∧
    ((print_status 0 200000 (statics_at_check 1) setup_shared_var).path = Path.reported ∧
      disciplined false (print_status 0 200000 (statics_at_check 1) setup_shared_var).trace =
        false ∧
      (print_status 0 200000 (statics_at_check 1) setup_shared_var).trace.take 2 =
        [Event.rdtod 200000, Event.load SHARED_NR_TSC_LOOPS 0]) := by
  refine ⟨?_, ?_, ?_, by decide⟩
  · intro X t1 shared hfree
    exact ⟨_, test_eq X t1 shared hfree, stepTrace_disciplined X t1 shared,
      stepShared_lock X t1 shared⟩
  · intro now0 now1 st shared hp
    by_cases h : reachesCheck st
    · by_cases hr : rateLimited (prevTod now0 st) (now1 % 2 ^ 64)
      · rw [print_status_rate_return now0 now1 st shared h hr]
        split_ifs <;> exact ⟨rfl, rfl⟩
      · exact absurd ((print_status_path now0 now1 st shared).2.2.mpr ⟨h, hr⟩) hp
    · rw [print_status_count_return now0 now1 st shared h]
      split_ifs <;> exact ⟨rfl, rfl⟩
  · intro now0 now1 st shared hp
    obtain ⟨h, hr⟩ := (print_status_path now0 now1 st shared).2.2.mp hp
    obtain ⟨r, e, -, -, -, -, -, -, -, ht⟩ := print_status_reported now0 now1 st shared h hr
    rw [e, ht]
    split_ifs <;>
    simp +decide [disciplined, guarded_slot, lock_actions, guarded_accesses]

/-! ## Worst deltas and warp counts along a run -/

theorem run_deltas_fst (as : List Action) :
    ∀ s : Sys, (run_deltas as s).map (fun q => q.1) = run as s := by
  induction as with
  | nil =>
    intro s
    rfl
  | cons a as ih =>
    intro s
    cases a with
    | sample X v =>
      simp only [run_deltas, run, exec]
      cases h : test X v s.shared with
      | none => rfl
      | some r =>
        simp only [Option.some_bind, Option.map_some', Option.map_map]
        exact ih ⟨r.shared, s.statics⟩
    | status now0 now1 =>
      simp only [run_deltas, run, exec, Option.some_bind]
      exact ih _

theorem foldl_min_le (ds : List Int) : ∀ w : Int, ds.foldl min w ≤ w := by
  induction ds with
  | nil =>
    intro w
    exact le_refl w
  | cons d ds ih =>
    intro w
    exact le_trans (ih (min w d)) (min_le_left w d)

theorem step_worst_min (X : Source) (v : Nat) (shared : Nat → Nat) (w : Int)
    (hw : shared (worstSlot X) = ofLL w) (hlo : -(2 ^ 63) ≤ w) (hhi : w ≤ 0) :
    stepShared X v shared (worstSlot X) = ofLL (min w (stepDelta X v shared)) := by
  have hr := toLL_range (sub64 (v % 2 ^ 64) (shared (lastSlot X)))
  have hd : stepDelta X v shared = toLL (sub64 (v % 2 ^ 64) (shared (lastSlot X))) := rfl
  have hwl : toLL (ofLL w) = w := by
    unfold toLL ofLL
    split_ifs <;> omega
  rw [stepShared_worst, hw, hwl]
  by_cases hc : stepDelta X v shared < 0 ∧ stepDelta X v shared < w
  · rw [if_pos hc, min_eq_right (le_of_lt hc.2)]
    unfold ofLL
    omega
  · rw [if_neg hc]
    have : w ≤ stepDelta X v shared := by
      by_contra hlt
      exact hc ⟨by omega, by omega⟩
    rw [min_eq_left this]

theorem step_warp_count (X : Source) (v : Nat) (shared : Nat → Nat) (k : Nat) :
    (stepShared X v shared (warpSlot X) + k) % 2 ^ 64 =
      (shared (warpSlot X) + ((if stepDelta X v shared < 0 then 1 else 0) + k)) % 2 ^ 64 := by
  rw [stepShared_warp]
  split_ifs <;> omega

theorem deltasOf_cons_same (X : Source) (d : Int) (ds : List (Source × Int)) :
    deltasOf X ((X, d) :: ds) = d :: deltasOf X ds := by
  simp [deltasOf]

theorem deltasOf_cons_other (X Y : Source) (h : Y ≠ X) (d : Int) (ds : List (Source × Int)) :
    deltasOf X ((Y, d) :: ds) = deltasOf X ds := by
  simp [deltasOf, h]

/-- Along a run from a state with the lock free, with the worst slot of `X` at
`w <= 0` and its warp counter at `c`: the worst slot ends at the least of `w` and the
deltas of `X`, the warp counter at `c` plus the number of negative deltas. -/
theorem run_deltas_worst (X : Source) (as : List Action) :
    ∀ (s : Sys) (w : Int), s.shared SHARED_LOCK % 2 = 0 →
      s.shared (worstSlot X) = ofLL w → -(2 ^ 63) ≤ w → w ≤ 0 →
      s.shared (warpSlot X) < 2 ^ 64 →
      ∃ s' ds, run_deltas as s = some (s', ds) ∧ s'.shared SHARED_LOCK % 2 = 0 ∧
        s'.shared (worstSlot X) = ofLL ((deltasOf X ds).foldl min w) ∧
        -(2 ^ 63) ≤ (deltasOf X ds).foldl min w ∧
        s'.shared (warpSlot X) =
          (s.shared (warpSlot X) + ((deltasOf X ds).filter (fun d => d < 0)).length) %
            2 ^ 64 ∧
        (deltasOf X ds).length ≤ as.length := by
  induction as with
  | nil =>
    intro s w hfree hw hlo _ hc
    refine ⟨s, [], rfl, hfree, by simpa [deltasOf] using hw, by simpa [deltasOf] using hlo,
      ?_, by simp [deltasOf]⟩
    simp only [deltasOf, List.filter_nil, List.map_nil, List.length_nil, Nat.add_zero]
    exact (Nat.mod_eq_of_lt hc).symm
  | cons a as ih =>
    intro s w hfree hw hlo hhi hc
    cases a with
    | sample Y v =>
      have hr := toLL_range (sub64 (v % 2 ^ 64) (s.shared (lastSlot Y)))
      have hlock : (stepShared Y v s.shared) SHARED_LOCK % 2 = 0 := by
        rw [stepShared_lock]
      by_cases hY : Y = X
      · subst hY
        have hc' : stepShared Y v s.shared (warpSlot Y) < 2 ^ 64 := by
          rw [stepShared_warp]
          split_ifs <;> omega
        obtain ⟨s', ds, hrun, hfree', hws, hge, hwc, hlen⟩ :=
          ih ⟨stepShared Y v s.shared, s.statics⟩ (min w (stepDelta Y v s.shared))
            hlock (step_worst_min Y v s.shared w hw hlo hhi) (le_min hlo hr.1)
            (le_trans (min_le_left _ _) hhi) hc'
        dsimp only at hwc
        refine ⟨s', (Y, stepDelta Y v s.shared) :: ds, ?_, hfree', ?_, ?_, ?_, ?_⟩
        · simp only [run_deltas, test_eq Y v s.shared hfree, Option.some_bind, hrun,
            Option.map_some']
        · rw [hws, deltasOf_cons_same, List.foldl_cons]
        · rw [deltasOf_cons_same, List.foldl_cons]
          exact hge
        · rw [hwc, step_warp_count, deltasOf_cons_same, List.filter_cons]
          by_cases hneg : stepDelta Y v s.shared < 0
          · simp only [hneg, if_true, decide_True, List.length_cons]
            congr 2
            omega
          · simp only [hneg, if_false, decide_False, Bool.false_eq_true, Nat.zero_add]
        · rw [deltasOf_cons_same, List.length_cons, List.length_cons]
          omega
      · have ho := stepShared_other Y X (fun e => hY e.symm) v s.shared
        obtain ⟨s', ds, hrun, hfree', hws, hge, hwc, hlen⟩ :=
          ih ⟨stepShared Y v s.shared, s.statics⟩ w hlock (ho.2.2.2.trans hw) hlo hhi
            (by rw [show (Sys.mk (stepShared Y v s.shared) s.statics).shared (warpSlot X) =
              stepShared Y v s.shared (warpSlot X) from rfl, ho.2.2.1]; exact hc)
        dsimp only at hwc
        refine ⟨s', (Y, stepDelta Y v s.shared) :: ds, ?_, hfree', ?_, ?_, ?_, ?_⟩
        · simp only [run_deltas, test_eq Y v s.shared hfree, Option.some_bind, hrun,
            Option.map_some']
        · rw [hws, deltasOf_cons_other X Y hY]
        · rw [deltasOf_cons_other X Y hY]
          exact hge
        · rw [hwc, deltasOf_cons_other X Y hY, ho.2.2.1]
        · rw [deltasOf_cons_other X Y hY, List.length_cons]
          omega
    | status now0 now1 =>
      have hk : ∀ j, j ≠ SHARED_NR_TSC_LOOPS → j ≠ SHARED_NR_TOD_LOOPS →
          j ≠ SHARED_NR_CLOCK_LOOPS →
          (print_status now0 now1 s.statics s.shared).shared j = s.shared j :=
        fun j a b c => print_status_keeps now0 now1 s.statics s.shared j a b c
      have hworst : (print_status now0 now1 s.statics s.shared).shared (worstSlot X) =
          s.shared (worstSlot X) := by
        cases X <;> exact hk _ (by decide) (by decide) (by decide)
      have hlock : (print_status now0 now1 s.statics s.shared).shared SHARED_LOCK % 2 = 0 := by
        rw [print_status_keeps_lock]
        exact hfree
      have hc' : (print_status now0 now1 s.statics s.shared).shared (warpSlot X) < 2 ^ 64 := by
        rw [print_status_keeps_warp]
        exact hc
      obtain ⟨s', ds, hrun, hfree', hws, hge, hwc, hlen⟩ :=
        ih ⟨(print_status now0 now1 s.statics s.shared).shared,
          (print_status now0 now1 s.statics s.shared).statics⟩ w hlock
          (hworst.trans hw) hlo hhi hc'
      dsimp only at hwc
      refine ⟨s', ds, ?_, hfree', hws, hge, ?_, ?_⟩
      · simp only [run_deltas, hrun]
      · rw [hwc, print_status_keeps_warp]
      · rw [List.length_cons]
        omega

/-- C12: in the sequential model, from the zero page and zero statics every sequence
of sampling steps and `print_status` calls runs to the end, to the same state as
`run`; with `ds` the deltas the steps of source `X` computed on the way, the worst
slot of `X` holds the minimum of 0 and all of `ds` (as a signed 64-bit word), and the
warp counter of `X` holds the number of negative deltas in `ds` (as a 64-bit counter:
the number itself whenever it is below `2 ^ 64`, as it is for every run of fewer
than `2 ^ 64` operations). -/
theorem worst_is_minimum_delta (as : List Action) (X : Source) :
    ∃ s ds, run_deltas as Sys.init = some (s, ds) ∧ run as Sys.init = some s ∧
      toLL (s.shared (worstSlot X)) = (deltasOf X ds).foldl min 0 ∧
      s.shared (worstSlot X) = ofLL ((deltasOf X ds).foldl min 0) ∧
      s.shared (warpSlot X) = ((deltasOf X ds).filter (fun d => d < 0)).length % 2 ^ 64 ∧
      (as.length < 2 ^ 64 →
        s.shared (warpSlot X) = ((deltasOf X ds).filter (fun d => d < 0)).length) := by
  have h0 : Sys.init.shared SHARED_LOCK % 2 = 0 := by decide
  have hw0 : Sys.init.shared (worstSlot X) = ofLL 0 := rfl
  have hc0 : Sys.init.shared (warpSlot X) < 2 ^ 64 := by
    show (0 : Nat) < 2 ^ 64
    norm_num
  obtain ⟨s, ds, hrun, -, hws, hge, hwc, hlen⟩ :=
    run_deltas_worst X as Sys.init 0 h0 hw0 (by norm_num) (le_refl 0) hc0
  have hz : Sys.init.shared (warpSlot X) = 0 := rfl
  rw [hz, Nat.zero_add] at hwc
  have hle := foldl_min_le (deltasOf X ds) 0
  have hrun' : run as Sys.init = some s := by
    rw [← run_deltas_fst as Sys.init, hrun]
    rfl
  refine ⟨s, ds, hrun, hrun', ?_, hws, hwc, ?_⟩
  · rw [hws]
    unfold toLL ofLL
    split_ifs <;> omega
  · intro hlt
    rw [hwc]
    apply Nat.mod_eq_of_lt
    have := List.length_filter_le (fun d => decide (d < 0)) (deltasOf X ds)
    omega

/-! ## Conservation of the loop counts -/

theorem print_status_sumLoops (now0 now1 : Nat) (st : Statics) (shared : Nat → Nat)
    (X : Source) :
    ((print_status now0 now1 st shared).path = Path.reported →
      sumLoops X (print_status now0 now1 st shared).statics =
        add64 (sumLoops X st) (shared (loopSlot X)) ∧
      (print_status now0 now1 st shared).shared (loopSlot X) = 0) ∧
    ((print_status now0 now1 st shared).path ≠ Path.reported →
      sumLoops X (print_status now0 now1 st shared).statics = sumLoops X st ∧
      (print_status now0 now1 st shared).shared (loopSlot X) = shared (loopSlot X)) := by
  by_cases h : reachesCheck st
  · by_cases hr : rateLimited (prevTod now0 st) (now1 % 2 ^ 64)
    · rw [print_status_rate_return now0 now1 st shared h hr]
      refine ⟨fun hp => absurd hp (by simp), fun _ => ?_⟩
      cases X <;> exact ⟨rfl, rfl⟩
    · obtain ⟨r, e, hp, hs, -, -, h1, h2, h3, -⟩ :=
        print_status_reported now0 now1 st shared h hr
      rw [e]
      refine ⟨fun _ => ?_, fun hn => absurd hp hn⟩
      rw [hs]
      cases X
      · exact ⟨h1, by simp [reportShared, loopSlot]⟩
      · exact ⟨h2, by simp [reportShared, loopSlot]⟩
      · exact ⟨h3, by simp [reportShared, loopSlot]⟩
  · rw [print_status_count_return now0 now1 st shared h]
    refine ⟨fun hp => absurd hp (by simp), fun _ => ?_⟩
    cases X <;> exact ⟨rfl, rfl⟩

/-- Along a run from a state with the lock free, the accumulated total plus the
shared loop counter of `X` grows, modulo `2 ^ 64`, by the number of steps of `X`. -/
theorem run_loops (X : Source) (as : List Action) :
    ∀ s : Sys, s.shared SHARED_LOCK % 2 = 0 →
      ∃ s', run as s = some s' ∧ s'.shared SHARED_LOCK % 2 = 0 ∧
        (sumLoops X s'.statics + s'.shared (loopSlot X)) % 2 ^ 64 =
          (sumLoops X s.statics + s.shared (loopSlot X) + stepsOf X as) % 2 ^ 64 := by
  induction as with
  | nil =>
    intro s h
    exact ⟨s, rfl, h, rfl⟩
  | cons a as ih =>
    intro s h
    cases a with
    | sample Y v =>
      have hl : (stepShared Y v s.shared) SHARED_LOCK % 2 = 0 := by
        rw [stepShared_lock]
      obtain ⟨s', hrun, hfree, hsum⟩ := ih ⟨stepShared Y v s.shared, s.statics⟩ hl
      dsimp only at hsum
      refine ⟨s', ?_, hfree, ?_⟩
      · simp only [run, exec_sample Y v s h, Option.some_bind, hrun]
      · rw [hsum]
        simp only [stepsOf]
        by_cases hY : Y = X
        · subst hY
          rw [stepShared_loop, if_pos rfl]
          omega
        · rw [(stepShared_other Y X (fun e => hY e.symm) v s.shared).2.1, if_neg hY]
          omega
    | status now0 now1 =>
      have hl : (print_status now0 now1 s.statics s.shared).shared SHARED_LOCK % 2 = 0 := by
        rw [print_status_keeps_lock]
        exact h
      obtain ⟨s', hrun, hfree, hsum⟩ :=
        ih ⟨(print_status now0 now1 s.statics s.shared).shared,
          (print_status now0 now1 s.statics s.shared).statics⟩ hl
      dsimp only at hsum
      refine ⟨s', ?_, hfree, ?_⟩
      · simp only [run, exec_status, Option.some_bind, hrun]
      · rw [hsum]
        simp only [stepsOf]
        have hp := print_status_sumLoops now0 now1 s.statics s.shared X
        by_cases hrep : (print_status now0 now1 s.statics s.shared).path = Path.reported
        · rw [(hp.1 hrep).1, (hp.1 hrep).2]
          unfold add64
          omega
        · rw [(hp.2 hrep).1, (hp.2 hrep).2]

/-- C13: in the sequential model, from the zero page and zero statics every
interleaving `as` of sampling steps and `print_status` calls runs to a state in which,
for each source `X`, the reporter's accumulated total of `X` plus the shared loop
counter of `X` equals the number of steps of `X` in `as`, modulo `2 ^ 64`.  A call of
`print_status` that is skipped by the call counter or by the rate limit changes
neither the total nor the shared counter; a call that reports adds the shared
counter, with everything counted since the last report, to the total and sets the
shared counter to 0. -/
theorem loop_counts_are_conserved (as : List Action) (X : Source) :
    (∃ s, run as Sys.init = some s ∧
      (sumLoops X s.statics + s.shared (loopSlot X)) % 2 ^ 64 = stepsOf X as % 2 ^ 64) ∧
    (∀ (now0 now1 : Nat) (st : Statics) (shared : Nat → Nat),
      (print_status now0 now1 st shared).path ≠ Path.reported →
      sumLoops X (print_status now0 now1 st shared).statics = sumLoops X st ∧
      (print_status now0 now1 st shared).shared (loopSlot X) = shared (loopSlot X)) ∧
    (∀ (now0 now1 : Nat) (st : Statics) (shared : Nat → Nat),
      (print_status now0 now1 st shared).path = Path.reported →
      sumLoops X (print_status now0 now1 st shared).statics =
        (sumLoops X st + shared (loopSlot X)) % 2 ^ 64 ∧
      (print_status now0 now1 st shared).shared (loopSlot X) = 0) := by
  refine ⟨?_, fun now0 now1 st shared => (print_status_sumLoops now0 now1 st shared X).2,
    fun now0 now1 st shared => (print_status_sumLoops now0 now1 st shared X).1⟩
  obtain ⟨s, hrun, -, hsum⟩ := run_loops X as Sys.init (by decide)
  refine ⟨s, hrun, ?_⟩
  rw [hsum]
  have h1 : sumLoops X Sys.init.statics = 0 := by
    cases X <;> rfl
  have h2 : Sys.init.shared (loopSlot X) = 0 := rfl
  rw [h1, h2, Nat.zero_add]

end TimeWarp

namespace CpuidKernel

/-! ## `itoa` -/

theorem put_list_apply (l : List Nat) :
    ∀ (a : Nat → Nat) (p j : Nat),
      put_list a p l j = if p ≤ j ∧ j < p + l.length then l.getD (j - p) 0 else a j := by
  induction l with
  | nil =>
    intro a p j
    rw [put_list, if_neg (by simp only [List.length_nil]; omega)]
  | cons x xs ih =>
    intro a p j
    rw [put_list, ih]
    by_cases h1 : p + 1 ≤ j ∧ j < p + 1 + xs.length
    · have e : j - p = (j - (p + 1)) + 1 := by omega
      rw [if_pos h1, if_pos (by simp only [List.length_cons]; omega), e, List.getD_cons_succ]
    · rw [if_neg h1]
      by_cases h2 : j = p
      · subst h2
        simp [poke]
      · rw [if_neg (by simp only [List.length_cons]; omega)]
        simp [poke, h2]

theorem lsd_step (b n : Nat) (hb : 2 ≤ b) (h : n / b ≠ 0) :
    lsd b n = n % b :: lsd b (n / b) := by
  have hn : n ≠ 0 := by
    rintro rfl
    simp at h
  unfold lsd
  rw [if_neg hn, if_neg h, Nat.digits_def' (by omega) (Nat.pos_of_ne_zero hn)]

theorem lsd_small (b n : Nat) (hb : 2 ≤ b) (h : n / b = 0) : lsd b n = [n % b] := by
  have hlt : n < b := (Nat.div_eq_zero_iff (by omega)).mp h
  unfold lsd
  by_cases hn : n = 0
  · subst hn
    simp
  · rw [if_neg hn, Nat.digits_def' (by omega) (Nat.pos_of_ne_zero hn), h]
    simp

/-- The digit loop of `itoa` stores the digits of `ud`, least significant first. -/
theorem itoa_digits_eq (b : Nat) (hb : 2 ≤ b) (fuel : Nat) :
    ∀ (ud p : Nat) (a : Nat → Nat), ud < b ^ (fuel + 1) →
      itoa_digits b (fuel + 1) ud p a =
        (p + (lsd b ud).length, put_list a p ((lsd b ud).map digit_char)) := by
  induction fuel with
  | zero =>
    intro ud p a h
    have h0 : ud / b = 0 := by
      apply Nat.div_eq_of_lt
      simpa using h
    simp [itoa_digits, h0, lsd_small b ud hb h0, put_list]
  | succ fuel ih =>
    intro ud p a h
    by_cases h0 : ud / b = 0
    · simp [itoa_digits, h0, lsd_small b ud hb h0, put_list]
    · have hlt : ud / b < b ^ (fuel + 1) := by
        apply Nat.div_lt_of_lt_mul
        rw [← pow_succ']
        exact h
      rw [itoa_digits, if_pos h0, ih _ _ _ hlt, lsd_step b ud hb h0]
      simp only [List.length_cons, List.map_cons, put_list, Prod.mk.injEq, and_true]
      omega

/-- The swap loop of `itoa` mirrors the characters between `p1` and `p2`. -/
theorem itoa_reverse_apply (fuel : Nat) :
    ∀ (p1 p2 : Nat) (a : Nat → Nat) (j : Nat), p2 ≤ p1 + 2 * fuel →
      itoa_reverse fuel p1 p2 a j = if p1 ≤ j ∧ j ≤ p2 then a (p1 + p2 - j) else a j := by
  induction fuel with
  | zero =>
    intro p1 p2 a j h
    simp only [itoa_reverse]
    split_ifs with hc
    · have : p1 + p2 - j = j := by omega
      rw [this]
    · rfl
  | succ fuel ih =>
    intro p1 p2 a j h
    rw [itoa_reverse]
    by_cases hlt : p1 < p2
    · rw [if_pos hlt, ih _ _ _ _ (by omega)]
      by_cases h1 : p1 + 1 ≤ j ∧ j ≤ p2 - 1
      · have e : p1 + 1 + (p2 - 1) - j = p1 + p2 - j := by omega
        rw [if_pos h1, if_pos (by omega), e]
        simp only [poke]
        rw [if_neg (by omega), if_neg (by omega)]
      · rw [if_neg h1]
        by_cases hj1 : j = p1
        · subst hj1
          have e : j + p2 - j = p2 := by omega
          rw [if_pos (by omega), e]
          simp only [poke]
          rw [if_neg (by omega)]
          simp
        · by_cases hj2 : j = p2
          · subst hj2
            have e : p1 + j - j = p1 := by omega
            rw [if_pos (by omega), e]
            simp [poke]
          · rw [if_neg (by omega)]
            simp only [poke]
            rw [if_neg hj2, if_neg hj1]
    · rw [if_neg hlt]
      split_ifs with hc
      · have : p1 + p2 - j = j := by omega
        rw [this]
      · rfl

theorem lsd_length_pos (b n : Nat) : 1 ≤ (lsd b n).length := by
  unfold lsd
  split_ifs with h
  · simp
  · have hne : Nat.digits b n ≠ [] := Nat.digits_ne_nil_iff_ne_zero.mpr h
    exact List.length_pos.mpr hne

theorem lsd_length_le (b : Nat) (hb : 2 ≤ b) (k : Nat) :
    ∀ n, n < b ^ (k + 1) → (lsd b n).length ≤ k + 1 := by
  induction k with
  | zero =>
    intro n h
    have h0 : n / b = 0 := Nat.div_eq_of_lt (by simpa using h)
    rw [lsd_small b n hb h0]
    simp
  | succ k ih =>
    intro n h
    by_cases h0 : n / b = 0
    · rw [lsd_small b n hb h0]
      simp
    · have hlt : n / b < b ^ (k + 1) := by
        apply Nat.div_lt_of_lt_mul
        rw [← pow_succ']
        exact h
      rw [lsd_step b n hb h0, List.length_cons]
      have := ih _ hlt
      omega

theorem lsd_lt_base (b n : Nat) (hb : 2 ≤ b) : ∀ r ∈ lsd b n, r < b := by
  intro r hr
  unfold lsd at hr
  split_ifs at hr with h
  · simp only [List.mem_singleton] at hr
    omega
  · exact Nat.digits_lt_base (by omega) hr

theorem getD_reverse (l : List Nat) (i : Nat) (h : i < l.length) :
    l.reverse.getD i 0 = l.getD (l.length - 1 - i) 0 := by
  simp only [List.getD_eq_getElem?_getD]
  rw [List.getElem?_reverse h]

/-- The body of `itoa` leaves at `p` the digits of `ud`, most significant first, and a
terminating 0; the rest of the array keeps its content. -/
theorem itoa_body_eq (b : Nat) (hb : 2 ≤ b) (ud p : Nat) (a : Nat → Nat)
    (h : ud < b ^ 32) :
    itoa_body b ud p p a =
      poke (put_list a p ((lsd b ud).reverse.map digit_char)) (p + (lsd b ud).length) 0 := by
  have hk1 := lsd_length_pos b ud
  have hk2 := lsd_length_le b hb 31 ud h
  funext j
  unfold itoa_body
  rw [itoa_digits_eq b hb 31 ud p a h]
  simp only
  rw [itoa_reverse_apply 32 _ _ _ _ (by omega)]
  by_cases hin : p ≤ j ∧ j ≤ p + (lsd b ud).length - 1
  · rw [if_pos hin]
    simp only [poke]
    rw [if_neg (by omega), if_neg (by omega), put_list_apply, put_list_apply,
      if_pos (by simp only [List.length_map]; omega),
      if_pos (by simp only [List.length_map, List.length_reverse]; omega),
      List.map_reverse, getD_reverse _ _ (by simp only [List.length_map]; omega)]
    congr 1
    simp only [List.length_map]
    omega
  · rw [if_neg hin]
    simp only [poke]
    by_cases hj : j = p + (lsd b ud).length
    · rw [if_pos hj, if_pos hj]
    · rw [if_neg hj, if_neg hj, put_list_apply, put_list_apply,
        if_neg (by simp only [List.length_map]; omega),
        if_neg (by simp only [List.length_map, List.length_reverse]; omega)]

/-- Reading back a string that was stored with `put_list` and terminated. -/
theorem c_string_put_list (l : List Nat) :
    ∀ (a : Nat → Nat) (p fuel : Nat), (∀ c ∈ l, c ≠ 0) → l.length < fuel →
      c_string (poke (put_list a p l) (p + l.length) 0) fuel p = l := by
  induction l with
  | nil =>
    intro a p fuel _ hf
    obtain ⟨f, rfl⟩ : ∃ f, fuel = f + 1 := ⟨fuel - 1, by simp at hf; omega⟩
    simp [c_string, put_list, poke]
  | cons x xs ih =>
    intro a p fuel hne hf
    obtain ⟨f, rfl⟩ : ∃ f, fuel = f + 1 := ⟨fuel - 1, by simp at hf; omega⟩
    have hx : x ≠ 0 := hne x (List.mem_cons_self _ _)
    have hp : poke (put_list a p (x :: xs)) (p + (x :: xs).length) 0 p = x := by
      simp only [poke, List.length_cons]
      rw [if_neg (by omega), put_list_apply, if_pos (by simp only [List.length_cons]; omega)]
      simp
    rw [c_string, hp, if_pos hx]
    have e : poke (put_list a p (x :: xs)) (p + (x :: xs).length) 0 =
        poke (put_list (poke a p x) (p + 1) xs) (p + 1 + xs.length) 0 := by
      have : p + (x :: xs).length = p + 1 + xs.length := by
        simp only [List.length_cons]
        omega
      rw [this, put_list]
    rw [e, ih _ _ _ (fun c hc => hne c (List.mem_cons_of_mem _ hc))
      (by simp only [List.length_cons] at hf; omega)]

/-- The length of a string that was stored with `put_list` and terminated. -/
theorem strlen_from_put_list (l : List Nat) :
    ∀ (a : Nat → Nat) (p fuel : Nat), (∀ c ∈ l, c ≠ 0) → l.length < fuel →
      strlen_from (poke (put_list a p l) (p + l.length) 0) fuel p = l.length := by
  induction l with
  | nil =>
    intro a p fuel _ hf
    obtain ⟨f, rfl⟩ : ∃ f, fuel = f + 1 := ⟨fuel - 1, by simp at hf; omega⟩
    simp [strlen_from, put_list, poke]
  | cons x xs ih =>
    intro a p fuel hne hf
    obtain ⟨f, rfl⟩ : ∃ f, fuel = f + 1 := ⟨fuel - 1, by simp at hf; omega⟩
    have hx : x ≠ 0 := hne x (List.mem_cons_self _ _)
    have hp : poke (put_list a p (x :: xs)) (p + (x :: xs).length) 0 p = x := by
      simp only [poke, List.length_cons]
      rw [if_neg (by omega), put_list_apply, if_pos (by simp only [List.length_cons]; omega)]
      simp
    rw [strlen_from, hp, if_pos hx]
    have e : poke (put_list a p (x :: xs)) (p + (x :: xs).length) 0 =
        poke (put_list (poke a p x) (p + 1) xs) (p + 1 + xs.length) 0 := by
      have : p + (x :: xs).length = p + 1 + xs.length := by
        simp only [List.length_cons]
        omega
      rw [this, put_list]
    rw [e, ih _ _ _ (fun c hc => hne c (List.mem_cons_of_mem _ hc))
      (by simp only [List.length_cons] at hf; omega), List.length_cons]

theorem digit_char_dec (r : Nat) (h : r < 10) : digit_char r = r + 48 := by
  unfold digit_char
  rw [if_pos h]
  omega

theorem digit_char_hex (r : Nat) (h : r < 16) : digit_char r = hex_char r := by
  interval_cases r <;> decide

theorem digit_char_ne_zero (r : Nat) (h : r < 16) : digit_char r ≠ 0 := by
  unfold digit_char
  split_ifs <;> omega

theorem wrap32_eq (z : Int) (h1 : -(2 ^ 31) ≤ z) (h2 : z < 2 ^ 31) : wrap32 z = z := by
  unfold wrap32 TimeWarp.toInt32 TimeWarp.ofInt64
  split_ifs <;> omega

theorem toULong_nonneg (d : Int) (h1 : 0 ≤ d) (h2 : d < 2 ^ 31) : toULong d = d.natAbs := by
  unfold toULong
  omega

theorem toULong_neg (d : Int) (h1 : -(2 ^ 31) ≤ d) (h2 : d < 0) :
    toULong (wrap32 (-d)) = d.natAbs := by
  unfold toULong wrap32 TimeWarp.toInt32 TimeWarp.ofInt64
  split_ifs <;> omega

theorem ofDigits_lsd (b n : Nat) : Nat.ofDigits b (lsd b n) = n := by
  unfold lsd
  split_ifs with h
  · simp [h]
  · exact Nat.ofDigits_digits b n

/-- Reading a numeral back, digit by digit from the most significant one, gives the
number whose digits were encoded. -/
theorem foldl_encoded (b : Nat) (enc val : Nat → Nat) (L : List Nat)
    (h : ∀ r ∈ L, val (enc r) = r) :
    (L.reverse.map enc).foldl (fun acc c => b * acc + val c) 0 = Nat.ofDigits b L := by
  induction L with
  | nil => simp
  | cons x xs ih =>
    rw [List.reverse_cons, List.map_append, List.foldl_append,
      ih (fun r hr => h r (List.mem_cons_of_mem _ hr))]
    simp only [List.map_cons, List.map_nil, List.foldl_cons, List.foldl_nil]
    rw [h x (List.mem_cons_self _ _), Nat.ofDigits_cons]
    omega

theorem decimal_value_decimal (n : Nat) : decimal_value (decimal n) = n := by
  unfold decimal_value decimal
  rw [foldl_encoded 10 (fun r => r + 48) (fun c => c - 48) _ (fun r _ => by simp), ofDigits_lsd]

theorem map_digit_char_decimal (n : Nat) :
    (lsd 10 n).reverse.map digit_char = decimal n := by
  unfold decimal
  apply List.map_congr_left
  intro r hr
  exact digit_char_dec r (lsd_lt_base 10 n (by omega) r (List.mem_reverse.mp hr))

theorem map_digit_char_hexadecimal (n : Nat) :
    (lsd 16 n).reverse.map digit_char = hexadecimal n := by
  unfold hexadecimal
  apply List.map_congr_left
  intro r hr
  exact digit_char_hex r (lsd_lt_base 16 n (by omega) r (List.mem_reverse.mp hr))

theorem decimal_length (n : Nat) : (decimal n).length = (lsd 10 n).length := by
  simp [decimal]

theorem hexadecimal_length (n : Nat) : (hexadecimal n).length = (lsd 16 n).length := by
  simp [hexadecimal]

theorem decimal_range (n : Nat) : ∀ c ∈ decimal n, 48 ≤ c ∧ c ≤ 57 := by
  intro c hc
  unfold decimal at hc
  obtain ⟨r, hr, rfl⟩ := List.mem_map.mp hc
  have := lsd_lt_base 10 n (by omega) r (List.mem_reverse.mp hr)
  omega

theorem decimal_head (n : Nat) (h : n ≠ 0) : (decimal n).head? ≠ some 48 := by
  unfold decimal lsd
  rw [if_neg h, List.head?_map, List.head?_reverse]
  have hne : Nat.digits 10 n ≠ [] := Nat.digits_ne_nil_iff_ne_zero.mpr h
  have hl := Nat.getLast_digit_ne_zero 10 h
  rw [List.getLast?_eq_getLast _ hne]
  simp only [Option.map_some', ne_eq, Option.some.injEq]
  omega

/-- Closed form of `itoa` for the conversion `d`. -/
theorem itoa_d_eq (a : Nat → Nat) (buf : Nat) (d : Int)
    (hlo : -(2 ^ 31) ≤ d) (hhi : d < 2 ^ 31) :
    itoa a buf 100 d =
      poke (put_list a buf (signed_decimal d)) (buf + (signed_decimal d).length) 0 := by
  have hb : d.natAbs < 10 ^ 32 := by
    have h1 : d.natAbs ≤ 2 ^ 31 := by omega
    have h2 : (2 : Nat) ^ 31 < 10 ^ 32 := by norm_num
    exact lt_of_le_of_lt h1 h2
  unfold itoa signed_decimal
  by_cases hd : d < 0
  · rw [if_pos ⟨rfl, hd⟩, if_pos hd, toULong_neg d hlo hd,
      itoa_body_eq 10 (by omega) _ _ _ hb, map_digit_char_decimal, put_list,
      List.length_cons, decimal_length, Nat.add_assoc, Nat.add_comm 1]
  · rw [if_neg (fun h => hd h.2), if_neg (by decide), if_neg hd,
      toULong_nonneg d (by omega) hhi,
      itoa_body_eq 10 (by omega) _ _ _ hb, map_digit_char_decimal, decimal_length]

theorem signed_decimal_ne_zero (d : Int) : ∀ c ∈ signed_decimal d, c ≠ 0 := by
  intro c hc
  unfold signed_decimal at hc
  split_ifs at hc
  · rcases List.mem_cons.mp hc with h | h
    · omega
    · have := decimal_range _ c h
      omega
  · have := decimal_range _ c hc
    omega

theorem signed_decimal_length (d : Int) (hlo : -(2 ^ 31) ≤ d) (hhi : d < 2 ^ 31) :
    (signed_decimal d).length ≤ 11 := by
  have h1 : d.natAbs < 10 ^ (9 + 1) := by
    have h1 : d.natAbs ≤ 2 ^ 31 := by omega
    have h2 : (2 : Nat) ^ 31 < 10 ^ (9 + 1) := by norm_num
    exact lt_of_le_of_lt h1 h2
  have h2 := lsd_length_le 10 (by omega) 9 _ h1
  unfold signed_decimal
  split_ifs
  · rw [List.length_cons, decimal_length]
    omega
  · rw [decimal_length]
    omega

theorem parse_signed_decimal_eq (d : Int) : parse_signed_decimal (signed_decimal d) = d := by
  unfold parse_signed_decimal signed_decimal
  by_cases hd : d < 0
  · rw [if_pos hd, List.head?_cons, if_pos rfl, List.tail_cons, decimal_value_decimal]
    omega
  · rw [if_neg hd, decimal_value_decimal]
    have hne : (decimal d.natAbs).head? ≠ some 45 := by
      intro h
      have := decimal_range _ 45 (List.mem_of_mem_head? h)
      omega
    rw [if_neg hne]
    omega

theorem put_list_append (l1 : List Nat) : ∀ (a : Nat → Nat) (p : Nat) (l2 : List Nat),
    put_list a p (l1 ++ l2) = put_list (put_list a p l1) (p + l1.length) l2 := by
  induction l1 with
  | nil =>
    intro a p l2
    simp [put_list]
  | cons x xs ih =>
    intro a p l2
    rw [List.cons_append, put_list, put_list, ih, List.length_cons,
      show p + 1 + xs.length = p + (xs.length + 1) from by omega]

theorem pad_fill_eq (c : Nat) : ∀ (n pp : Nat) (tmp : Nat → Nat),
    pad_fill c n pp tmp = (pp + n, put_list tmp pp (List.replicate n c)) := by
  intro n
  induction n with
  | zero =>
    intro pp tmp
    simp [pad_fill, put_list]
  | succ n ih =>
    intro pp tmp
    rw [pad_fill, ih, List.replicate_succ, put_list,
      show pp + 1 + n = pp + (n + 1) from by omega]

theorem copy_to_tmp_eq (buf : Nat → Nat) (l : List Nat) (hL : strlen buf 0 = l.length)
    (hb : ∀ k, k < l.length → buf k = l.getD k 0) :
    ∀ (fuel i pp : Nat) (tmp : Nat → Nat), l.length - i ≤ fuel →
      copy_to_tmp buf fuel i pp tmp = (pp + (l.length - i), put_list tmp pp (l.drop i)) := by
  intro fuel
  induction fuel with
  | zero =>
    intro i pp tmp h
    have hi : l.length ≤ i := by omega
    rw [copy_to_tmp, List.drop_eq_nil_of_le hi, put_list, Nat.sub_eq_zero_of_le hi,
      Nat.add_zero]
  | succ fuel ih =>
    intro i pp tmp h
    rw [copy_to_tmp, hL]
    by_cases hi : i < l.length
    · rw [if_pos hi, ih _ _ _ (by omega), List.drop_eq_getElem_cons hi, put_list, hb i hi,
        List.getD_eq_getElem _ _ hi,
        show pp + 1 + (l.length - (i + 1)) = pp + (l.length - i) from by omega]
    · have hi2 : l.length ≤ i := by omega
      rw [if_neg hi, List.drop_eq_nil_of_le hi2, put_list, Nat.sub_eq_zero_of_le hi2,
        Nat.add_zero]

theorem copy_to_buf_eq (tmp : Nat → Nat) (l : List Nat) (hL : strlen tmp 0 = l.length)
    (hb : ∀ k, k < l.length → tmp k = l.getD k 0) :
    ∀ (fuel i : Nat) (buf : Nat → Nat), l.length - i ≤ fuel → i ≤ l.length →
      copy_to_buf tmp fuel i buf = (l.length, put_list buf i (l.drop i)) := by
  intro fuel
  induction fuel with
  | zero =>
    intro i buf h h2
    have hi : l.length ≤ i := by omega
    have e : i = l.length := by omega
    rw [copy_to_buf, List.drop_eq_nil_of_le hi, put_list, e]
  | succ fuel ih =>
    intro i buf h h2
    rw [copy_to_buf, hL]
    by_cases hi : i < l.length
    · rw [if_pos hi, ih _ _ (by omega) (by omega), List.drop_eq_getElem_cons hi, put_list,
        hb i hi, List.getD_eq_getElem _ _ hi]
    · have hi2 : l.length ≤ i := by omega
      have e : i = l.length := by omega
      rw [if_neg hi, List.drop_eq_nil_of_le hi2, put_list, e]

/-- A terminated string stored at index 0: its length and its characters. -/
theorem stored_string (a : Nat → Nat) (l : List Nat) (hne : ∀ c ∈ l, c ≠ 0)
    (hlen : l.length < 2 ^ 31 - 1) :
    strlen (poke (put_list a 0 l) (0 + l.length) 0) 0 = l.length ∧
    (∀ k, k < l.length → poke (put_list a 0 l) (0 + l.length) 0 k = l.getD k 0) ∧
    c_string (poke (put_list a 0 l) (0 + l.length) 0) (2 ^ 31 - 1) 0 = l := by
  refine ⟨strlen_from_put_list l a 0 _ hne hlen, ?_, c_string_put_list l a 0 _ hne hlen⟩
  intro k hk
  simp only [poke]
  rw [if_neg (by omega), put_list_apply, if_pos (by omega), Nat.sub_zero]

theorem parse_width_one (buf : Nat → Nat) (W : Nat) (h1 : 1 ≤ W) (h9 : W ≤ 9)
    (hb : buf 0 = 48 + W) : parse_width buf 1 0 0 = (W : Int) := by
  rw [parse_width, if_neg (by rw [hb]; omega), parse_width, hb, wrap32_eq _ (by omega) (by omega)]
  push_cast
  omega

/-- Closed form of `itoa` for the conversion `x`. -/
theorem itoa_x_eq (a : Nat → Nat) (v : Nat) (hv : v < 2 ^ 32) :
    itoa a 0 120 (TimeWarp.toInt32 v) =
      poke (put_list a 0 (hexadecimal v)) (0 + (hexadecimal v).length) 0 := by
  have e : toULong (TimeWarp.toInt32 v) = v := by
    unfold toULong TimeWarp.toInt32
    split_ifs <;> omega
  have hb : v < 16 ^ 32 := by
    have h2 : (2 : Nat) ^ 32 < 16 ^ 32 := by norm_num
    exact lt_trans hv h2
  unfold itoa
  rw [if_neg (fun h => absurd h.1 (by decide)), if_pos rfl, e,
    itoa_body_eq 16 (by omega) _ _ _ hb, map_digit_char_hexadecimal, hexadecimal_length]

theorem hexadecimal_bound (v : Nat) (hv : v < 2 ^ 32) : (hexadecimal v).length ≤ 8 := by
  rw [hexadecimal_length]
  exact lsd_length_le 16 (by omega) 7 v (by
    have h2 : (2 : Nat) ^ 32 = 16 ^ (7 + 1) := by norm_num
    omega)

theorem hex_char_range (r : Nat) (h : r < 16) :
    hex_char r ∈ "0123456789abcdef".toList.map Char.toNat ∧ hex_char r ≠ 0 ∧
    hex_digit_value (hex_char r) = r := by
  interval_cases r <;> decide

theorem hexadecimal_chars (v : Nat) :
    ∀ c ∈ hexadecimal v, c ∈ "0123456789abcdef".toList.map Char.toNat ∧ c ≠ 0 := by
  intro c hc
  unfold hexadecimal at hc
  obtain ⟨r, hr, rfl⟩ := List.mem_map.mp hc
  have h := hex_char_range r (lsd_lt_base 16 v (by omega) r (List.mem_reverse.mp hr))
  exact ⟨h.1, h.2.1⟩

theorem hex_value_hexadecimal (v : Nat) : hex_value (hexadecimal v) = v := by
  unfold hex_value hexadecimal
  rw [foldl_encoded 16 hex_char hex_digit_value _
    (fun r hr => (hex_char_range r (lsd_lt_base 16 v (by omega) r hr)).2.2), ofDigits_lsd]

theorem hex_value_zero_padded (W v : Nat) : hex_value (zero_padded W (hexadecimal v)) = v := by
  have hz : ∀ n, List.foldl (fun acc c => 16 * acc + hex_digit_value c) 0
      (List.replicate n 48) = 0 := by
    intro n
    induction n with
    | zero => rfl
    | succ n ih =>
      rw [List.replicate_succ, List.foldl_cons]
      exact ih
  have h := hex_value_hexadecimal v
  unfold hex_value at h
  unfold hex_value zero_padded
  rw [List.foldl_append, hz, h]

theorem zero_padded_chars (W v : Nat) :
    ∀ c ∈ zero_padded W (hexadecimal v),
      c ∈ "0123456789abcdef".toList.map Char.toNat ∧ c ≠ 0 := by
  intro c hc
  unfold zero_padded at hc
  rcases List.mem_append.mp hc with h | h
  · have e := List.eq_of_mem_replicate h
    subst e
    decide
  · exact hexadecimal_chars v c h

theorem zero_padded_length (W : Nat) (l : List Nat) :
    (zero_padded W l).length = max W l.length := by
  unfold zero_padded
  rw [List.length_append, List.length_replicate]
  omega

/-- The padding step on a stored numeral `H` with the zero flag set: the buffer then
holds the numeral padded with zeros to the width `W`. -/
theorem pad_field_zero (W : Nat) (hW : W ≤ 9) (hW1 : 1 ≤ W) (a tmp : Nat → Nat)
    (H : List Nat) (hne : ∀ c ∈ H, c ≠ 0) (hlen : H.length ≤ 8) :
    ∃ a1, (pad_field 1 (W : Int) (poke (put_list a 0 H) (0 + H.length) 0) tmp).1 =
      poke (put_list a1 0 (zero_padded W H)) (0 + (zero_padded W H).length) 0 := by
  obtain ⟨hs, hk, _⟩ := stored_string a H hne (by omega)
  have hpad : wrap32 ((W : Int) - ((H.length : Nat) : Int)) = (W : Int) - (H.length : Int) :=
    wrap32_eq _ (by omega) (by omega)
  unfold pad_field
  rw [if_pos (by omega), hs]
  simp only []
  rw [hpad]
  by_cases hp : H.length < W
  · have hR : ∀ c ∈ zero_padded W H, c ≠ 0 := by
      intro c hc
      unfold zero_padded at hc
      rcases List.mem_append.mp hc with h | h
      · have e := List.eq_of_mem_replicate h
        omega
      · exact hne c h
    have hPl : (zero_padded W H).length = W := by
      rw [zero_padded_length]
      omega
    have ht : ((W : Int) - (H.length : Int)).toNat = W - H.length := by omega
    rw [if_pos (by omega), if_pos (by decide), ht, pad_fill_eq]
    simp only []
    rw [copy_to_tmp_eq _ H hs hk _ _ _ _ (by omega)]
    simp only [List.drop_zero, Nat.sub_zero]
    have e1 : poke (put_list (put_list tmp 0 (List.replicate (W - H.length) 48))
        (0 + (W - H.length)) H) (0 + (W - H.length) + H.length) 0 =
        poke (put_list tmp 0 (zero_padded W H)) (0 + (zero_padded W H).length) 0 := by
      rw [hPl]
      unfold zero_padded
      rw [put_list_append, List.length_replicate,
        show 0 + (W - H.length) + H.length = 0 + W from by omega]
    rw [e1]
    obtain ⟨hs2, hk2, _⟩ := stored_string tmp (zero_padded W H) hR (by omega)
    rw [copy_to_buf_eq _ (zero_padded W H) hs2 hk2 _ _ _ (by omega) (by omega)]
    simp only [List.drop_zero]
    refine ⟨poke (put_list a 0 H) (0 + H.length) 0, ?_⟩
    simp only [Nat.zero_add]
  · have e : zero_padded W H = H := by
      unfold zero_padded
      rw [Nat.sub_eq_zero_of_le (by omega)]
      rfl
    rw [if_neg (by omega), e]
    exact ⟨a, rfl⟩

/-- The conversion `x` with one width digit `W` in the buffer and the zero flag set. -/
theorem conv_number_hex (W : Nat) (hW : W ≤ 9) (hW1 : 1 ≤ W) (buf tmp : Nat → Nat)
    (args out : List Nat) (v : Nat) (hv : v < 2 ^ 32) (hb : buf 0 = 48 + W) :
    ∃ buf1 tmp1,
      conv_number 120
          { zero_pad := 1, width := 1, buf := buf, tmp := tmp, args := v :: args, out := out } =
        { zero_pad := 1, width := (W : Int), buf := buf1, tmp := tmp1, args := args,
          out := out ++ zero_padded W (hexadecimal v) } := by
  have hne : ∀ c ∈ hexadecimal v, c ≠ 0 := fun c hc => (hexadecimal_chars v c hc).2
  have hl := hexadecimal_bound v hv
  obtain ⟨a1, h1⟩ := pad_field_zero W hW hW1 buf tmp (hexadecimal v) hne hl
  have hR : ∀ c ∈ zero_padded W (hexadecimal v), c ≠ 0 :=
    fun c hc => (zero_padded_chars W v c hc).2
  have hPl : (zero_padded W (hexadecimal v)).length < 2 ^ 31 - 1 := by
    rw [zero_padded_length]
    omega
  obtain ⟨_, _, hc⟩ := stored_string a1 (zero_padded W (hexadecimal v)) hR hPl
  unfold conv_number
  simp only [List.headD_cons, List.tail_cons]
  rw [if_pos (by decide), show ((1 : Int).toNat) = 1 from rfl, parse_width_one buf W hW1 hW hb,
    itoa_x_eq buf v hv, h1, hc]
  exact ⟨_, _, rfl⟩

theorem printf_from_literal (mem : Nat → List Nat) (c : Nat) (format : List Nat) (st : Printf)
    (h : c ≠ 37) :
    printf_from mem false (c :: format) st =
      printf_from mem false format (reset { st with out := st.out ++ [c] }) := by
  rw [printf_from, if_pos h]

/-- A run of ordinary characters of the format is copied to the output. -/
theorem printf_from_literals (mem : Nat → List Nat) (lits : List Nat) :
    ∀ (format : List Nat) (buf tmp : Nat → Nat) (args out : List Nat),
      (∀ c ∈ lits, c ≠ 37) →
      printf_from mem false (lits ++ format)
          { zero_pad := 0, width := 0, buf := buf, tmp := tmp, args := args, out := out } =
        printf_from mem false format
          { zero_pad := 0, width := 0, buf := buf, tmp := tmp, args := args,
            out := out ++ lits } := by
  induction lits with
  | nil =>
    intro format buf tmp args out _
    simp
  | cons c cs ih =>
    intro format buf tmp args out h
    rw [List.cons_append, printf_from_literal mem c _ _ (h c (List.mem_cons_self _ _))]
    simp only [reset]
    rw [ih _ _ _ _ _ (fun x hx => h x (List.mem_cons_of_mem _ hx)), List.append_assoc]
    rfl

/-- The conversion of the form percent, zero, one width digit, `x`. -/
theorem printf_from_zero_hex (mem : Nat → List Nat) (format : List Nat) (W : Nat)
    (hW : W ≤ 9) (hW1 : 1 ≤ W) (buf tmp : Nat → Nat) (args out : List Nat) (v : Nat)
    (hv : v < 2 ^ 32) :
    ∃ buf1 tmp1,
      printf_from mem false (37 :: 48 :: (48 + W) :: 120 :: format)
          { zero_pad := 0, width := 0, buf := buf, tmp := tmp, args := v :: args, out := out } =
        printf_from mem false format
          { zero_pad := 0, width := 0, buf := buf1, tmp := tmp1, args := args,
            out := out ++ zero_padded W (hexadecimal v) } := by
  obtain ⟨buf1, tmp1, h⟩ := conv_number_hex W hW hW1 (poke buf 0 (48 + W)) tmp args out v hv
    (by simp [poke])
  refine ⟨buf1, tmp1, ?_⟩
  rw [printf_from, if_neg (by decide), printf_from, if_pos rfl, printf_from,
    if_neg (by omega), if_neg (by omega), if_neg (by omega), if_pos (by omega), printf_from,
    if_neg (by decide), if_pos (by decide)]
  simp only [Int.toNat_zero, Int.zero_add]
  rw [show wrap32 1 = 1 from by decide, h]
  rfl

theorem print_leaf_format_eq :
    print_leaf_format =
      ("   0x".toList.map Char.toNat) ++ 37 :: 48 :: (48 + 8) :: 120 ::
      ((" 0x".toList.map Char.toNat) ++ 37 :: 48 :: (48 + 2) :: 120 ::
      ((": eax=0x".toList.map Char.toNat) ++ 37 :: 48 :: (48 + 8) :: 120 ::
      ((" ebx=0x".toList.map Char.toNat) ++ 37 :: 48 :: (48 + 8) :: 120 ::
      ((" ecx=0x".toList.map Char.toNat) ++ 37 :: 48 :: (48 + 8) :: 120 ::
      ((" edx=0x".toList.map Char.toNat) ++ 37 :: 48 :: (48 + 8) :: 120 ::
      (("\n".toList.map Char.toNat) ++ [])))))) := by
  decide

/-- The line that `print_leaf` prints. -/
theorem print_leaf_eq (mem : Nat → List Nat) (buf tmp : Nat → Nat)
    (leaf idx eax ebx ecx edx : Nat) (h1 : leaf < 2 ^ 32) (h2 : idx < 2 ^ 32)
    (h3 : eax < 2 ^ 32) (h4 : ebx < 2 ^ 32) (h5 : ecx < 2 ^ 32) (h6 : edx < 2 ^ 32) :
    print_leaf mem buf tmp leaf idx eax ebx ecx edx =
      ("   0x".toList.map Char.toNat) ++ zero_padded 8 (hexadecimal leaf) ++
      (" 0x".toList.map Char.toNat) ++ zero_padded 2 (hexadecimal idx) ++
      (": eax=0x".toList.map Char.toNat) ++ zero_padded 8 (hexadecimal eax) ++
      (" ebx=0x".toList.map Char.toNat) ++ zero_padded 8 (hexadecimal ebx) ++
      (" ecx=0x".toList.map Char.toNat) ++ zero_padded 8 (hexadecimal ecx) ++
      (" edx=0x".toList.map Char.toNat) ++ zero_padded 8 (hexadecimal edx) ++
      ("\n".toList.map Char.toNat) := by
  unfold print_leaf printf
  rw [print_leaf_format_eq, printf_from_literals mem _ _ _ _ _ _ (by decide)]
  obtain ⟨b1, t1, e1⟩ := printf_from_zero_hex mem
    ((" 0x".toList.map Char.toNat) ++ 37 :: 48 :: (48 + 2) :: 120 ::
      ((": eax=0x".toList.map Char.toNat) ++ 37 :: 48 :: (48 + 8) :: 120 ::
      ((" ebx=0x".toList.map Char.toNat) ++ 37 :: 48 :: (48 + 8) :: 120 ::
      ((" ecx=0x".toList.map Char.toNat) ++ 37 :: 48 :: (48 + 8) :: 120 ::
      ((" edx=0x".toList.map Char.toNat) ++ 37 :: 48 :: (48 + 8) :: 120 ::
      (("\n".toList.map Char.toNat) ++ []))))))
    8 (by omega) (by omega) buf tmp [idx, eax, ebx, ecx, edx]
    ([] ++ "   0x".toList.map Char.toNat) leaf h1
  rw [e1, printf_from_literals mem _ _ _ _ _ _ (by decide)]
  obtain ⟨b2, t2, e2⟩ := printf_from_zero_hex mem
    ((": eax=0x".toList.map Char.toNat) ++ 37 :: 48 :: (48 + 8) :: 120 ::
      ((" ebx=0x".toList.map Char.toNat) ++ 37 :: 48 :: (48 + 8) :: 120 ::
      ((" ecx=0x".toList.map Char.toNat) ++ 37 :: 48 :: (48 + 8) :: 120 ::
      ((" edx=0x".toList.map Char.toNat) ++ 37 :: 48 :: (48 + 8) :: 120 ::
      (("\n".toList.map Char.toNat) ++ [])))))
    2 (by omega) (by omega) b1 t1 [eax, ebx, ecx, edx]
    ([] ++ "   0x".toList.map Char.toNat ++ zero_padded 8 (hexadecimal leaf) ++
      " 0x".toList.map Char.toNat) idx h2
  rw [e2, printf_from_literals mem _ _ _ _ _ _ (by decide)]
  obtain ⟨b3, t3, e3⟩ := printf_from_zero_hex mem
    ((" ebx=0x".toList.map Char.toNat) ++ 37 :: 48 :: (48 + 8) :: 120 ::
      ((" ecx=0x".toList.map Char.toNat) ++ 37 :: 48 :: (48 + 8) :: 120 ::
      ((" edx=0x".toList.map Char.toNat) ++ 37 :: 48 :: (48 + 8) :: 120 ::
      (("\n".toList.map Char.toNat) ++ []))))
    8 (by omega) (by omega) b2 t2 [ebx, ecx, edx]
    ([] ++ "   0x".toList.map Char.toNat ++ zero_padded 8 (hexadecimal leaf) ++
      " 0x".toList.map Char.toNat ++ zero_padded 2 (hexadecimal idx) ++
      ": eax=0x".toList.map Char.toNat) eax h3
  rw [e3, printf_from_literals mem _ _ _ _ _ _ (by decide)]
  obtain ⟨b4, t4, e4⟩ := printf_from_zero_hex mem
    ((" ecx=0x".toList.map Char.toNat) ++ 37 :: 48 :: (48 + 8) :: 120 ::
      ((" edx=0x".toList.map Char.toNat) ++ 37 :: 48 :: (48 + 8) :: 120 ::
      (("\n".toList.map Char.toNat) ++ [])))
    8 (by omega) (by omega) b3 t3 [ecx, edx]
    ([] ++ "   0x".toList.map Char.toNat ++ zero_padded 8 (hexadecimal leaf) ++
      " 0x".toList.map Char.toNat ++ zero_padded 2 (hexadecimal idx) ++
      ": eax=0x".toList.map Char.toNat ++ zero_padded 8 (hexadecimal eax) ++
      " ebx=0x".toList.map Char.toNat) ebx h4
  rw [e4, printf_from_literals mem _ _ _ _ _ _ (by decide)]
  obtain ⟨b5, t5, e5⟩ := printf_from_zero_hex mem
    ((" edx=0x".toList.map Char.toNat) ++ 37 :: 48 :: (48 + 8) :: 120 ::
      (("\n".toList.map Char.toNat) ++ []))
    8 (by omega) (by omega) b4 t4 [edx]
    ([] ++ "   0x".toList.map Char.toNat ++ zero_padded 8 (hexadecimal leaf) ++
      " 0x".toList.map Char.toNat ++ zero_padded 2 (hexadecimal idx) ++
      ": eax=0x".toList.map Char.toNat ++ zero_padded 8 (hexadecimal eax) ++
      " ebx=0x".toList.map Char.toNat ++ zero_padded 8 (hexadecimal ebx) ++
      " ecx=0x".toList.map Char.toNat) ecx h5
  rw [e5, printf_from_literals mem _ _ _ _ _ _ (by decide)]
  obtain ⟨b6, t6, e6⟩ := printf_from_zero_hex mem
    (("\n".toList.map Char.toNat) ++ [])
    8 (by omega) (by omega) b5 t5 []
    ([] ++ "   0x".toList.map Char.toNat ++ zero_padded 8 (hexadecimal leaf) ++
      " 0x".toList.map Char.toNat ++ zero_padded 2 (hexadecimal idx) ++
      ": eax=0x".toList.map Char.toNat ++ zero_padded 8 (hexadecimal eax) ++
      " ebx=0x".toList.map Char.toNat ++ zero_padded 8 (hexadecimal ebx) ++
      " ecx=0x".toList.map Char.toNat ++ zero_padded 8 (hexadecimal ecx) ++
      " edx=0x".toList.map Char.toNat) edx h6
  rw [e6, printf_from_literals mem _ _ _ _ _ _ (by decide), printf_from, List.nil_append]

/-- C14: for every 32-bit signed integer `d`, zero and the minimum value included,
`itoa (buf, 'd', d)` stores at `buf` the signed decimal numeral of `d` and a
terminating NUL and changes nothing else: a minus sign followed by the decimal digits
of the magnitude when `d` is negative, the decimal digits of `d` otherwise, most
significant digit first and without leading zeros, the single digit 0 for zero. The
string has at most 11 characters, so it fits in the 20 bytes of the buffer of `printf`
together with its terminator, and reading it back as a signed decimal numeral gives
`d` again. -/
theorem itoa_decimal_round_trip (a : Nat → Nat) (buf : Nat) (d : Int)
    (hlo : -(2 ^ 31) ≤ d) (hhi : d < 2 ^ 31) :
    itoa a buf 100 d =
      poke (put_list a buf (signed_decimal d)) (buf + (signed_decimal d).length) 0 ∧
    c_string (itoa a buf 100 d) 20 buf = signed_decimal d ∧
    itoa a buf 100 d (buf + (signed_decimal d).length) = 0 ∧
    (signed_decimal d).length ≤ 11 ∧
    (d < 0 → signed_decimal d = 45 :: decimal d.natAbs) ∧
    (0 ≤ d → signed_decimal d = decimal d.natAbs) ∧
    (d ≠ 0 →
      decimal d.natAbs = (Nat.digits 10 d.natAbs).reverse.map (fun r => r + 48) ∧
      (decimal d.natAbs).head? ≠ some 48) ∧
    (d = 0 → signed_decimal d = [48]) ∧
    (∀ c ∈ decimal d.natAbs, 48 ≤ c ∧ c ≤ 57) ∧
    parse_signed_decimal (c_string (itoa a buf 100 d) 20 buf) = d := by
  have hlen := signed_decimal_length d hlo hhi
  have hstr : c_string (itoa a buf 100 d) 20 buf = signed_decimal d := by
    rw [itoa_d_eq a buf d hlo hhi]
    exact c_string_put_list _ a buf 20 (signed_decimal_ne_zero d) (by omega)
  refine ⟨itoa_d_eq a buf d hlo hhi, hstr, ?_, hlen, ?_, ?_, ?_, ?_, decimal_range _, ?_⟩
  · rw [itoa_d_eq a buf d hlo hhi]
    simp only [poke, if_true]
  · intro h
    rw [signed_decimal, if_pos h]
  · intro h
    rw [signed_decimal, if_neg (by omega)]
  · intro h
    have hn : d.natAbs ≠ 0 := by omega
    refine ⟨?_, decimal_head _ hn⟩
    rw [decimal, lsd, if_neg hn]
  · intro h
    subst h
    decide
  · rw [hstr]
    exact parse_signed_decimal_eq d

theorem itoa_decimal_round_trip_witness :
    (-(2 ^ 31) : Int) ≤ -2147483648 ∧ (-2147483648 : Int) < 2 ^ 31 ∧
    c_string (itoa (fun _ => 0) 0 100 (-2147483648)) 20 0 = signed_decimal (-2147483648) ∧
    (c_string (itoa (fun _ => 0) 0 100 (-2147483648)) 20 0).map Char.ofNat =
      "-2147483648".toList ∧
    parse_signed_decimal (c_string (itoa (fun _ => 0) 0 100 (-2147483648)) 20 0) =
      -2147483648 :=
  ⟨by decide, by decide,
    (itoa_decimal_round_trip (fun _ => 0) 0 (-2147483648) (by decide) (by decide)).2.1,
    by decide,
    (itoa_decimal_round_trip (fun _ => 0) 0 (-2147483648) (by decide)
      (by decide)).2.2.2.2.2.2.2.2.2⟩

/-- C15: for every 32-bit value `v` and every width digit `W` from 1 to 9, the
conversion percent, zero, `W`, `x` of `printf` applied to `v` emits exactly the
hexadecimal numeral of `v` in lower case, padded on the left with the digit 0 to the
length `max W n`, where `n` is the number of hexadecimal digits of `v`, and consumes
one argument. The width and the zero flag are 0 again when the rest of the format is
processed, so a following conversion of the same form prints its own padded numeral.
With the width 8 the output has exactly 8 characters, all among `0-9a-f`, and its
value as a hexadecimal numeral is `v`. The line of `print_leaf` is the text of its
format with the six padded numerals in place of the conversions. -/
theorem printf_zero_padded_hex (mem : Nat → List Nat) (format : List Nat) (W : Nat)
    (buf tmp : Nat → Nat) (args out : List Nat) (v : Nat)
    (hW1 : 1 ≤ W) (hW9 : W ≤ 9) (hv : v < 2 ^ 32) :
    (∃ buf1 tmp1,
      printf_from mem false (37 :: 48 :: (48 + W) :: 120 :: format)
          { zero_pad := 0, width := 0, buf := buf, tmp := tmp, args := v :: args, out := out } =
        printf_from mem false format
          { zero_pad := 0, width := 0, buf := buf1, tmp := tmp1, args := args,
            out := out ++ zero_padded W (hexadecimal v) }) ∧
    printf mem buf tmp [37, 48, 48 + W, 120] [v] = zero_padded W (hexadecimal v) ∧
    zero_padded W (hexadecimal v) =
      List.replicate (W - (hexadecimal v).length) 48 ++ hexadecimal v ∧
    (zero_padded W (hexadecimal v)).length = max W (hexadecimal v).length ∧
    (v ≠ 0 → hexadecimal v = (Nat.digits 16 v).reverse.map hex_char) ∧
    (v = 0 → hexadecimal v = [48]) ∧
    (∀ c ∈ zero_padded W (hexadecimal v), c ∈ "0123456789abcdef".toList.map Char.toNat) ∧
    hex_value (zero_padded W (hexadecimal v)) = v ∧
    (zero_padded 8 (hexadecimal v)).length = 8 ∧
    (∀ W2 v2, 1 ≤ W2 → W2 ≤ 9 → v2 < 2 ^ 32 →
      printf mem buf tmp [37, 48, 48 + W, 120, 37, 48, 48 + W2, 120] [v, v2] =
        zero_padded W (hexadecimal v) ++ zero_padded W2 (hexadecimal v2)) ∧
    (∀ idx eax ebx ecx edx, idx < 2 ^ 32 → eax < 2 ^ 32 → ebx < 2 ^ 32 → ecx < 2 ^ 32 →
      edx < 2 ^ 32 →
      print_leaf mem buf tmp v idx eax ebx ecx edx =
        ("   0x".toList.map Char.toNat) ++ zero_padded 8 (hexadecimal v) ++
        (" 0x".toList.map Char.toNat) ++ zero_padded 2 (hexadecimal idx) ++
        (": eax=0x".toList.map Char.toNat) ++ zero_padded 8 (hexadecimal eax) ++
        (" ebx=0x".toList.map Char.toNat) ++ zero_padded 8 (hexadecimal ebx) ++
        (" ecx=0x".toList.map Char.toNat) ++ zero_padded 8 (hexadecimal ecx) ++
        (" edx=0x".toList.map Char.toNat) ++ zero_padded 8 (hexadecimal edx) ++
        ("\n".toList.map Char.toNat)) := by
  refine ⟨printf_from_zero_hex mem format W hW9 hW1 buf tmp args out v hv, ?_, rfl,
    zero_padded_length W _, ?_, ?_, fun c hc => (zero_padded_chars W v c hc).1,
    hex_value_zero_padded W v, ?_, ?_, ?_⟩
  · obtain ⟨b1, t1, e1⟩ := printf_from_zero_hex mem [] W hW9 hW1 buf tmp [] [] v hv
    unfold printf
    rw [e1, printf_from, List.nil_append]
  · intro h
    rw [hexadecimal, lsd, if_neg h]
  · intro h
    subst h
    decide
  · have := hexadecimal_bound v hv
    rw [zero_padded_length]
    omega
  · intro W2 v2 h1 h2 h3
    obtain ⟨b1, t1, e1⟩ := printf_from_zero_hex mem [37, 48, 48 + W2, 120] W hW9 hW1 buf tmp
      [v2] [] v hv
    obtain ⟨b2, t2, e2⟩ := printf_from_zero_hex mem [] W2 h2 h1 b1 t1 []
      ([] ++ zero_padded W (hexadecimal v)) v2 h3
    unfold printf
    rw [e1, e2, printf_from, List.nil_append]
  · intro idx eax ebx ecx edx h2 h3 h4 h5 h6
    exact print_leaf_eq mem buf tmp v idx eax ebx ecx edx hv h2 h3 h4 h5 h6

theorem printf_zero_padded_hex_witness :
    1 ≤ 8 ∧ 8 ≤ 9 ∧ 0xbeef < 2 ^ 32 ∧
    printf (fun _ => []) (fun _ => 0) (fun _ => 0) [37, 48, 48 + 8, 120] [0xbeef] =
      zero_padded 8 (hexadecimal 0xbeef) ∧
    (printf (fun _ => []) (fun _ => 0) (fun _ => 0) [37, 48, 48 + 8, 120] [0xbeef]).map
      Char.ofNat = "0000beef".toList ∧
    hex_value (zero_padded 8 (hexadecimal 0xbeef)) = 0xbeef :=
  ⟨by decide, by decide, by decide,
    (printf_zero_padded_hex (fun _ => []) [] 8 (fun _ => 0) (fun _ => 0) [] [] 0xbeef
      (by decide) (by decide) (by decide)).2.1,
    by decide,
    (printf_zero_padded_hex (fun _ => []) [] 8 (fun _ => 0) (fun _ => 0) [] [] 0xbeef
      (by decide) (by decide) (by decide)).2.2.2.2.2.2.2.1⟩

end CpuidKernel
